import Mathlib

/-!
# gocale: template localisation and the JSON form of a locale

A shallow embedding of `gocale.go` (package `gocale`).  Go strings are byte
sequences, so a string is a list of bytes; indexing and slicing are fallible
(an out-of-range index or slice is a run-time panic in Go) and the two `for`
loops of `Locale.Localize` are driven by an explicit fuel argument.

`Locale.ToJSON` and `LoadFromString` hand their work to `json.Marshal` and
`json.Unmarshal` of the Go standard library.  Their behaviour on a value of type
`Locale` is written out here after package `encoding/json`: the text that
`Marshal` writes, and the reading of an arbitrary text by `Unmarshal`.

Of `language.go` (package `language`) the file holds the table of the language
codes and `GetSystemLanguage`, the latter as a function of what the environment
and the command give.
-/

set_option maxRecDepth 100000

namespace Gocale

/-! ## Bytes, strings and UTF-8 -/

/-- A Go `byte`. -/
abbrev Byte := Fin 256

/-- A Go `string`: an immutable sequence of bytes. -/
abbrev GoString := List Byte

/-- `utf8.RuneError`, the replacement character U+FFFD. -/
def RuneError : Nat := 0xFFFD

/-- `utf8.AppendRune`: the UTF-8 encoding of the rune `r`; a surrogate or a value
above U+10FFFF is encoded as `RuneError`. -/
def encodeRune (r : Nat) : GoString :=
  if r < 0x80 then [Fin.ofNat r]
  else if r < 0x800 then [Fin.ofNat (0xC0 + r / 64), Fin.ofNat (0x80 + r % 64)]
  else if 0x10FFFF < r ∨ (0xD800 ≤ r ∧ r ≤ 0xDFFF) then [0xEF, 0xBF, 0xBD]
  else if r < 0x10000 then
    [Fin.ofNat (0xE0 + r / 4096), Fin.ofNat (0x80 + r / 64 % 64), Fin.ofNat (0x80 + r % 64)]
  else
    [Fin.ofNat (0xF0 + r / 262144), Fin.ofNat (0x80 + r / 4096 % 64),
     Fin.ofNat (0x80 + r / 64 % 64), Fin.ofNat (0x80 + r % 64)]

/-- The range accepted for the second byte of an encoding that starts with `s0`
(`acceptRanges` of package `utf8`). -/
def acceptRange (s0 : Byte) : Nat × Nat :=
  if s0.val = 0xE0 then (0xA0, 0xBF)
  else if s0.val = 0xED then (0x80, 0x9F)
  else if s0.val = 0xF0 then (0x90, 0xBF)
  else if s0.val = 0xF4 then (0x80, 0x8F)
  else (0x80, 0xBF)

/-- `utf8.DecodeRuneInString`: the first rune of `s` and its width in bytes;
`(RuneError, 0)` for the empty string and `(RuneError, 1)` for an invalid or
truncated encoding. -/
def decodeRune : GoString → Nat × Nat
  | [] => (RuneError, 0)
  | s0 :: rest =>
    if s0.val < 0x80 then (s0.val, 1)
    else if s0.val < 0xC2 ∨ 0xF4 < s0.val then (RuneError, 1)
    else if s0.val < 0xE0 then
      match rest with
      | s1 :: _ =>
        if 0x80 ≤ s1.val ∧ s1.val ≤ 0xBF then (s0.val % 32 * 64 + s1.val % 64, 2)
        else (RuneError, 1)
      | _ => (RuneError, 1)
    else if s0.val < 0xF0 then
      match rest with
      | s1 :: s2 :: _ =>
        if (acceptRange s0).1 ≤ s1.val ∧ s1.val ≤ (acceptRange s0).2 ∧
            0x80 ≤ s2.val ∧ s2.val ≤ 0xBF then
          (s0.val % 16 * 4096 + s1.val % 64 * 64 + s2.val % 64, 3)
        else (RuneError, 1)
      | _ => (RuneError, 1)
    else
      match rest with
      | s1 :: s2 :: s3 :: _ =>
        if (acceptRange s0).1 ≤ s1.val ∧ s1.val ≤ (acceptRange s0).2 ∧
            0x80 ≤ s2.val ∧ s2.val ≤ 0xBF ∧ 0x80 ≤ s3.val ∧ s3.val ≤ 0xBF then
          (s0.val % 8 * 262144 + s1.val % 64 * 4096 + s2.val % 64 * 64 + s3.val % 64, 4)
        else (RuneError, 1)
      | _ => (RuneError, 1)

/-- The loop of `utf8.ValidString`; the first argument counts the bytes of the
current encoding that are still to be passed over. -/
def validFrom : Nat → GoString → Bool
  | _, [] => true
  | skip + 1, _ :: rest => validFrom skip rest
  | 0, s0 :: rest =>
    if s0.val < 0x80 then validFrom 0 rest
    else if (decodeRune (s0 :: rest)).2 ≤ 1 then false
    else validFrom ((decodeRune (s0 :: rest)).2 - 1) rest

/-- `utf8.ValidString`. -/
def validString (s : GoString) : Bool :=
  validFrom 0 s

/-- UTF-8 encoding of one code point. -/
def utf8Bytes (c : Char) : GoString :=
  let n := c.toNat
  if n < 0x80 then [Fin.ofNat n]
  else if n < 0x800 then [Fin.ofNat (0xC0 + n / 64), Fin.ofNat (0x80 + n % 64)]
  else if n < 0x10000 then
    [Fin.ofNat (0xE0 + n / 4096), Fin.ofNat (0x80 + n / 64 % 64), Fin.ofNat (0x80 + n % 64)]
  else
    [Fin.ofNat (0xF0 + n / 262144), Fin.ofNat (0x80 + n / 4096 % 64),
     Fin.ofNat (0x80 + n / 64 % 64), Fin.ofNat (0x80 + n % 64)]

/-- The bytes of a Go string literal (Go source text is UTF-8). -/
def goStr (s : String) : GoString :=
  (s.toList.map utf8Bytes).flatten

/-- Go's conversion `string(b)` of a byte `b`: the UTF-8 encoding of the code
point whose number is `b` (one byte below 0x80, two bytes from 0x80 on). -/
def stringOfByte (b : Byte) : GoString :=
  if b.val < 0x80 then [b]
  else [Fin.ofNat (0xC0 + b.val / 64), Fin.ofNat (0x80 + b.val % 64)]

/-! ## The locale, its dictionary and `Localize` -/

/-- A Go `map[string]string` value that is not nil, as a list of entries;
`m[k]` reads the first entry whose key is `k`. -/
abbrev GoMap := List (GoString × GoString)

/-- The struct `Locale`; a nil `Dictionary` is `none`. -/
structure Locale where
  Language : GoString
  LanguageCode : GoString
  Dictionary : Option GoMap
  deriving DecidableEq

/-- The map read `m[k]`: the value stored under `k`, or the zero value `""`. -/
def mapIndex (m : GoMap) (k : GoString) : GoString :=
  match m.lookup k with
  | some v => v
  | none => []

/-- Ways in which running the Go code can fail to produce a value. -/
inductive Fault where
  | indexOutOfRange
  | sliceOutOfRange
  | fuelExhausted
  deriving DecidableEq, Repr

deriving instance DecidableEq for Except

/-- The index expression `s[i]`; panics when `i` is not below `len(s)`. -/
def index (s : GoString) (i : Nat) : Except Fault Byte :=
  match s.get? i with
  | some b => .ok b
  | none => .error .indexOutOfRange

/-- The slice expression `s[lo:hi]`; panics unless `lo <= hi <= len(s)`. -/
def slice (s : GoString) (lo hi : Nat) : Except Fault GoString :=
  if lo ≤ hi ∧ hi ≤ s.length then .ok ((s.drop lo).take (hi - lo))
  else .error .sliceOutOfRange

/-- The opening marker `"{."`. -/
def openMarker : GoString := [0x7B, 0x2E]

/-- The closing marker `".}"`. -/
def closeMarker : GoString := [0x2E, 0x7D]

/-- The condition `pos + 2 < len(template) && template[pos:pos+2] == marker`;
the slice is only evaluated when the length test succeeds. -/
def markerAt (template marker : GoString) (pos : Nat) : Except Fault Bool :=
  if pos + 2 < template.length then do
    let s ← slice template pos (pos + 2)
    pure (decide (s = marker))
  else pure false

/-- `Locale.Translate`: the map read `locale.Dictionary[global]`, which yields
the zero value `""` for an absent key and for a nil map. -/
def Locale.Translate (locale : Locale) (global : GoString) : GoString :=
  match locale.Dictionary with
  | none => []
  | some m => mapIndex m global

/-- The inner loop of `Locale.Localize`, from its condition `pos < len(template)`
on: returns the values of `pos` and `key` when the loop is left. -/
def captureLoop (template : GoString) : Nat → Nat → GoString → Except Fault (Nat × GoString)
  | 0, _, _ => .error .fuelExhausted
  | fuel + 1, pos, key =>
    if pos < template.length then do
      let char ← index template pos
      let closing ← markerAt template closeMarker pos
      if closing then
        pure (pos + 2, key)
      else
        captureLoop template fuel (pos + 1) (key ++ stringOfByte char)
    else pure (pos, key)

/-- The outer loop of `Locale.Localize`, from its condition `pos < len(template)`
on. -/
def localizeLoop (locale : Locale) (template : GoString) :
    Nat → Nat → GoString → Except Fault GoString
  | 0, _, _ => .error .fuelExhausted
  | fuel + 1, pos, result =>
    if pos < template.length then do
      let opening ← markerAt template openMarker pos
      if opening then
        let pos := pos + 2
        let _ ← index template pos
        let r ← captureLoop template (template.length + 1) pos []
        localizeLoop locale template fuel r.1 (result ++ locale.Translate r.2)
      else
        let c ← index template pos
        localizeLoop locale template fuel (pos + 1) (result ++ stringOfByte c)
    else pure result

/-- `Locale.Localize`. -/
def Locale.Localize (locale : Locale) (template : GoString) : Except Fault GoString :=
  localizeLoop locale template (template.length + 1) 0 []

/-- `CreateLocale`. -/
def CreateLocale (language code : GoString) : Locale :=
  { Language := language, LanguageCode := code, Dictionary := some [] }

/-! ## `encoding/json` for a `Locale`

`json.Marshal` writes the three fields in the order of the struct; a string is
written by `appendString` with `escapeHTML` set, a nil map as `null`, and the
keys of a map sorted.  `json.Unmarshal` first checks the whole text against the
JSON grammar and then stores the members of the top-level object into the
fields they select; a value of the wrong type for its field is a type error
that is reported after the rest has been stored.  The limit that later Go
releases put on the nesting depth is not part of this model.
-/

/-- The digit `"0123456789abcdef"[n]`. -/
def hexDigit (n : Nat) : Byte :=
  if n < 10 then Fin.ofNat (0x30 + n) else Fin.ofNat (0x57 + n)

/-- What `appendString` of package `encoding/json` (with `escapeHTML` set) writes
for one byte below 0x80.  Backspace and form feed are written with their short
escapes, as since Go 1.22; earlier releases write the six-byte escapes for them,
which are read back to the same bytes. -/
def escapeAscii (b : Byte) : GoString :=
  if b = 0x22 ∨ b = 0x5C then [0x5C, b]
  else if b = 0x08 then [0x5C, 0x62]
  else if b = 0x0C then [0x5C, 0x66]
  else if b = 0x0A then [0x5C, 0x6E]
  else if b = 0x0D then [0x5C, 0x72]
  else if b = 0x09 then [0x5C, 0x74]
  else if b.val < 0x20 ∨ b = 0x3C ∨ b = 0x3E ∨ b = 0x26 then
    [0x5C, 0x75, 0x30, 0x30, hexDigit (b.val / 16), hexDigit (b.val % 16)]
  else [b]

/-- One round of the loop of `appendString` at the byte `s0`, followed by
`rest`: the bytes written for the rune that starts there, and its width.  An
invalid encoding is written as the escape of U+FFFD; U+2028 and U+2029 are
escaped. -/
def escapeStep (s0 : Byte) (rest : GoString) : GoString × Nat :=
  if s0.val < 0x80 then (escapeAscii s0, 1)
  else if (decodeRune (s0 :: rest)).1 = RuneError ∧ (decodeRune (s0 :: rest)).2 = 1 then
    ([0x5C, 0x75, 0x66, 0x66, 0x66, 0x64], 1)
  else if (decodeRune (s0 :: rest)).1 = 0x2028 ∨ (decodeRune (s0 :: rest)).1 = 0x2029 then
    ([0x5C, 0x75, 0x32, 0x30, 0x32, hexDigit ((decodeRune (s0 :: rest)).1 % 16)],
      (decodeRune (s0 :: rest)).2)
  else ((s0 :: rest).take (decodeRune (s0 :: rest)).2, (decodeRune (s0 :: rest)).2)

/-- The loop of `appendString`: the body of the JSON string, between the quotes;
the first argument counts the bytes of the current rune that are still to be
passed over. -/
def escapeFrom : Nat → GoString → GoString
  | _, [] => []
  | skip + 1, _ :: rest => escapeFrom skip rest
  | 0, s0 :: rest => (escapeStep s0 rest).1 ++ escapeFrom ((escapeStep s0 rest).2 - 1) rest

/-- The body of a JSON string as `appendString` writes it. -/
def escapeBody (s : GoString) : GoString :=
  escapeFrom 0 s

/-- `appendString`: a Go string as a quoted JSON string. -/
def appendString (s : GoString) : GoString :=
  0x22 :: (escapeBody s ++ [0x22])

/-- The keys of a map in the order in which `json.Marshal` writes them: each key
once, sorted as strings. -/
def sortedKeys (m : GoMap) : List GoString :=
  ((m.map Prod.fst).dedup).insertionSort (fun a b => a ≤ b)

/-- The members of a JSON object written for the keys `ks` of the map `m`. -/
def encodeEntries (m : GoMap) : Bool → List GoString → GoString
  | _, [] => []
  | first, k :: ks =>
    (if first then [] else [0x2C]) ++ appendString k ++ [0x3A] ++
      appendString (mapIndex m k) ++ encodeEntries m false ks

/-- What `json.Marshal` writes for a `map[string]string`. -/
def encodeMap : Option GoMap → GoString
  | none => goStr "null"
  | some m => 0x7B :: (encodeEntries m true (sortedKeys m) ++ [0x7D])

/-- What `json.Marshal` writes for a `Locale`. -/
def encodeLocale (locale : Locale) : GoString :=
  goStr "\x7b\"Language\":" ++ appendString locale.Language ++
    goStr ",\"LanguageCode\":" ++ appendString locale.LanguageCode ++
    goStr ",\"Dictionary\":" ++ encodeMap locale.Dictionary ++ [0x7D]

/-- The errors of `json.Unmarshal`, and the exhaustion of the fuel that drives
the recursive descent of this model. -/
inductive JsonError where
  | malformed
  | typeMismatch
  | fuelExhausted
  deriving DecidableEq, Repr

/-- A JSON value; a number is not read into any field of a `Locale`, so its
digits are not kept. -/
inductive Json where
  | null
  | bool (b : Bool)
  | number
  | str (s : GoString)
  | arr (items : List Json)
  | obj (members : List (GoString × Json))

/-- JSON white space. -/
def isSpace (b : Byte) : Bool :=
  b = 0x20 || b = 0x09 || b = 0x0D || b = 0x0A

/-- Passes over white space. -/
def skipSpace : GoString → GoString
  | [] => []
  | b :: bs => if isSpace b then skipSpace bs else b :: bs

/-- The value of a hexadecimal digit. -/
def hexValue (b : Byte) : Option Nat :=
  if 0x30 ≤ b.val ∧ b.val ≤ 0x39 then some (b.val - 0x30)
  else if 0x61 ≤ b.val ∧ b.val ≤ 0x66 then some (b.val - 0x57)
  else if 0x41 ≤ b.val ∧ b.val ≤ 0x46 then some (b.val - 0x37)
  else none

/-- `getu4` without the leading backslash and `u`: the value of four
hexadecimal digits. -/
def hex4 (h1 h2 h3 h4 : Byte) : Option Nat :=
  match hexValue h1, hexValue h2, hexValue h3, hexValue h4 with
  | some a, some b, some c, some d => some (a * 4096 + b * 256 + c * 16 + d)
  | _, _, _, _ => none

/-- The character a one-letter escape stands for. -/
def simpleEscape (e : Byte) : Option Byte :=
  if e = 0x22 ∨ e = 0x5C ∨ e = 0x2F then some e
  else if e = 0x62 then some 0x08
  else if e = 0x66 then some 0x0C
  else if e = 0x6E then some 0x0A
  else if e = 0x72 then some 0x0D
  else if e = 0x74 then some 0x09
  else none

/-- Puts `p` in front of the string read so far. -/
def consRead (p : GoString) : Option (GoString × GoString) → Option (GoString × GoString)
  | some (s, rest) => some (p ++ s, rest)
  | none => none

/-- `utf16.DecodeRune` on a high and a low surrogate. -/
def surrogatePair (r1 r2 : Nat) : Nat :=
  (r1 - 0xD800) * 1024 + (r2 - 0xDC00) + 0x10000

/-- The rune denoted by the surrogate `rr` and the escape that follows it in
`s`, when they form a valid pair (`utf16.DecodeRune` does not give U+FFFD). -/
def pairedRune (rr : Nat) (s : GoString) : Option Nat :=
  match s with
  | c1 :: c2 :: g1 :: g2 :: g3 :: g4 :: _ =>
    if c1 = 0x5C ∧ c2 = 0x75 then
      match hex4 g1 g2 g3 g4 with
      | some rr1 =>
        if rr < 0xDC00 ∧ 0xDC00 ≤ rr1 ∧ rr1 < 0xE000 then some (surrogatePair rr rr1)
        else none
      | none => none
    else none
  | _ => none

/-- What stands at one place inside a JSON string literal. -/
inductive Token where
  | close
  | bad
  | emit (out : GoString) (size : Nat)
  deriving DecidableEq

/-- Reads what stands at the byte `b`, followed by `rest`, inside a string
literal: the closing quote, something the scanner rejects, or `size` bytes that
denote the bytes `out` (`unquote`: an escape, or a rune, where an invalid
encoding or an unpaired surrogate denotes U+FFFD). -/
def unquoteStep (b : Byte) (rest : GoString) : Token :=
  if b = 0x22 then .close
  else if b = 0x5C then
    match rest with
    | [] => .bad
    | e :: t =>
      if e = 0x75 then
        match t with
        | h1 :: h2 :: h3 :: h4 :: t4 =>
          match hex4 h1 h2 h3 h4 with
          | none => .bad
          | some rr =>
            if 0xD800 ≤ rr ∧ rr < 0xE000 then
              match pairedRune rr t4 with
              | some dec => .emit (encodeRune dec) 12
              | none => .emit (encodeRune RuneError) 6
            else .emit (encodeRune rr) 6
        | _ => .bad
      else
        match simpleEscape e with
        | some c => .emit [c] 2
        | none => .bad
  else if b.val < 0x20 then .bad
  else if b.val < 0x80 then .emit [b] 1
  else .emit (encodeRune (decodeRune (b :: rest)).1) (decodeRune (b :: rest)).2

/-- A JSON string from after its opening quote, with `skip` bytes still to be
passed over: the Go string it denotes and the input after its closing quote;
`none` when the scanner rejects the literal. -/
def unquoteFrom : Nat → GoString → Option (GoString × GoString)
  | _, [] => none
  | skip + 1, _ :: rest => unquoteFrom skip rest
  | 0, b :: rest =>
    match unquoteStep b rest with
    | .close => some ([], rest)
    | .bad => none
    | .emit out size => consRead out (unquoteFrom (size - 1) rest)

/-- A JSON string from after its opening quote. -/
def unquoteBody (s : GoString) : Option (GoString × GoString) :=
  unquoteFrom 0 s

/-- Skips decimal digits. -/
def skipDigits : GoString → GoString
  | [] => []
  | b :: bs => if 0x30 ≤ b.val ∧ b.val ≤ 0x39 then skipDigits bs else b :: bs

/-- Whether the first byte is a decimal digit. -/
def startsWithDigit : GoString → Bool
  | [] => false
  | b :: _ => 0x30 ≤ b.val && b.val ≤ 0x39

/-- The exponent part of a number, if there is one. -/
def scanExponent : GoString → Option GoString
  | [] => some []
  | b :: bs =>
    if b = 0x65 ∨ b = 0x45 then
      match bs with
      | [] => none
      | c :: cs =>
        if c = 0x2B ∨ c = 0x2D then
          if startsWithDigit cs then some (skipDigits cs) else none
        else if startsWithDigit (c :: cs) then some (skipDigits (c :: cs)) else none
    else some (b :: bs)

/-- The fraction and exponent parts of a number. -/
def scanFraction : GoString → Option GoString
  | [] => some []
  | b :: bs =>
    if b = 0x2E then
      if startsWithDigit bs then scanExponent (skipDigits bs) else none
    else scanExponent (b :: bs)

/-- The integer part of a number and what follows it. -/
def scanInteger : GoString → Option GoString
  | [] => none
  | d :: ds =>
    if d = 0x30 then scanFraction ds
    else if 0x31 ≤ d.val ∧ d.val ≤ 0x39 then scanFraction (skipDigits ds)
    else none

/-- A JSON number: the input after it. -/
def scanNumber : GoString → Option GoString
  | [] => none
  | b :: bs => if b = 0x2D then scanInteger bs else scanInteger (b :: bs)

/-- Reads the rest of a literal name. -/
def stripLiteral : GoString → GoString → Option GoString
  | [], s => some s
  | _ :: _, [] => none
  | l :: ls, b :: bs => if l = b then stripLiteral ls bs else none

mutual

/-- A JSON value, white space before it skipped: the value and the input after
it. -/
def parseValue : Nat → GoString → Except JsonError (Json × GoString)
  | 0, _ => .error .fuelExhausted
  | fuel + 1, s =>
    match skipSpace s with
    | [] => .error .malformed
    | b :: bs =>
      if b = 0x7B then
        match skipSpace bs with
        | [] => .error .malformed
        | c :: cs =>
          if c = 0x7D then .ok (.obj [], cs)
          else
            match parseMembers fuel (c :: cs) with
            | .ok (ms, rest) => .ok (.obj ms, rest)
            | .error e => .error e
      else if b = 0x5B then
        match skipSpace bs with
        | [] => .error .malformed
        | c :: cs =>
          if c = 0x5D then .ok (.arr [], cs)
          else
            match parseItems fuel (c :: cs) with
            | .ok (xs, rest) => .ok (.arr xs, rest)
            | .error e => .error e
      else if b = 0x22 then
        match unquoteBody bs with
        | some (str, rest) => .ok (.str str, rest)
        | none => .error .malformed
      else if b = 0x74 then
        match stripLiteral (goStr "rue") bs with
        | some rest => .ok (.bool true, rest)
        | none => .error .malformed
      else if b = 0x66 then
        match stripLiteral (goStr "alse") bs with
        | some rest => .ok (.bool false, rest)
        | none => .error .malformed
      else if b = 0x6E then
        match stripLiteral (goStr "ull") bs with
        | some rest => .ok (.null, rest)
        | none => .error .malformed
      else
        match scanNumber (b :: bs) with
        | some rest => .ok (.number, rest)
        | none => .error .malformed

/-- The members of an object from the first byte of a key on, up to and
including the closing brace. -/
def parseMembers : Nat → GoString → Except JsonError (List (GoString × Json) × GoString)
  | 0, _ => .error .fuelExhausted
  | fuel + 1, s =>
    match s with
    | [] => .error .malformed
    | b :: bs =>
      if b = 0x22 then
        match unquoteBody bs with
        | none => .error .malformed
        | some (key, afterKey) =>
          match skipSpace afterKey with
          | [] => .error .malformed
          | c :: cs =>
            if c = 0x3A then
              match parseValue fuel cs with
              | .error e => .error e
              | .ok (v, afterValue) =>
                match skipSpace afterValue with
                | [] => .error .malformed
                | d :: ds =>
                  if d = 0x2C then
                    match parseMembers fuel (skipSpace ds) with
                    | .ok (ms, rest) => .ok ((key, v) :: ms, rest)
                    | .error e => .error e
                  else if d = 0x7D then .ok ([(key, v)], ds)
                  else .error .malformed
            else .error .malformed
      else .error .malformed

/-- The elements of an array from the first byte of an element on, up to and
including the closing bracket. -/
def parseItems : Nat → GoString → Except JsonError (List Json × GoString)
  | 0, _ => .error .fuelExhausted
  | fuel + 1, s =>
    match parseValue fuel s with
    | .error e => .error e
    | .ok (v, afterValue) =>
      match skipSpace afterValue with
      | [] => .error .malformed
      | d :: ds =>
        if d = 0x2C then
          match parseItems fuel ds with
          | .ok (xs, rest) => .ok (v :: xs, rest)
          | .error e => .error e
        else if d = 0x5D then .ok ([v], ds)
        else .error .malformed

end

/-- The scanner pass of `json.Unmarshal` (`checkValid`) together with the
reading of the value: one JSON value with nothing but white space after it.
The fuel is more than the descent can use on a text of this length. -/
def parseDocument (data : GoString) : Except JsonError Json :=
  match parseValue (2 * data.length + 2) data with
  | .error e => .error e
  | .ok (v, rest) =>
    match skipSpace rest with
    | [] => .ok v
    | _ :: _ => .error .malformed

/-- ASCII letters to upper case. -/
def upperAscii (b : Byte) : Byte :=
  if 0x61 ≤ b.val ∧ b.val ≤ 0x7A then Fin.ofNat (b.val - 0x20) else b

/-- Whether the object key `key` selects the struct field `name`: equal, or equal
up to the case of letters. -/
def keyMatches (key name : GoString) : Bool :=
  key.map upperAscii = name.map upperAscii

/-- The assignment `m[k] = v`. -/
def mapSet (m : GoMap) (k v : GoString) : GoMap :=
  (k, v) :: m.filter (fun e => e.1 ≠ k)

/-- The target of `json.Unmarshal` and the first type error met so far. -/
structure DecodeState where
  locale : Locale
  saved : Option JsonError
  deriving DecidableEq

/-- Records a type error, unless one is recorded already. -/
def DecodeState.saveError (st : DecodeState) : DecodeState :=
  match st.saved with
  | some _ => st
  | none => { st with saved := some .typeMismatch }

/-- Stores a JSON value into a field of type `string`. -/
def storeString (st : DecodeState) (set : Locale → GoString → Locale) : Json → DecodeState
  | .str s => { st with locale := set st.locale s }
  | .null => st
  | _ => st.saveError

/-- Stores one member of a JSON object into a map: the element is a fresh zero
value into which the member's value is stored. -/
def storeEntry (acc : GoMap × Bool) (member : GoString × Json) : GoMap × Bool :=
  match member.2 with
  | .str s => (mapSet acc.1 member.1 s, acc.2)
  | .null => (mapSet acc.1 member.1 [], acc.2)
  | _ => (mapSet acc.1 member.1 [], true)

/-- Stores a JSON value into the field `Dictionary`. -/
def storeDictionary (st : DecodeState) : Json → DecodeState
  | .null => { st with locale := { st.locale with Dictionary := none } }
  | .obj members =>
    let start : GoMap := match st.locale.Dictionary with
      | some m => m
      | none => []
    let r := members.foldl storeEntry (start, false)
    let st1 : DecodeState := { st with locale := { st.locale with Dictionary := some r.1 } }
    if r.2 then st1.saveError else st1
  | _ => st.saveError

/-- Stores one member of the top-level object into the field it selects, if any. -/
def storeMember (st : DecodeState) (member : GoString × Json) : DecodeState :=
  if keyMatches member.1 (goStr "Language") then
    storeString st (fun l s => { l with Language := s }) member.2
  else if keyMatches member.1 (goStr "LanguageCode") then
    storeString st (fun l s => { l with LanguageCode := s }) member.2
  else if keyMatches member.1 (goStr "Dictionary") then
    storeDictionary st member.2
  else st

/-- `json.Unmarshal(data, &locale)`: the value of `locale` afterwards and the
error returned. -/
def Unmarshal (data : GoString) (locale : Locale) : Locale × Option JsonError :=
  match parseDocument data with
  | .error e => (locale, some e)
  | .ok (.obj members) =>
    let st := members.foldl storeMember { locale := locale, saved := none }
    (st.locale, st.saved)
  | .ok .null => (locale, none)
  | .ok _ => (locale, some .typeMismatch)

/-- `json.Marshal(locale)`; it has no error for a value of this type. -/
def Marshal (locale : Locale) : Except JsonError GoString :=
  .ok (encodeLocale locale)

/-- `Locale.ToJSON`. -/
def Locale.ToJSON (locale : Locale) : Except JsonError GoString :=
  Marshal locale

/-- `LoadFromString`: the locale and the error it returns. -/
def LoadFromString (data : GoString) : Locale × Option JsonError :=
  Unmarshal data { Language := [], LanguageCode := [], Dictionary := none }

/-- Whether the JSON value is `null`. -/
def Json.isNull : Json → Bool
  | .null => true
  | _ => false

/-- Whether a JSON value is stored into a `string` without a type error: it is a
string, or `null` (which leaves the target as it is). -/
def fitsString : Json → Bool
  | .str _ => true
  | .null => true
  | _ => false

/-- Whether a JSON value is stored into a `map[string]string` without a type error:
it is `null`, or an object all of whose values are strings or `null`. -/
def fitsMap : Json → Bool
  | .null => true
  | .obj members => members.all (fun e => fitsString e.2)
  | _ => false

/-- Whether a member of the top-level object selects one of the three fields of a
`Locale` and has a value of the wrong type for it. -/
def mismatched (member : GoString × Json) : Bool :=
  if keyMatches member.1 (goStr "Language") then !fitsString member.2
  else if keyMatches member.1 (goStr "LanguageCode") then !fitsString member.2
  else if keyMatches member.1 (goStr "Dictionary") then !fitsMap member.2
  else false

/-! ## Package `language`: `GetSystemLanguage`

The function reads the environment and may run a command; here it is a function
of what `os.LookupEnv("LANG")` finds and of the outcome of the command.
`strings.Split` and `strings.Trim` are those of the Go standard library, for a
separator of one byte and a cutset of ASCII bytes.
-/

/-- `strings.Split(s, sep)` for a separator `sep` of one byte: the parts of `s`
between the separators, at least one part. -/
def Split (s : GoString) (sep : Byte) : List GoString :=
  match s with
  | [] => [[]]
  | b :: bs =>
    if b = sep then [] :: Split bs sep
    else
      match Split bs sep with
      | [] => [[b]]
      | p :: ps => (b :: p) :: ps

/-- The index expression `parts[i]` on a slice of strings; panics when `i` is not
below `len(parts)`. -/
def elemAt (parts : List GoString) (i : Nat) : Except Fault GoString :=
  match parts.get? i with
  | some p => .ok p
  | none => .error .indexOutOfRange

/-- `strings.TrimLeft(s, cutset)` for a cutset of ASCII bytes. -/
def TrimLeft (s cutset : GoString) : GoString :=
  s.dropWhile (fun b => decide (b ∈ cutset))

/-- `strings.TrimRight(s, cutset)` for a cutset of ASCII bytes. -/
def TrimRight (s cutset : GoString) : GoString :=
  (s.reverse.dropWhile (fun b => decide (b ∈ cutset))).reverse

/-- `strings.Trim(s, cutset)` for a cutset of ASCII bytes. -/
def Trim (s cutset : GoString) : GoString :=
  TrimRight (TrimLeft s cutset) cutset

/-- The cutset `"\r\n"`. -/
def crlf : GoString := [0x0D, 0x0A]

/-- `GetSystemLanguage`, given what `os.LookupEnv("LANG")` finds (`none` when the
variable is not set) and the outcome of running the PowerShell command (its output,
or its error): the string and the error returned. -/
def GetSystemLanguage {ε : Type} (lookupEnv : Option GoString)
    (command : Except ε GoString) : Except Fault (GoString × Option ε) :=
  match lookupEnv with
  | some environmentLangVar => do
    let part ← elemAt (Split environmentLangVar 0x2E) 0
    pure (part, none)
  | none =>
    match command with
    | .error shellError => pure ([], some shellError)
    | .ok result => pure (Trim result crlf, none)

/-! ## Package `language`: the language codes -/

/-- The constants of package `language`, in the order of the source: the identifier
of each constant and its value. -/
def languageCodes : List (String × String) :=
  [("AF", "af"), ("AF_ZA", "af-ZA"), ("AR", "ar"), ("AR_AE", "ar-AE"), ("AR_BH", "ar-BH"),
   ("AR_DZ", "ar-DZ"), ("AR_EG", "ar-EG"), ("AR_IQ", "ar-IQ"), ("AR_JO", "ar-JO"),
   ("AR_KW", "ar-KW"), ("AR_LB", "ar-LB"), ("AR_LY", "ar-LY"), ("AR_MA", "ar-MA"),
   ("AR_OM", "ar-OM"), ("AR_QA", "ar-QA"), ("AR_SA", "ar-SA"), ("AR_SY", "ar-SY"),
   ("AR_TN", "ar-TN"), ("AR_YE", "ar-YE"), ("AZ", "az"), ("AZ_AZ", "az-AZ"), ("BE", "be"),
   ("BE_BY", "be-BY"), ("BG", "bg"), ("BG_BG", "bg-BG"), ("BS_BA", "bs-BA"), ("CA", "ca"),
   ("CA_ES", "ca-ES"), ("CS", "cs"), ("CS_CZ", "cs-CZ"), ("CY", "cy"), ("CY_GB", "cy-GB"),
   ("DA", "da"), ("DA_DK", "da-DK"), ("DE", "de"), ("DE_AT", "de-AT"), ("DE_CH", "de-CH"),
   ("DE_DE", "de-DE"), ("DE_LI", "de-LI"), ("DE_LU", "de-LU"), ("DV", "dv"), ("DV_MV", "dv-MV"),
   ("EL", "el"), ("EL_GR", "el-GR"), ("EN", "en"), ("EN_AU", "en-AU"), ("EN_BZ", "en-BZ"),
   ("EN_CA", "en-CA"), ("EN_CB", "en-DB"), ("EN_GB", "en-GB"), ("EN_IE", "en-IE"),
   ("EN_JM", "en-JM"), ("EN_NZ", "en-NZ"), ("EN_PH", "en-PH"), ("EN_TT", "en-TT"),
   ("EN_US", "en-US"), ("EN_ZA", "en-ZA"), ("EN_ZW", "en-ZW"), ("EO", "eo"), ("ES", "es"),
   ("ES_AR", "es-AR"), ("ES_BO", "es-BO"), ("ES_CL", "es-CL"), ("ES_CO", "es-CO"),
   ("ES_CR", "es-CR"), ("ES_DO", "es-DO"), ("ES_EC", "es-EC"), ("ES_ES", "es-ES"),
   ("ES_GT", "es-GT"), ("ES_HN", "es-HN"), ("ES_MX", "es-MX"), ("ES_NI", "es-NI"),
   ("ES_PA", "es-PA"), ("ES_PE", "es-PE"), ("ES_PR", "es-PR"), ("ES_PY", "es-PY"),
   ("ES_SV", "es-SV"), ("ES_UY", "es-UY"), ("ES_VE", "es-VE"), ("ET", "et"), ("ET_EE", "et-EE"),
   ("EU", "eu"), ("EU_ES", "es-ES"), ("FA", "fa"), ("FA_IR", "fa-IR"), ("FI", "fi"),
   ("FI_FI", "fi-FI"), ("FO", "fo"), ("FO_FO", "fo-FO"), ("FR", "fr"), ("FR_BE", "fr-BE"),
   ("FR_CA", "fr-CA"), ("FR_CH", "fr-CH"), ("FR_FR", "fr-FR"), ("FR_LU", "fr-LU"),
   ("FR_MC", "fr-MC"), ("GL", "gl"), ("GL_ES", "gl-ES"), ("GU", "gu"), ("GU_IN", "gu-IN"),
   ("HE", "he"), ("HE_IL", "he-IL"), ("HI", "hi"), ("HI_IN", "hi-IN"), ("HR", "hr"),
   ("HR_BA", "hr-BA"), ("HR_HR", "hr-HR"), ("HU", "hu"), ("HU_HU", "hu-HU"), ("HY", "hy"),
   ("HY_AM", "hy-AM"), ("ID", "id"), ("ID_ID", "id-ID"), ("IS", "is"), ("IS_IS", "is-IS"),
   ("IT", "it"), ("IT_CH", "it-CH"), ("IT_IT", "it-IT"), ("JA", "ja"), ("JA_JP", "ja-JP"),
   ("KA", "ka"), ("KA_GE", "ka-GE"), ("KK", "kk"), ("KK_KZ", "kk-KZ"), ("KN", "kn"),
   ("KN_IN", "kn-IN"), ("KO", "ko"), ("KO_KR", "ko-KR"), ("KOK", "kok"), ("KOK_IN", "kok-IN"),
   ("KY", "ky"), ("KY_KG", "ky-KG"), ("LT", "lt"), ("LT_LT", "lt-LT"), ("LV", "lv"),
   ("LV_LV", "lv-LV"), ("MI", "mi"), ("MI_NZ", "mi-NZ"), ("MK", "mk"), ("MK_MK", "mk-MK"),
   ("MN", "mn"), ("MN_MN", "mn-MN"), ("MR", "mr"), ("MR_IN", "mr-IN"), ("MS", "ms"),
   ("MS_BN", "ms-BN"), ("MS_MY", "ms-MY"), ("MT", "mt"), ("MT_MT", "mt-MT"), ("NB", "nb"),
   ("NB_NO", "nb-NO"), ("NL", "nl"), ("NL_BE", "nl-BE"), ("NL_NL", "nl-NL"), ("NN_NO", "nn-NO"),
   ("NS", "ns"), ("NS_ZA", "ns-ZA"), ("PA", "pa"), ("PA_IN", "pa-IN"), ("PL", "pl"),
   ("PL_PL", "pl-PL"), ("PS", "ps"), ("PS_AR", "ps-AR"), ("PT", "pt"), ("PT_BR", "pt-BR"),
   ("PT_PT", "pt-PT"), ("QU", "qu"), ("QU_BO", "qu-BO"), ("QU_EC", "qu-EC"), ("QU_PE", "qu-PE"),
   ("RO", "ro"), ("RO_RO", "ro-RO"), ("RU", "ru"), ("RU_RU", "ru-RU"), ("SA", "sa"),
   ("SA_IN", "sa-IN"), ("SE", "se"), ("SE_FI", "se-FI"), ("SE_NO", "se-NO"), ("SE_SE", "se-SE"),
   ("SK", "sk"), ("SK_SK", "sk-SK"), ("SL", "sl"), ("SL_SI", "sl-SI"), ("SQ", "sq"),
   ("SQ_AL", "sq-AL"), ("SR_BA", "sr-BA"), ("SR_SP", "sr-SP"), ("SV", "sv"), ("SV_FI", "sv-FI"),
   ("SV_SE", "sv-SE"), ("SW", "sw"), ("SW_KE", "sw-KE"), ("SYR", "syr"), ("SYR_SY", "syr-SY"),
   ("TA", "ta"), ("TA_IN", "ta-IN"), ("TE", "te"), ("TE_IN", "te-IN"), ("TH", "th"),
   ("TH_TH", "th-TH"), ("TL", "tl"), ("TL_PH", "tl-PH"), ("TN", "tn"), ("TN_ZA", "tn-ZA"),
   ("TR", "tr"), ("TR_TR", "tr-TR"), ("TT", "tt"), ("TT_RU", "tt-RU"), ("TS", "ts"),
   ("UK", "uk"), ("UK_UA", "uk-UA"), ("UR", "ur"), ("UR_PK", "ur-PK"), ("UZ", "uz"),
   ("UZ_UZ", "uz-UZ"), ("VI", "vi"), ("VI_VN", "vi-VN"), ("XH", "xh"), ("XH_ZA", "xh-ZA"),
   ("ZH", "zh"), ("ZH_CN", "zh-CN"), ("ZH_HK", "zh-HK"), ("ZH_MO", "zh-MO"), ("ZH_SG", "zh-SG"),
   ("ZH_TW", "zh-TW"), ("ZU", "zu"), ("ZU_ZA", "zu-ZA")]

/-- An ASCII letter in lower case. -/
def lowerAscii (c : Char) : Char :=
  if 'A' ≤ c ∧ c ≤ 'Z' then Char.ofNat (c.toNat + 32) else c

/-- The value that the naming of the constants gives to an identifier: the part
before the underscore in lower case, a hyphen for the underscore, and the part
after it unchanged. -/
def valueOfIdentifier (ident : String) : String :=
  match ident.toList.dropWhile (fun c => c ≠ '_') with
  | [] => String.mk ((ident.toList.takeWhile (fun c => c ≠ '_')).map lowerAscii)
  | _ :: rest =>
    String.mk ((ident.toList.takeWhile (fun c => c ≠ '_')).map lowerAscii ++ '-' :: rest)

/-! ## The locales of the scenarios -/

/-- The locale of the documented scenarios. -/
def english : Locale :=
  { Language := goStr "English", LanguageCode := goStr "en-US",
    Dictionary := some [(goStr "greeting", goStr "Hello")] }

/-- A locale whose only key ends with the two bytes of the closing marker. -/
def trailing : Locale :=
  { Language := goStr "English", LanguageCode := goStr "en-US",
    Dictionary := some [(goStr "missing.\x7d", goStr "oops")] }

/-- A locale whose only key is not ASCII. -/
def accented : Locale :=
  { Language := goStr "Français", LanguageCode := goStr "fr-FR",
    Dictionary := some [(goStr "é", goStr "e")] }

/-- A locale whose `Language` is the single byte FF, which is not valid UTF-8. -/
def invalidLanguage : Locale :=
  { Language := [0xFF], LanguageCode := [], Dictionary := some [] }

/-! ## Definitions used in the statements and proofs -/

/-- All bytes are below 0x80. -/
def IsAscii (s : GoString) : Prop :=
  ∀ b ∈ s, b.val < 0x80

instance (s : GoString) : Decidable (IsAscii s) := by
  unfold IsAscii; infer_instance

/-- Whether all strings of the locale (the two names, and the keys and values of
the dictionary) are valid UTF-8. -/
def Locale.validUTF8 (locale : Locale) : Bool :=
  validString locale.Language && validString locale.LanguageCode &&
    match locale.Dictionary with
    | none => true
    | some m => m.all (fun e => validString e.1 && validString e.2)

/-- What appending `string(b)` for each byte `b` of `s`, in order, builds. -/
def reencode (s : GoString) : GoString :=
  (s.map stringOfByte).flatten

/-- The inner loop as a function of the unread part of the template: the part
left unread when the loop ends, and the key. -/
def captureSuffix : GoString → GoString → GoString × GoString
  | [], key => ([], key)
  | c :: cs, key =>
    if 3 ≤ (c :: cs).length ∧ (c :: cs).take 2 = closeMarker then (cs.drop 1, key)
    else captureSuffix cs (key ++ stringOfByte c)

/-- The outer loop as a function of the unread part of the template. -/
def scanSuffix (locale : Locale) : GoString → GoString
  | [] => []
  | c :: cs =>
    if 3 ≤ (c :: cs).length ∧ (c :: cs).take 2 = openMarker then
      locale.Translate (captureSuffix (cs.drop 1) []).2 ++
        scanSuffix locale (captureSuffix (cs.drop 1) []).1
    else stringOfByte c ++ scanSuffix locale cs
termination_by s => s.length
decreasing_by
  · have hle : ∀ (s key : GoString), (captureSuffix s key).1.length ≤ s.length := by
      intro s
      induction s with
      | nil => intro _; simp [captureSuffix]
      | cons d ds ih =>
        intro key
        unfold captureSuffix
        split
        · simp only [List.length_drop, List.length_cons]; omega
        · have := ih (key ++ stringOfByte d)
          simp only [List.length_cons]; omega
    refine Nat.lt_of_le_of_lt (hle _ _) ?_
    simp only [List.length_drop, List.length_cons]
    omega
  · simp

/-- The JSON value that `json.Marshal` writes for a map. -/
def dictJson : Option GoMap → Json
  | none => .null
  | some m => .obj ((sortedKeys m).map (fun k => (k, Json.str (mapIndex m k))))

/-- The `Dictionary` that `json.Unmarshal` builds from what `json.Marshal` wrote
for `d`. -/
def rebuiltDict : Option GoMap → Option GoMap
  | none => none
  | some m => some ((sortedKeys m).foldl (fun a k => mapSet a k (mapIndex m k)) [])

/-- The run `r` did not stop for want of fuel, and what it left unread is shorter
than `n`. -/
def Settled {α : Type} (r : Except JsonError (α × GoString)) (n : Nat) : Prop :=
  r ≠ .error .fuelExhausted ∧ ∀ v rest, r = .ok (v, rest) → rest.length < n

/-- One iteration of the inner loop of `Locale.Localize`, entered with
`pos < len(template)`: whether the loop goes on, and the values of `pos` (after the
post statement `pos = pos + 1` when it goes on) and `key`. -/
def captureIter (template : GoString) (pos : Nat) (key : GoString) :
    Except Fault (Bool × Nat × GoString) := do
  let char ← index template pos
  let closing ← markerAt template closeMarker pos
  if closing then
    pure (false, pos + 2, key)
  else
    pure (true, pos + 1, key ++ stringOfByte char)

/-- One iteration of the outer loop of `Locale.Localize`, entered with
`pos < len(template)`: the values of `pos` and `result` at its end. -/
def localizeIter (locale : Locale) (template : GoString) (pos : Nat) (result : GoString) :
    Except Fault (Nat × GoString) := do
  let opening ← markerAt template openMarker pos
  if opening then
    let pos := pos + 2
    let _ ← index template pos
    let r ← captureLoop template (template.length + 1) pos []
    pure (r.1, result ++ locale.Translate r.2)
  else
    let c ← index template pos
    pure (pos + 1, result ++ stringOfByte c)

/-! ## The JSON grammar

The grammar of RFC 8259, read on bytes and written without reference to the
functions that read a text: a byte of 0x80 and above stands for itself inside a
string literal, as the scanner of `encoding/json` does not look at the encoding
of what stands between the quotes. -/

/-- The production `ws`: spaces, horizontal tabs, line feeds and carriage returns. -/
def IsWs (w : GoString) : Prop :=
  ∀ b ∈ w, b = 0x20 ∨ b = 0x09 ∨ b = 0x0A ∨ b = 0x0D

/-- A decimal digit. -/
def IsDigit (b : Byte) : Prop :=
  0x30 ≤ b.val ∧ b.val ≤ 0x39

/-- Any number of decimal digits. -/
def IsDigits (ds : GoString) : Prop :=
  ∀ b ∈ ds, IsDigit b

/-- A hexadecimal digit, in either case. -/
def IsHexDigit (b : Byte) : Prop :=
  IsDigit b ∨ (0x41 ≤ b.val ∧ b.val ≤ 0x46) ∨ (0x61 ≤ b.val ∧ b.val ≤ 0x66)

/-- What may follow a backslash, `u` apart: the quote, the backslash, the slash, or
one of the letters `b`, `f`, `n`, `r`, `t`. -/
def IsEscapeLetter (e : Byte) : Prop :=
  e = 0x22 ∨ e = 0x5C ∨ e = 0x2F ∨ e = 0x62 ∨ e = 0x66 ∨ e = 0x6E ∨ e = 0x72 ∨ e = 0x74

/-- What stands between the quotes of a string literal: bytes from 0x20 on other
than the quote and the backslash, a backslash with an escape letter, and a backslash
with `u` and four hexadecimal digits. -/
inductive IsChars : GoString → Prop where
  | done : IsChars []
  | plain (b : Byte) (t : GoString) :
      0x20 ≤ b.val → b ≠ 0x22 → b ≠ 0x5C → IsChars t → IsChars (b :: t)
  | escape (e : Byte) (t : GoString) :
      IsEscapeLetter e → IsChars t → IsChars (0x5C :: e :: t)
  | unicode (h1 h2 h3 h4 : Byte) (t : GoString) :
      IsHexDigit h1 → IsHexDigit h2 → IsHexDigit h3 → IsHexDigit h4 → IsChars t →
      IsChars (0x5C :: 0x75 :: h1 :: h2 :: h3 :: h4 :: t)

/-- The production `int`: a zero, or a digit from 1 to 9 followed by digits. -/
inductive IsInt : GoString → Prop where
  | zero : IsInt [0x30]
  | digits (d : Byte) (ds : GoString) :
      0x31 ≤ d.val → d.val ≤ 0x39 → IsDigits ds → IsInt (d :: ds)

/-- The optional production `frac`: a point and one or more digits. -/
inductive IsFrac : GoString → Prop where
  | absent : IsFrac []
  | point (d : Byte) (ds : GoString) : IsDigit d → IsDigits ds → IsFrac (0x2E :: d :: ds)

/-- The optional production `exp`: `e` or `E`, an optional sign, and one or more
digits. -/
inductive IsExp : GoString → Prop where
  | absent : IsExp []
  | unsigned (e d : Byte) (ds : GoString) :
      e = 0x65 ∨ e = 0x45 → IsDigit d → IsDigits ds → IsExp (e :: d :: ds)
  | signed (e sign d : Byte) (ds : GoString) :
      e = 0x65 ∨ e = 0x45 → sign = 0x2B ∨ sign = 0x2D → IsDigit d → IsDigits ds →
      IsExp (e :: sign :: d :: ds)

/-- The production `number`: an optional minus, `int`, and the optional `frac` and
`exp`. -/
inductive IsNumber : GoString → Prop where
  | plain (i f e : GoString) : IsInt i → IsFrac f → IsExp e → IsNumber (i ++ f ++ e)
  | minus (i f e : GoString) : IsInt i → IsFrac f → IsExp e →
      IsNumber (0x2D :: (i ++ f ++ e))

mutual

/-- The production `value`: an object, an array, a string, a number, or one of the
three literal names. -/
inductive IsValue : GoString → Prop where
  | emptyObject (w : GoString) : IsWs w → IsValue (0x7B :: w ++ [0x7D])
  | object (w ms : GoString) : IsWs w → IsMemberList ms → IsValue (0x7B :: w ++ ms)
  | emptyArray (w : GoString) : IsWs w → IsValue (0x5B :: w ++ [0x5D])
  | array (w xs : GoString) : IsWs w → IsElementList xs → IsValue (0x5B :: w ++ xs)
  | string (body : GoString) : IsChars body → IsValue (0x22 :: body ++ [0x22])
  | number (n : GoString) : IsNumber n → IsValue n
  | litTrue : IsValue (goStr "true")
  | litFalse : IsValue (goStr "false")
  | litNull : IsValue (goStr "null")

/-- One or more members `string : value`, separated by commas, and the closing
brace; white space may stand around the colon, the commas and the brace. -/
inductive IsMemberList : GoString → Prop where
  | last (key w1 w2 val w3 : GoString) :
      IsChars key → IsWs w1 → IsWs w2 → IsValue val → IsWs w3 →
      IsMemberList (0x22 :: key ++ 0x22 :: w1 ++ 0x3A :: w2 ++ val ++ w3 ++ [0x7D])
  | more (key w1 w2 val w3 w4 ms : GoString) :
      IsChars key → IsWs w1 → IsWs w2 → IsValue val → IsWs w3 → IsWs w4 →
      IsMemberList ms →
      IsMemberList (0x22 :: key ++ 0x22 :: w1 ++ 0x3A :: w2 ++ val ++ w3 ++ 0x2C :: w4 ++ ms)

/-- One or more values, separated by commas, and the closing bracket; white space
may stand around the values. -/
inductive IsElementList : GoString → Prop where
  | last (w1 val w2 : GoString) :
      IsWs w1 → IsValue val → IsWs w2 → IsElementList (w1 ++ val ++ w2 ++ [0x5D])
  | more (w1 val w2 xs : GoString) :
      IsWs w1 → IsValue val → IsWs w2 → IsElementList xs →
      IsElementList (w1 ++ val ++ w2 ++ 0x2C :: xs)

end

/-- The production `JSON-text`: one value with white space around it.  A text is
malformed JSON when it is not of this form. -/
def IsJsonText (data : GoString) : Prop :=
  ∃ w1 val w2, data = w1 ++ val ++ w2 ∧ IsWs w1 ∧ IsValue val ∧ IsWs w2

/-! ## `Localize`: the loops and the unread part of the template -/

theorem index_eq_ok (t : GoString) (pos : Nat) (h : pos < t.length) :
    index t pos = .ok (t.get ⟨pos, h⟩) := by
  unfold index
  rw [List.get?_eq_get h]

theorem drop_eq_get_cons (t : GoString) (pos : Nat) (h : pos < t.length) :
    t.drop pos = t.get ⟨pos, h⟩ :: t.drop (pos + 1) := by
  rw [List.get_eq_getElem]
  exact List.drop_eq_getElem_cons h

theorem markerAt_eq (t m : GoString) (pos : Nat) :
    markerAt t m pos =
      .ok (decide (3 ≤ (t.drop pos).length ∧ (t.drop pos).take 2 = m)) := by
  unfold markerAt slice
  by_cases h : pos + 2 < t.length
  · have h1 : pos ≤ pos + 2 ∧ pos + 2 ≤ t.length := ⟨by omega, by omega⟩
    have h2 : 3 ≤ (t.drop pos).length := by simp only [List.length_drop]; omega
    simp only [h, h1, h2, bind, Except.bind, pure, Except.pure, if_true, and_self, true_and,
      Nat.add_sub_cancel_left]
  · have h2 : ¬ 3 ≤ (t.drop pos).length := by simp only [List.length_drop]; omega
    simp only [h, h2, pure, Except.pure, if_false, false_and, decide_False]

theorem captureSuffix_cons (c : Byte) (cs key : GoString) :
    captureSuffix (c :: cs) key =
      if 3 ≤ (c :: cs).length ∧ (c :: cs).take 2 = closeMarker then (cs.drop 1, key)
      else captureSuffix cs (key ++ stringOfByte c) := by
  rw [captureSuffix]

theorem captureLoop_eq (t : GoString) :
    ∀ fuel pos key, t.length - pos < fuel → pos ≤ t.length →
      ∃ pos', captureLoop t fuel pos key = .ok (pos', (captureSuffix (t.drop pos) key).2) ∧
        pos ≤ pos' ∧ pos' ≤ t.length ∧
        t.drop pos' = (captureSuffix (t.drop pos) key).1 := by
  intro fuel
  induction fuel with
  | zero => intro pos key h; omega
  | succ n ih =>
    intro pos key hf hp
    unfold captureLoop
    by_cases hlt : pos < t.length
    · have hd := drop_eq_get_cons t pos hlt
      rw [if_pos hlt, index_eq_ok t pos hlt, markerAt_eq]
      by_cases hm : 3 ≤ (t.drop pos).length ∧ (t.drop pos).take 2 = closeMarker
      · have hlen : pos + 2 < t.length := by
          have := hm.1; simp only [List.length_drop] at this; omega
        refine ⟨pos + 2, ?_, by omega, by omega, ?_⟩
        · simp only [bind, Except.bind, hm, and_self, decide_True, if_true, pure, Except.pure]
          have hm2 := hm
          rw [hd] at hm2
          rw [hd, captureSuffix_cons, if_pos hm2]
        · have hm2 := hm
          rw [hd] at hm2
          rw [hd, captureSuffix_cons, if_pos hm2]
          simp [List.drop_drop]
      · obtain ⟨pos', h1, h2, h3, h4⟩ := ih (pos + 1) (key ++ stringOfByte (t.get ⟨pos, hlt⟩))
          (by omega) (by omega)
        refine ⟨pos', ?_, by omega, h3, ?_⟩
        · simp only [bind, Except.bind, hm, decide_False, Bool.false_eq_true, if_false]
          have hm2 := hm
          rw [hd] at hm2
          rw [h1, hd, captureSuffix_cons, if_neg hm2]
        · have hm2 := hm
          rw [hd] at hm2
          rw [h4, hd, captureSuffix_cons, if_neg hm2]
    · have hEq : pos = t.length := by omega
      subst hEq
      refine ⟨t.length, ?_, le_refl _, le_refl _, ?_⟩
      · simp [captureSuffix, pure, Except.pure]
      · simp [captureSuffix]

theorem scanSuffix_nil (locale : Locale) : scanSuffix locale [] = [] := by
  rw [scanSuffix]

theorem scanSuffix_cons (locale : Locale) (c : Byte) (cs : GoString) :
    scanSuffix locale (c :: cs) =
      if 3 ≤ (c :: cs).length ∧ (c :: cs).take 2 = openMarker then
        locale.Translate (captureSuffix (cs.drop 1) []).2 ++
          scanSuffix locale (captureSuffix (cs.drop 1) []).1
      else stringOfByte c ++ scanSuffix locale cs := by
  rw [scanSuffix]

theorem localizeLoop_eq (locale : Locale) (t : GoString) :
    ∀ fuel pos result, t.length - pos < fuel → pos ≤ t.length →
      localizeLoop locale t fuel pos result =
        .ok (result ++ scanSuffix locale (t.drop pos)) := by
  intro fuel
  induction fuel with
  | zero => intro pos result h; omega
  | succ n ih =>
    intro pos result hf hp
    unfold localizeLoop
    by_cases hlt : pos < t.length
    · have hd := drop_eq_get_cons t pos hlt
      rw [if_pos hlt, markerAt_eq]
      by_cases hm : 3 ≤ (t.drop pos).length ∧ (t.drop pos).take 2 = openMarker
      · have hlen : pos + 2 < t.length := by
          have := hm.1; simp only [List.length_drop] at this; omega
        obtain ⟨pos', h1, h2, h3, h4⟩ := captureLoop_eq t (t.length + 1) (pos + 2) []
          (by omega) (by omega)
        have hdd : t.drop (pos + 2) = (t.drop (pos + 1)).drop 1 := by
          simp [List.drop_drop]
        have hm2 := hm
        rw [hd] at hm2
        simp only [bind, Except.bind, hm, and_self, decide_True, if_true,
          index_eq_ok t (pos + 2) hlen, h1]
        rw [ih pos' _ (by omega) h3, h4, hd, scanSuffix_cons, if_pos hm2, hdd,
          List.append_assoc]
      · have hm2 := hm
        rw [hd] at hm2
        simp only [bind, Except.bind, hm, decide_False, Bool.false_eq_true, if_false,
          index_eq_ok t pos hlt]
        rw [ih (pos + 1) _ (by omega) (by omega), hd, scanSuffix_cons, if_neg hm2,
          List.append_assoc]
    · have hEq : pos = t.length := by omega
      subst hEq
      simp [scanSuffix_nil, pure, Except.pure]

theorem Localize_eq (locale : Locale) (t : GoString) :
    locale.Localize t = .ok (scanSuffix locale t) := by
  unfold Locale.Localize
  rw [localizeLoop_eq locale t (t.length + 1) 0 [] (by omega) (by omega)]
  simp

/-! ## Copying bytes through `string(byte)` -/

theorem stringOfByte_ascii (b : Byte) (h : b.val < 0x80) : stringOfByte b = [b] := by
  unfold stringOfByte
  rw [if_pos h]

theorem reencode_nil : reencode [] = [] := rfl

theorem reencode_cons (c : Byte) (cs : GoString) :
    reencode (c :: cs) = stringOfByte c ++ reencode cs := rfl

theorem reencode_ascii (s : GoString) (h : IsAscii s) : reencode s = s := by
  induction s with
  | nil => rfl
  | cons c cs ih =>
    rw [reencode_cons, stringOfByte_ascii c (h c (List.mem_cons_self c cs)),
      ih (fun b hb => h b (List.mem_cons_of_mem c hb))]
    rfl

theorem not_infix_tail {m : GoString} {c : Byte} {cs : GoString}
    (h : ¬ m <:+: c :: cs) : ¬ m <:+: cs :=
  fun h2 => h (List.infix_cons h2)

theorem infix_of_take_two {a b : Byte} {cs rest : GoString} (c d : Byte)
    (h : (c :: ((d :: cs) ++ rest)).take 2 = [a, b]) : [a, b] <:+: c :: d :: cs := by
  simp only [List.cons_append, List.take_succ_cons, List.take_zero, List.cons.injEq,
    and_true] at h
  obtain ⟨h1, h2⟩ := h
  subst h1; subst h2
  exact ⟨[], cs, rfl⟩

/-- A key that does not contain the closing marker and is followed by the
closing marker and at least one more byte is captured whole. -/
theorem captureSuffix_terminated (k rest : GoString) (hk : ¬ closeMarker <:+: k)
    (hrest : rest ≠ []) :
    ∀ key, captureSuffix (k ++ closeMarker ++ rest) key = (rest, key ++ reencode k) := by
  induction k with
  | nil =>
    intro key
    obtain ⟨r, rs, rfl⟩ := List.exists_cons_of_ne_nil hrest
    simp [closeMarker, captureSuffix_cons, reencode_nil]
  | cons c cs ih =>
    intro key
    have hne : ¬ (3 ≤ (c :: (cs ++ closeMarker ++ rest)).length ∧
        (c :: (cs ++ closeMarker ++ rest)).take 2 = closeMarker) := by
      rintro ⟨-, h⟩
      cases cs with
      | nil =>
        simp [closeMarker] at h
      | cons d ds =>
        rw [List.append_assoc] at h
        exact hk (infix_of_take_two c d h)
    rw [List.cons_append, List.cons_append, captureSuffix_cons, if_neg hne,
      ih (not_infix_tail hk), reencode_cons, List.append_assoc]

/-- Without a closing marker the inner loop reads to the end of the template. -/
theorem captureSuffix_unterminated (r : GoString) (hr : ¬ closeMarker <:+: r) :
    ∀ key, captureSuffix r key = ([], key ++ reencode r) := by
  induction r with
  | nil => intro key; simp [captureSuffix, reencode_nil]
  | cons c cs ih =>
    intro key
    have hne : ¬ (3 ≤ (c :: cs).length ∧ (c :: cs).take 2 = closeMarker) := by
      rintro ⟨-, h⟩
      cases cs with
      | nil => simp [closeMarker] at h
      | cons d ds =>
        have h2 : (c :: ((d :: ds) ++ [])).take 2 = closeMarker := by simpa using h
        exact hr (infix_of_take_two c d h2)
    rw [captureSuffix_cons, if_neg hne, ih (not_infix_tail hr), reencode_cons,
      List.append_assoc]

/-- Literal text without an opening marker is copied byte by byte, provided the
opening marker does not straddle its end. -/
theorem scanSuffix_literal (locale : Locale) (p t : GoString) (hp : ¬ openMarker <:+: p)
    (hend : p.getLast? ≠ some 0x7B ∨ t.head? ≠ some 0x2E) :
    scanSuffix locale (p ++ t) = reencode p ++ scanSuffix locale t := by
  induction p with
  | nil => simp [reencode_nil]
  | cons c cs ih =>
    have hne : ¬ (3 ≤ (c :: (cs ++ t)).length ∧ (c :: (cs ++ t)).take 2 = openMarker) := by
      rintro ⟨-, h⟩
      cases cs with
      | nil =>
        cases t with
        | nil => simp [openMarker] at h
        | cons d ds =>
          simp only [List.nil_append, List.take_succ_cons, List.take_zero, openMarker,
            List.cons.injEq, and_true] at h
          obtain ⟨h1, h2⟩ := h
          subst h1; subst h2
          simp at hend
      | cons d ds => exact hp (infix_of_take_two c d h)
    have hend2 : cs.getLast? ≠ some 0x7B ∨ t.head? ≠ some 0x2E := by
      cases cs with
      | nil => left; simp
      | cons d ds =>
        rcases hend with h | h
        · left; simpa [List.getLast?_cons_cons] using h
        · right; exact h
    rw [List.cons_append, scanSuffix_cons, if_neg hne, ih (not_infix_tail hp) hend2,
      reencode_cons, List.append_assoc]

/-! ## Reading back what `Marshal` writes -/

theorem hexValue_hexDigit (n : Nat) (h : n < 16) : hexValue (hexDigit n) = some n := by
  interval_cases n <;> decide

theorem fin_ofNat_val (b : Byte) : (Fin.ofNat b.val : Byte) = b := by
  apply Fin.ext
  simp [Fin.ofNat]

theorem encodeRune_ascii (b : Byte) (h : b.val < 0x80) : encodeRune b.val = [b] := by
  unfold encodeRune
  rw [if_pos h, fin_ofNat_val]

theorem unquoteFrom_skip (pre X : GoString) :
    unquoteFrom pre.length (pre ++ X) = unquoteFrom 0 X := by
  induction pre with
  | nil => rfl
  | cons p ps ih => simpa [unquoteFrom] using ih

theorem unquoteFrom_emit (b : Byte) (rest pre Y out : GoString) (size : Nat)
    (hstep : unquoteStep b rest = .emit out size) (hsplit : b :: rest = pre ++ Y)
    (hlen : pre.length = size) (hpos : 0 < size) :
    unquoteFrom 0 (b :: rest) = consRead out (unquoteFrom 0 Y) := by
  cases pre with
  | nil =>
    subst hlen
    simp at hpos
  | cons p ps =>
    simp only [List.cons_append, List.cons.injEq] at hsplit
    obtain ⟨rfl, rfl⟩ := hsplit
    subst hlen
    simp only [unquoteFrom, hstep, List.length_cons, Nat.add_sub_cancel]
    rw [unquoteFrom_skip]

theorem unquoteStep_simple (e c : Byte) (Y : GoString) (he : simpleEscape e = some c) :
    unquoteStep 0x5C (e :: Y) = .emit [c] 2 := by
  have hne : e ≠ 0x75 := by
    intro h
    subst h
    have h0 : simpleEscape 0x75 = none := by decide
    rw [h0] at he
    cases he
  unfold unquoteStep
  simp [hne, he]

theorem unquoteStep_hex (h1 h2 h3 h4 : Byte) (rr : Nat) (Y : GoString)
    (hh : hex4 h1 h2 h3 h4 = some rr) (hs : ¬ (0xD800 ≤ rr ∧ rr < 0xE000)) :
    unquoteStep 0x5C (0x75 :: h1 :: h2 :: h3 :: h4 :: Y) = .emit (encodeRune rr) 6 := by
  unfold unquoteStep
  simp [hh, hs]

theorem unquoteStep_plain (b : Byte) (Y : GoString) (h1 : b ≠ 0x22) (h2 : b ≠ 0x5C)
    (h3 : 0x20 ≤ b.val) (h4 : b.val < 0x80) :
    unquoteStep b Y = .emit [b] 1 := by
  have h5 : ¬ b.val < 0x20 := by omega
  unfold unquoteStep
  simp [h1, h2, h4, h5]

theorem unquoteStep_wide (b : Byte) (Y : GoString) (h : ¬ b.val < 0x80) :
    unquoteStep b Y =
      .emit (encodeRune (decodeRune (b :: Y)).1) (decodeRune (b :: Y)).2 := by
  have h1 : b ≠ 0x22 := by intro h2; subst h2; exact h (by decide)
  have h2 : b ≠ 0x5C := by intro h2; subst h2; exact h (by decide)
  have h5 : ¬ b.val < 0x20 := by omega
  unfold unquoteStep
  simp [h1, h2, h, h5]

theorem hex4_byte (b : Byte) (h : b.val < 0x80) :
    hex4 0x30 0x30 (hexDigit (b.val / 16)) (hexDigit (b.val % 16)) = some b.val := by
  have h0 : hexValue 0x30 = some 0 := by decide
  unfold hex4
  rw [h0, hexValue_hexDigit _ (by omega), hexValue_hexDigit _ (by omega)]
  simp only [Option.some.injEq]
  omega

theorem unquoteFrom_escapeAscii (s0 : Byte) (h : s0.val < 0x80) (Y : GoString) :
    unquoteFrom 0 (escapeAscii s0 ++ Y) = consRead [s0] (unquoteFrom 0 Y) := by
  unfold escapeAscii
  split_ifs with c1 c2 c3 c4 c5 c6 c7
  · have he : simpleEscape s0 = some s0 := by
      rcases c1 with rfl | rfl <;> decide
    exact unquoteFrom_emit 0x5C (s0 :: Y) [0x5C, s0] Y [s0] 2
      (unquoteStep_simple s0 s0 Y he) rfl rfl (by decide)
  · subst c2
    exact unquoteFrom_emit 0x5C (0x62 :: Y) [0x5C, 0x62] Y [0x08] 2
      (unquoteStep_simple 0x62 0x08 Y (by decide)) rfl rfl (by decide)
  · subst c3
    exact unquoteFrom_emit 0x5C (0x66 :: Y) [0x5C, 0x66] Y [0x0C] 2
      (unquoteStep_simple 0x66 0x0C Y (by decide)) rfl rfl (by decide)
  · subst c4
    exact unquoteFrom_emit 0x5C (0x6E :: Y) [0x5C, 0x6E] Y [0x0A] 2
      (unquoteStep_simple 0x6E 0x0A Y (by decide)) rfl rfl (by decide)
  · subst c5
    exact unquoteFrom_emit 0x5C (0x72 :: Y) [0x5C, 0x72] Y [0x0D] 2
      (unquoteStep_simple 0x72 0x0D Y (by decide)) rfl rfl (by decide)
  · subst c6
    exact unquoteFrom_emit 0x5C (0x74 :: Y) [0x5C, 0x74] Y [0x09] 2
      (unquoteStep_simple 0x74 0x09 Y (by decide)) rfl rfl (by decide)
  · have hstep := unquoteStep_hex 0x30 0x30 (hexDigit (s0.val / 16)) (hexDigit (s0.val % 16))
      s0.val Y (hex4_byte s0 h) (by omega)
    rw [encodeRune_ascii s0 h] at hstep
    exact unquoteFrom_emit 0x5C _
      [0x5C, 0x75, 0x30, 0x30, hexDigit (s0.val / 16), hexDigit (s0.val % 16)] Y [s0] 6
      hstep rfl rfl (by decide)
  · have h1 : s0 ≠ 0x22 := fun e => c1 (Or.inl e)
    have h2 : s0 ≠ 0x5C := fun e => c1 (Or.inr e)
    have h3 : 0x20 ≤ s0.val := by
      by_contra hc
      exact c7 (Or.inl (by omega))
    exact unquoteFrom_emit s0 Y [s0] Y [s0] 1 (unquoteStep_plain s0 Y h1 h2 h3 h) rfl rfl
      (by decide)

theorem fin_ofNat_eq (n : Nat) (b : Byte) (h : n = b.val) : (Fin.ofNat n : Byte) = b := by
  subst h
  exact fin_ofNat_val b

theorem acceptRange_bounds (s0 : Byte) :
    0x80 ≤ (acceptRange s0).1 ∧ (acceptRange s0).2 ≤ 0xBF ∧
    (s0.val = 0xE0 → (acceptRange s0).1 = 0xA0) ∧ (s0.val = 0xED → (acceptRange s0).2 = 0x9F) ∧
    (s0.val = 0xF0 → (acceptRange s0).1 = 0x90) ∧ (s0.val = 0xF4 → (acceptRange s0).2 = 0x8F) := by
  unfold acceptRange
  split_ifs <;> simp <;> omega

/-- What `decodeRune` finds at a byte that starts a valid encoding of two or more
bytes: the encoding `pre`, which `encodeRune` gives back. -/
theorem decodeRune_wide (s0 : Byte) (rest : GoString) (h0 : ¬ s0.val < 0x80)
    (h1 : ¬ (decodeRune (s0 :: rest)).2 ≤ 1) :
    ∃ pre t, s0 :: rest = pre ++ t ∧ pre.length = (decodeRune (s0 :: rest)).2 ∧
      encodeRune (decodeRune (s0 :: rest)).1 = pre ∧
      ∀ X, decodeRune (pre ++ X) = decodeRune (s0 :: rest) := by
  by_cases c1 : s0.val < 0xC2 ∨ 0xF4 < s0.val
  · exfalso; apply h1; simp [decodeRune, h0, c1]
  by_cases c2 : s0.val < 0xE0
  · cases rest with
    | nil => exfalso; apply h1; simp [decodeRune, h0, c1, c2]
    | cons s1 t =>
      by_cases c3 : 0x80 ≤ s1.val ∧ s1.val ≤ 0xBF
      · refine ⟨[s0, s1], t, rfl, ?_, ?_, ?_⟩
        · simp [decodeRune, h0, c1, c2, c3]
        · simp only [decodeRune, h0, c1, c2, c3, if_true, if_false, and_self]
          unfold encodeRune
          have hs0 := s0.isLt
          have hs1 := s1.isLt
          rw [if_neg (by omega), if_pos (by omega)]
          rw [fin_ofNat_eq _ s0 (by omega), fin_ofNat_eq _ s1 (by omega)]
        · intro X
          simp [decodeRune, h0, c1, c2, c3]
      · exfalso; apply h1; simp [decodeRune, h0, c1, c2, c3]
  have hb := acceptRange_bounds s0
  by_cases c4 : s0.val < 0xF0
  · match rest with
    | [] => exfalso; apply h1; simp [decodeRune, h0, c1, c2, c4]
    | [_] => exfalso; apply h1; simp [decodeRune, h0, c1, c2, c4]
    | s1 :: s2 :: t =>
      by_cases c3 : (acceptRange s0).1 ≤ s1.val ∧ s1.val ≤ (acceptRange s0).2 ∧
          0x80 ≤ s2.val ∧ s2.val ≤ 0xBF
      · refine ⟨[s0, s1, s2], t, rfl, ?_, ?_, ?_⟩
        · simp [decodeRune, h0, c1, c2, c4, c3]
        · simp only [decodeRune, h0, c1, c2, c4, c3, if_true, if_false, and_self]
          unfold encodeRune
          have hs0 := s0.isLt
          have hs1 := s1.isLt
          have hs2 := s2.isLt
          rw [if_neg (by omega), if_neg (by omega), if_neg (by omega), if_pos (by omega)]
          rw [fin_ofNat_eq _ s0 (by omega), fin_ofNat_eq _ s1 (by omega),
            fin_ofNat_eq _ s2 (by omega)]
        · intro X
          simp [decodeRune, h0, c1, c2, c4, c3]
      · exfalso; apply h1; simp [decodeRune, h0, c1, c2, c4, c3]
  · match rest with
    | [] => exfalso; apply h1; simp [decodeRune, h0, c1, c2, c4]
    | [_] => exfalso; apply h1; simp [decodeRune, h0, c1, c2, c4]
    | [_, _] => exfalso; apply h1; simp [decodeRune, h0, c1, c2, c4]
    | s1 :: s2 :: s3 :: t =>
      by_cases c3 : (acceptRange s0).1 ≤ s1.val ∧ s1.val ≤ (acceptRange s0).2 ∧
          0x80 ≤ s2.val ∧ s2.val ≤ 0xBF ∧ 0x80 ≤ s3.val ∧ s3.val ≤ 0xBF
      · refine ⟨[s0, s1, s2, s3], t, rfl, ?_, ?_, ?_⟩
        · simp [decodeRune, h0, c1, c2, c4, c3]
        · simp only [decodeRune, h0, c1, c2, c4, c3, if_true, if_false, and_self]
          unfold encodeRune
          have hs0 := s0.isLt
          have hs1 := s1.isLt
          have hs2 := s2.isLt
          have hs3 := s3.isLt
          rw [if_neg (by omega), if_neg (by omega), if_neg (by omega), if_neg (by omega)]
          rw [fin_ofNat_eq _ s0 (by omega), fin_ofNat_eq _ s1 (by omega),
            fin_ofNat_eq _ s2 (by omega), fin_ofNat_eq _ s3 (by omega)]
        · intro X
          simp [decodeRune, h0, c1, c2, c4, c3]
      · exfalso; apply h1; simp [decodeRune, h0, c1, c2, c4, c3]

theorem escapeFrom_skip (pre X : GoString) :
    escapeFrom pre.length (pre ++ X) = escapeFrom 0 X := by
  induction pre with
  | nil => rfl
  | cons p ps ih => simpa [escapeFrom] using ih

theorem validFrom_skip (pre X : GoString) :
    validFrom pre.length (pre ++ X) = validFrom 0 X := by
  induction pre with
  | nil => rfl
  | cons p ps ih => simpa [validFrom] using ih

theorem consRead_some (p s X : GoString) : consRead p (some (s, X)) = some (p ++ s, X) := rfl

/-- Reading back the body that `appendString` writes for a valid UTF-8 string
gives the string. -/
theorem unquoteFrom_escapeFrom (n : Nat) :
    ∀ s : GoString, s.length ≤ n → validFrom 0 s = true →
      ∀ X, unquoteFrom 0 (escapeFrom 0 s ++ 0x22 :: X) = some (s, X) := by
  induction n with
  | zero =>
    intro s hn _ X
    have : s = [] := List.eq_nil_of_length_eq_zero (by omega)
    subst this
    rfl
  | succ n ih =>
    intro s hn hv X
    cases s with
    | nil => rfl
    | cons s0 rest =>
      by_cases h0 : s0.val < 0x80
      · have hv2 : validFrom 0 rest = true := by
          simpa [validFrom, h0] using hv
        have hesc : escapeFrom 0 (s0 :: rest) = escapeAscii s0 ++ escapeFrom 0 rest := by
          simp [escapeFrom, escapeStep, h0]
        rw [hesc, List.append_assoc, unquoteFrom_escapeAscii s0 h0,
          ih rest (by simpa using hn) hv2 X]
        rfl
      · by_cases h1 : (decodeRune (s0 :: rest)).2 ≤ 1
        · simp [validFrom, h0, h1] at hv
        · obtain ⟨pre, t, hsplit, hlen, henc, hdec⟩ := decodeRune_wide s0 rest h0 h1
          cases pre with
          | nil => simp at hlen; omega
          | cons p0 ps =>
            simp only [List.cons_append, List.cons.injEq] at hsplit
            obtain ⟨hp, hrest⟩ := hsplit
            subst hp
            have hsz : (decodeRune (s0 :: rest)).2 - 1 = ps.length := by
              rw [← hlen]; simp
            have hv2 : validFrom 0 t = true := by
              have := hv
              simp only [validFrom, h0, h1, if_false, hsz] at this
              rw [hrest, validFrom_skip] at this
              exact this
            have hlt : t.length ≤ n := by
              rw [hrest] at hn
              simp only [List.length_cons, List.length_append] at hn
              omega
            have hIH := ih t hlt hv2 X
            have hne : ¬ ((decodeRune (s0 :: rest)).1 = RuneError ∧
                (decodeRune (s0 :: rest)).2 = 1) := by
              rintro ⟨-, h⟩; omega
            by_cases hsp : (decodeRune (s0 :: rest)).1 = 0x2028 ∨
                (decodeRune (s0 :: rest)).1 = 0x2029
            · have hesc : escapeFrom 0 (s0 :: rest) =
                  [0x5C, 0x75, 0x32, 0x30, 0x32,
                    hexDigit ((decodeRune (s0 :: rest)).1 % 16)] ++ escapeFrom 0 t := by
                simp only [escapeFrom, escapeStep, h0, hne, hsp, if_false, if_true, hsz]
                rw [hrest, escapeFrom_skip]
              have hhex : hex4 0x32 0x30 0x32 (hexDigit ((decodeRune (s0 :: rest)).1 % 16)) =
                  some (decodeRune (s0 :: rest)).1 := by
                rcases hsp with e | e <;> rw [e] <;> decide
              have hstep := unquoteStep_hex 0x32 0x30 0x32
                (hexDigit ((decodeRune (s0 :: rest)).1 % 16)) (decodeRune (s0 :: rest)).1
                (escapeFrom 0 t ++ 0x22 :: X) hhex (by rcases hsp with e | e <;> rw [e] <;> decide)
              rw [hesc, List.append_assoc]
              simp only [List.cons_append, List.nil_append]
              rw [unquoteFrom_emit 0x5C _
                [0x5C, 0x75, 0x32, 0x30, 0x32, hexDigit ((decodeRune (s0 :: rest)).1 % 16)]
                (escapeFrom 0 t ++ 0x22 :: X) _ 6 hstep rfl rfl
                (by decide), hIH, henc, consRead_some, hrest]
              rfl
            · have hesc : escapeFrom 0 (s0 :: rest) = (s0 :: ps) ++ escapeFrom 0 t := by
                simp only [escapeFrom, escapeStep, h0, hne, hsp, if_false, hsz]
                rw [← hlen]
                conv => lhs; rw [hrest]
                rw [escapeFrom_skip]
                congr 1
                have : s0 :: (ps ++ t) = (s0 :: ps) ++ t := rfl
                rw [this, List.take_left']
                rfl
              have hY := hdec (escapeFrom 0 t ++ 0x22 :: X)
              have hstep := unquoteStep_wide s0 (ps ++ (escapeFrom 0 t ++ 0x22 :: X)) h0
              simp only [List.cons_append] at hY
              rw [hY, henc] at hstep
              rw [hesc, List.append_assoc]
              rw [List.cons_append,
                unquoteFrom_emit s0 _ (s0 :: ps) (escapeFrom 0 t ++ 0x22 :: X) _ _ hstep rfl
                  hlen (by omega), hIH, consRead_some, hrest]
              rfl

theorem appendString_append (s X : GoString) :
    appendString s ++ X = 0x22 :: (escapeFrom 0 s ++ 0x22 :: X) := by
  simp [appendString, escapeBody]

theorem unquoteBody_appendString (s X : GoString) (hv : validString s = true) :
    unquoteBody (escapeFrom 0 s ++ 0x22 :: X) = some (s, X) :=
  unquoteFrom_escapeFrom s.length s (le_refl _) hv X

theorem parseValue_string (fuel : Nat) (s X : GoString) (hv : validString s = true) :
    parseValue (fuel + 1) (appendString s ++ X) = .ok (.str s, X) := by
  rw [appendString_append, parseValue]
  have h1 : skipSpace (0x22 :: (escapeFrom 0 s ++ 0x22 :: X)) =
      0x22 :: (escapeFrom 0 s ++ 0x22 :: X) := rfl
  rw [h1]
  simp only [unquoteBody_appendString s X hv]
  rfl

theorem encodeEntries_true (m : GoMap) (k : GoString) (ks : List GoString) (X : GoString) :
    encodeEntries m true (k :: ks) ++ X =
      0x22 :: (escapeFrom 0 k ++ 0x22 :: 0x3A ::
        (appendString (mapIndex m k) ++ (encodeEntries m false ks ++ X))) := by
  simp [encodeEntries, appendString, escapeBody]

theorem encodeEntries_false (m : GoMap) (k : GoString) (ks : List GoString) :
    encodeEntries m false (k :: ks) = 0x2C :: encodeEntries m true (k :: ks) := by
  simp [encodeEntries]

/-- The members that `json.Marshal` writes for a map are read back in order. -/
theorem parseMembers_entries (m : GoMap) :
    ∀ ks : List GoString, ks ≠ [] →
      (∀ k ∈ ks, validString k = true ∧ validString (mapIndex m k) = true) →
      ∀ fuel, ks.length < fuel → ∀ X,
        parseMembers fuel (encodeEntries m true ks ++ 0x7D :: X) =
          .ok (ks.map (fun k => (k, Json.str (mapIndex m k))), X) := by
  intro ks
  induction ks with
  | nil => intro h; exact absurd rfl h
  | cons k ks ih =>
    intro _ hv fuel hf X
    obtain ⟨f, rfl⟩ : ∃ f, fuel = f + 1 := ⟨fuel - 1, by omega⟩
    obtain ⟨f2, rfl⟩ : ∃ f2, f = f2 + 1 := ⟨f - 1, by simp at hf; omega⟩
    have hk := hv k (List.mem_cons_self k ks)
    rw [encodeEntries_true, parseMembers]
    simp only [unquoteBody_appendString k _ hk.1]
    have h1 : ∀ Z : GoString, skipSpace (0x3A :: Z) = 0x3A :: Z := fun _ => rfl
    simp only [h1, parseValue_string f2 _ _ hk.2]
    cases ks with
    | nil =>
      simp only [encodeEntries, List.nil_append]
      rfl
    | cons k2 ks2 =>
      rw [encodeEntries_false]
      have h2 : ∀ Z : GoString, skipSpace (0x2C :: Z) = 0x2C :: Z := fun _ => rfl
      have h3 : skipSpace (encodeEntries m true (k2 :: ks2) ++ 0x7D :: X) =
          encodeEntries m true (k2 :: ks2) ++ 0x7D :: X := by
        rw [encodeEntries_true]; rfl
      have hih := ih (by simp) (fun k hk => hv k (List.mem_cons_of_mem _ hk)) (f2 + 1)
        (by simp at hf ⊢; omega) X
      simp only [List.cons_append, h2, h3, hih]
      rfl

/-! ### Maps -/

theorem lookup_filter_ne (m : GoMap) (k k2 : GoString) (h : k2 ≠ k) :
    (m.filter (fun e => decide (e.1 ≠ k))).lookup k2 = m.lookup k2 := by
  induction m with
  | nil => rfl
  | cons e es ih =>
    obtain ⟨ek, ev⟩ := e
    by_cases he : ek = k
    · subst he
      have hb2 : (k2 == ek) = false := by simpa using h
      have hf : List.filter (fun e => decide (e.1 ≠ ek)) ((ek, ev) :: es) =
          List.filter (fun e => decide (e.1 ≠ ek)) es := by
        rw [List.filter_cons]; simp
      rw [hf, ih, List.lookup_cons, hb2]
    · have hf : List.filter (fun e => decide (e.1 ≠ k)) ((ek, ev) :: es) =
          (ek, ev) :: List.filter (fun e => decide (e.1 ≠ k)) es := by
        rw [List.filter_cons]; simp [he]
      rw [hf, List.lookup_cons, List.lookup_cons, ih]

theorem lookup_mapSet (m : GoMap) (k v k2 : GoString) :
    (mapSet m k v).lookup k2 = if k2 = k then some v else m.lookup k2 := by
  unfold mapSet
  by_cases h : k2 = k
  · subst h; simp
  · have hb : (k2 == k) = false := by simpa using h
    rw [if_neg h, List.lookup_cons, hb]
    exact lookup_filter_ne m k k2 h

/-- The map built by storing `m[k]` under each key `k` of `ks`. -/
theorem lookup_foldl_mapSet (m : GoMap) (ks : List GoString) :
    ∀ (acc : GoMap) (k2 : GoString),
      (ks.foldl (fun a k => mapSet a k (mapIndex m k)) acc).lookup k2 =
        if k2 ∈ ks then some (mapIndex m k2) else acc.lookup k2 := by
  induction ks with
  | nil => intro acc k2; simp
  | cons k ks ih =>
    intro acc k2
    rw [List.foldl_cons, ih, lookup_mapSet]
    by_cases h1 : k2 ∈ ks
    · simp [h1]
    · by_cases h2 : k2 = k
      · subst h2; simp [h1]
      · simp [h1, h2]

theorem mem_sortedKeys (m : GoMap) (k : GoString) :
    k ∈ sortedKeys m ↔ ∃ v, m.lookup k = some v := by
  unfold sortedKeys
  rw [List.mem_insertionSort, List.mem_dedup]
  constructor
  · intro h
    cases hl : m.lookup k with
    | some v => exact ⟨v, rfl⟩
    | none =>
      exfalso
      rw [List.lookup_eq_none_iff] at hl
      obtain ⟨e, he, rfl⟩ := List.mem_map.1 h
      have := hl e he
      simp at this
  · rintro ⟨v, hv⟩
    have hs : (m.lookup k).isSome := by simp [hv]
    rw [List.lookup_isSome_iff] at hs
    obtain ⟨p, hp, hkp⟩ := hs
    have : k = p.1 := by simpa using hkp
    exact List.mem_map.2 ⟨p, hp, this.symm⟩

/-- The map that `json.Unmarshal` builds from what `json.Marshal` wrote for `m`
holds the same value as `m` under every key. -/
theorem lookup_rebuilt (m : GoMap) (k : GoString) :
    ((sortedKeys m).foldl (fun a k => mapSet a k (mapIndex m k)) []).lookup k =
      m.lookup k := by
  rw [lookup_foldl_mapSet]
  by_cases h : k ∈ sortedKeys m
  · rw [if_pos h]
    obtain ⟨v, hv⟩ := (mem_sortedKeys m k).1 h
    simp [mapIndex, hv]
  · rw [if_neg h]
    cases hl : m.lookup k with
    | none => rfl
    | some v => exact absurd ((mem_sortedKeys m k).2 ⟨v, hl⟩) h

theorem Locale.validUTF8_iff (locale : Locale) :
    locale.validUTF8 = true ↔
      validString locale.Language = true ∧ validString locale.LanguageCode = true ∧
        ∀ m, locale.Dictionary = some m →
          ∀ e ∈ m, validString e.1 = true ∧ validString e.2 = true := by
  unfold Locale.validUTF8
  cases locale.Dictionary with
  | none => simp
  | some m => simp [List.all_eq_true, and_assoc]

theorem valid_sortedKeys (m : GoMap)
    (hv : ∀ e ∈ m, validString e.1 = true ∧ validString e.2 = true) :
    ∀ k ∈ sortedKeys m, validString k = true ∧ validString (mapIndex m k) = true := by
  intro k hk
  obtain ⟨v, hl⟩ := (mem_sortedKeys m k).1 hk
  obtain ⟨l1, l2, hm, -⟩ := List.lookup_eq_some_iff.1 hl
  have hmem : (k, v) ∈ m := by rw [hm]; simp
  have := hv (k, v) hmem
  simpa [mapIndex, hl] using this

theorem parseValue_map (d : Option GoMap)
    (hv : ∀ m, d = some m → ∀ e ∈ m, validString e.1 = true ∧ validString e.2 = true)
    (fuel : Nat) (hf : ∀ m, d = some m → (sortedKeys m).length + 1 < fuel) (h0 : 0 < fuel)
    (X : GoString) :
    parseValue fuel (encodeMap d ++ X) = .ok (dictJson d, X) := by
  obtain ⟨f, rfl⟩ : ∃ f, fuel = f + 1 := ⟨fuel - 1, by omega⟩
  cases d with
  | none =>
    have h : encodeMap none ++ X = 0x6E :: 0x75 :: 0x6C :: 0x6C :: X := by
      have : encodeMap none = [0x6E, 0x75, 0x6C, 0x6C] := by decide
      rw [this]; rfl
    rw [h]
    rfl
  | some m =>
    have hks := valid_sortedKeys m (hv m rfl)
    have hfm := hf m rfl
    cases hk : sortedKeys m with
    | nil =>
      simp only [encodeMap, hk, encodeEntries, dictJson, List.map_nil, List.nil_append,
        List.cons_append]
      rfl
    | cons k ks =>
      rw [hk] at hks hfm
      have hp := parseMembers_entries m (k :: ks) (by simp) hks f (by omega) X
      have hshape : encodeMap (some m) ++ X =
          0x7B :: (encodeEntries m true (k :: ks) ++ 0x7D :: X) := by
        simp [encodeMap, hk]
      rw [hshape, parseValue]
      have h1 : skipSpace (0x7B :: (encodeEntries m true (k :: ks) ++ 0x7D :: X)) =
          0x7B :: (encodeEntries m true (k :: ks) ++ 0x7D :: X) := rfl
      rw [h1]
      rw [encodeEntries_true] at hp ⊢
      have h2 : ∀ Z : GoString, skipSpace (0x22 :: Z) = 0x22 :: Z := fun _ => rfl
      simp only [h2, hp, dictJson, hk]
      rfl

theorem parseMembers_more (f : Nat) (key V R : GoString) (v : Json)
    (hk : validString key = true) (hV : parseValue f V = .ok (v, 0x2C :: R))
    (hR : skipSpace R = R) :
    parseMembers (f + 1) (appendString key ++ 0x3A :: V) =
      match parseMembers f R with
      | .ok (ms, rest) => .ok ((key, v) :: ms, rest)
      | .error e => .error e := by
  rw [appendString_append, parseMembers]
  simp only [unquoteBody_appendString key _ hk]
  have h1 : ∀ Z : GoString, skipSpace (0x3A :: Z) = 0x3A :: Z := fun _ => rfl
  have h2 : ∀ Z : GoString, skipSpace (0x2C :: Z) = 0x2C :: Z := fun _ => rfl
  simp only [h1, hV, h2, hR]
  rfl

theorem parseMembers_last (f : Nat) (key V R : GoString) (v : Json)
    (hk : validString key = true) (hV : parseValue f V = .ok (v, 0x7D :: R)) :
    parseMembers (f + 1) (appendString key ++ 0x3A :: V) = .ok ([(key, v)], R) := by
  rw [appendString_append, parseMembers]
  simp only [unquoteBody_appendString key _ hk]
  have h1 : ∀ Z : GoString, skipSpace (0x3A :: Z) = 0x3A :: Z := fun _ => rfl
  have h2 : ∀ Z : GoString, skipSpace (0x7D :: Z) = 0x7D :: Z := fun _ => rfl
  simp only [h1, hV, h2]
  rfl

theorem encodeLocale_shape (locale : Locale) :
    encodeLocale locale =
      0x7B :: (appendString (goStr "Language") ++ 0x3A ::
        (appendString locale.Language ++ 0x2C ::
          (appendString (goStr "LanguageCode") ++ 0x3A ::
            (appendString locale.LanguageCode ++ 0x2C ::
              (appendString (goStr "Dictionary") ++ 0x3A ::
                (encodeMap locale.Dictionary ++ [0x7D])))))) := by
  have h1 : goStr "\x7b\"Language\":" = 0x7B :: (appendString (goStr "Language") ++ [0x3A]) := by
    decide
  have h2 : goStr ",\"LanguageCode\":" =
      0x2C :: (appendString (goStr "LanguageCode") ++ [0x3A]) := by decide
  have h3 : goStr ",\"Dictionary\":" =
      0x2C :: (appendString (goStr "Dictionary") ++ [0x3A]) := by decide
  unfold encodeLocale
  rw [h1, h2, h3]
  simp only [List.cons_append, List.append_assoc, List.nil_append]

theorem length_encodeEntries (m : GoMap) (ks : List GoString) :
    ∀ first, ks.length ≤ (encodeEntries m first ks).length := by
  induction ks with
  | nil => intro first; simp [encodeEntries]
  | cons k ks ih =>
    intro first
    have := ih false
    simp only [encodeEntries, List.length_append, List.length_cons, appendString]
    omega

theorem length_encodeLocale (locale : Locale) (m : GoMap) (h : locale.Dictionary = some m) :
    (sortedKeys m).length + 5 ≤ (encodeLocale locale).length := by
  have := length_encodeEntries m (sortedKeys m) true
  rw [encodeLocale_shape, h]
  simp only [encodeMap, List.length_append, List.length_cons, appendString]
  omega

/-- The JSON document that `json.Marshal` writes for a valid locale is read back
as an object with the three fields. -/
theorem parseDocument_encodeLocale (locale : Locale) (hv : locale.validUTF8 = true) :
    parseDocument (encodeLocale locale) =
      .ok (.obj [(goStr "Language", .str locale.Language),
        (goStr "LanguageCode", .str locale.LanguageCode),
        (goStr "Dictionary", dictJson locale.Dictionary)]) := by
  obtain ⟨hl, hc, hd⟩ := (Locale.validUTF8_iff locale).1 hv
  have hlen5 : 5 ≤ (encodeLocale locale).length := by
    rw [encodeLocale_shape]
    simp only [List.length_append, List.length_cons, appendString]
    omega
  obtain ⟨f, hf⟩ : ∃ f, 2 * (encodeLocale locale).length + 2 = f + 3 + 1 :=
    ⟨2 * (encodeLocale locale).length - 2, by omega⟩
  have hfuel : ∀ m, locale.Dictionary = some m → (sortedKeys m).length + 1 < f := by
    intro m hm
    have := length_encodeLocale locale m hm
    omega
  have h3 := parseValue_map locale.Dictionary hd f hfuel (by omega) [0x7D]
  have hm3 := parseMembers_last f (goStr "Dictionary") _ [] _ (by decide) h3
  have h2 : parseValue (f + 1) (appendString locale.LanguageCode ++ 0x2C ::
      (appendString (goStr "Dictionary") ++ 0x3A :: (encodeMap locale.Dictionary ++ [0x7D]))) =
      .ok (.str locale.LanguageCode, 0x2C :: _) := parseValue_string f _ _ hc
  have hm2 := parseMembers_more (f + 1) (goStr "LanguageCode") _ _ _ (by decide) h2
    (by rw [appendString_append]; rfl)
  rw [hm3] at hm2
  have h1 : parseValue (f + 2) (appendString locale.Language ++ 0x2C ::
      (appendString (goStr "LanguageCode") ++ 0x3A ::
        (appendString locale.LanguageCode ++ 0x2C ::
          (appendString (goStr "Dictionary") ++ 0x3A ::
            (encodeMap locale.Dictionary ++ [0x7D]))))) =
      .ok (.str locale.Language, 0x2C :: _) := parseValue_string (f + 1) _ _ hl
  have hm1 := parseMembers_more (f + 2) (goStr "Language") _ _ _ (by decide) h1
    (by rw [appendString_append]; rfl)
  rw [hm2] at hm1
  unfold parseDocument
  rw [hf]
  rw [encodeLocale_shape, parseValue]
  have hs : ∀ Z : GoString, skipSpace (0x7B :: Z) = 0x7B :: Z := fun _ => rfl
  rw [hs]
  rw [appendString_append] at hm1 ⊢
  have hq : ∀ Z : GoString, skipSpace (0x22 :: Z) = 0x22 :: Z := fun _ => rfl
  simp only [hq, hm1]
  rfl

theorem foldl_storeEntry_str (f : GoString → GoString) (ks : List GoString) :
    ∀ (acc : GoMap) (flag : Bool),
      (ks.map (fun k => (k, Json.str (f k)))).foldl storeEntry (acc, flag) =
        (ks.foldl (fun a k => mapSet a k (f k)) acc, flag) := by
  induction ks with
  | nil => intro acc flag; rfl
  | cons k ks ih =>
    intro acc flag
    simp only [List.map_cons, List.foldl_cons, storeEntry, ih]

theorem storeDictionary_dictJson (language code : GoString) (d : Option GoMap) :
    storeDictionary
        { locale := { Language := language, LanguageCode := code, Dictionary := none },
          saved := none } (dictJson d) =
      { locale := { Language := language, LanguageCode := code, Dictionary := rebuiltDict d },
        saved := none } := by
  cases d with
  | none => rfl
  | some m =>
    simp only [dictJson, storeDictionary, foldl_storeEntry_str, rebuiltDict]
    rfl

/-- Reading back what `Marshal` wrote for a valid locale. -/
theorem LoadFromString_encodeLocale (locale : Locale) (hv : locale.validUTF8 = true) :
    LoadFromString (encodeLocale locale) =
      ({ Language := locale.Language, LanguageCode := locale.LanguageCode,
         Dictionary := rebuiltDict locale.Dictionary }, none) := by
  unfold LoadFromString Unmarshal
  rw [parseDocument_encodeLocale locale hv]
  have k1 : keyMatches (goStr "Language") (goStr "Language") = true := by decide
  have k2 : keyMatches (goStr "LanguageCode") (goStr "Language") = false := by decide
  have k3 : keyMatches (goStr "LanguageCode") (goStr "LanguageCode") = true := by decide
  have k4 : keyMatches (goStr "Dictionary") (goStr "Language") = false := by decide
  have k5 : keyMatches (goStr "Dictionary") (goStr "LanguageCode") = false := by decide
  have k6 : keyMatches (goStr "Dictionary") (goStr "Dictionary") = true := by decide
  simp only [List.foldl_cons, List.foldl_nil, storeMember, k1, k2, k3, k4, k5, k6, if_true,
    if_false, storeString, Bool.false_eq_true, storeDictionary_dictJson]

/-! ## The fuel of the recursive descent is sufficient -/

theorem skipSpace_length_le (s : GoString) : (skipSpace s).length ≤ s.length := by
  induction s with
  | nil => simp [skipSpace]
  | cons b bs ih =>
    unfold skipSpace
    split
    · simp only [List.length_cons]; omega
    · exact le_refl _

theorem consRead_eq_some {p : GoString} {x : Option (GoString × GoString)}
    {str rest : GoString} (h : consRead p x = some (str, rest)) :
    ∃ str2, x = some (str2, rest) := by
  cases x with
  | none => simp [consRead] at h
  | some y =>
    obtain ⟨a, b⟩ := y
    simp only [consRead, Option.some.injEq, Prod.mk.injEq] at h
    exact ⟨a, by rw [h.2]⟩

theorem unquoteFrom_length_lt (s : GoString) :
    ∀ (n : Nat) (str rest : GoString), unquoteFrom n s = some (str, rest) →
      rest.length < s.length := by
  induction s with
  | nil => intro n str rest h; simp [unquoteFrom] at h
  | cons b t ih =>
    intro n str rest h
    cases n with
    | succ k =>
      simp only [unquoteFrom] at h
      have := ih k str rest h
      simp only [List.length_cons]; omega
    | zero =>
      simp only [unquoteFrom] at h
      cases hs : unquoteStep b t with
      | close =>
        rw [hs] at h
        simp only [Option.some.injEq, Prod.mk.injEq] at h
        rw [← h.2]; simp
      | bad => rw [hs] at h; simp at h
      | emit out size =>
        rw [hs] at h
        obtain ⟨str2, h2⟩ := consRead_eq_some h
        have := ih _ str2 rest h2
        simp only [List.length_cons]; omega

theorem skipDigits_length_le (s : GoString) : (skipDigits s).length ≤ s.length := by
  induction s with
  | nil => simp [skipDigits]
  | cons b bs ih =>
    unfold skipDigits
    split
    · simp only [List.length_cons]; omega
    · exact le_refl _

theorem scanExponent_length_le (s rest : GoString) (h : scanExponent s = some rest) :
    rest.length ≤ s.length := by
  cases s with
  | nil => simp [scanExponent] at h; subst h; simp
  | cons b bs =>
    by_cases hb : b = 0x65 ∨ b = 0x45
    · cases bs with
      | nil => simp [scanExponent, hb] at h
      | cons c cs =>
        by_cases hc : c = 0x2B ∨ c = 0x2D
        · by_cases hd : startsWithDigit cs = true
          · simp only [scanExponent, hb, hc, hd, if_true, Option.some.injEq] at h
            have := skipDigits_length_le cs
            rw [← h]; simp only [List.length_cons]; omega
          · simp [scanExponent, hb, hc, hd] at h
        · by_cases hd : startsWithDigit (c :: cs) = true
          · simp only [scanExponent, hb, hc, hd, if_true, if_false, Option.some.injEq] at h
            have := skipDigits_length_le (c :: cs)
            rw [← h]; simp only [List.length_cons] at this ⊢; omega
          · simp [scanExponent, hb, hc, hd] at h
    · simp only [scanExponent, hb, if_false, Option.some.injEq] at h
      rw [← h]

theorem scanFraction_length_le (s rest : GoString) (h : scanFraction s = some rest) :
    rest.length ≤ s.length := by
  cases s with
  | nil => simp [scanFraction] at h; subst h; simp
  | cons b bs =>
    by_cases hb : b = 0x2E
    · by_cases hd : startsWithDigit bs = true
      · simp only [scanFraction, hb, hd, if_true] at h
        have h1 := scanExponent_length_le _ _ h
        have h2 := skipDigits_length_le bs
        simp only [List.length_cons]; omega
      · simp [scanFraction, hb, hd] at h
    · simp only [scanFraction, hb, if_false] at h
      exact scanExponent_length_le _ _ h

theorem scanInteger_length_lt (s rest : GoString) (h : scanInteger s = some rest) :
    rest.length < s.length := by
  cases s with
  | nil => simp [scanInteger] at h
  | cons d ds =>
    by_cases hd : d = 0x30
    · simp only [scanInteger, hd, if_true] at h
      have := scanFraction_length_le _ _ h
      simp only [List.length_cons]; omega
    · by_cases hr : 0x31 ≤ d.val ∧ d.val ≤ 0x39
      · simp only [scanInteger, hd, hr, if_false, if_true, and_self] at h
        have h1 := scanFraction_length_le _ _ h
        have h2 := skipDigits_length_le ds
        simp only [List.length_cons]; omega
      · simp [scanInteger, hd, hr] at h

theorem scanNumber_length_lt (s rest : GoString) (h : scanNumber s = some rest) :
    rest.length < s.length := by
  cases s with
  | nil => simp [scanNumber] at h
  | cons b bs =>
    by_cases hb : b = 0x2D
    · simp only [scanNumber, hb, if_true] at h
      have := scanInteger_length_lt _ _ h
      simp only [List.length_cons]; omega
    · simp only [scanNumber, hb, if_false] at h
      exact scanInteger_length_lt _ _ h

theorem stripLiteral_length_le (lit : GoString) :
    ∀ (s rest : GoString), stripLiteral lit s = some rest → rest.length ≤ s.length := by
  induction lit with
  | nil => intro s rest h; simp [stripLiteral] at h; subst h; exact le_refl _
  | cons l ls ih =>
    intro s rest h
    cases s with
    | nil => simp [stripLiteral] at h
    | cons b bs =>
      simp only [stripLiteral] at h
      split at h
      · have := ih bs rest h
        simp only [List.length_cons]; omega
      · simp at h

theorem parseValue_settled (f : Nat)
    (ihm : ∀ s, 2 * s.length + 1 < f → Settled (parseMembers f s) s.length)
    (ihi : ∀ s, 2 * s.length + 1 < f → Settled (parseItems f s) s.length) :
    ∀ s, 2 * s.length < f + 1 → Settled (parseValue (f + 1) s) s.length := by
  intro s hs
  have hsp := skipSpace_length_le s
  rw [parseValue]
  cases hss : skipSpace s with
  | nil => exact ⟨by simp, by simp⟩
  | cons b bs =>
    rw [hss] at hsp
    simp only [List.length_cons] at hsp
    simp only
    by_cases h1 : b = 0x7B
    · simp only [h1, if_true]
      have hsp2 := skipSpace_length_le bs
      cases hs2 : skipSpace bs with
      | nil => exact ⟨by simp, by simp⟩
      | cons c cs =>
        rw [hs2] at hsp2
        simp only [List.length_cons] at hsp2
        simp only
        by_cases h2 : c = 0x7D
        · simp only [h2, if_true]
          refine ⟨by simp, ?_⟩
          intro v rest h
          simp only [Except.ok.injEq, Prod.mk.injEq] at h
          rw [← h.2]; omega
        · simp only [h2, if_false]
          have ih := ihm (c :: cs) (by simp only [List.length_cons]; omega)
          cases hr : parseMembers f (c :: cs) with
          | error e =>
            refine ⟨?_, by simp⟩
            intro he
            simp only [Except.error.injEq] at he
            rw [he] at hr
            exact ih.1 hr
          | ok p =>
            obtain ⟨ms, rest⟩ := p
            refine ⟨by simp, ?_⟩
            intro v rest2 h
            simp only [Except.ok.injEq, Prod.mk.injEq] at h
            have := ih.2 ms rest hr
            simp only [List.length_cons] at this
            rw [← h.2]; omega
    · simp only [h1, if_false]
      by_cases h3 : b = 0x5B
      · simp only [h3, if_true]
        have hsp2 := skipSpace_length_le bs
        cases hs2 : skipSpace bs with
        | nil => exact ⟨by simp, by simp⟩
        | cons c cs =>
          rw [hs2] at hsp2
          simp only [List.length_cons] at hsp2
          simp only
          by_cases h2 : c = 0x5D
          · simp only [h2, if_true]
            refine ⟨by simp, ?_⟩
            intro v rest h
            simp only [Except.ok.injEq, Prod.mk.injEq] at h
            rw [← h.2]; omega
          · simp only [h2, if_false]
            have ih := ihi (c :: cs) (by simp only [List.length_cons]; omega)
            cases hr : parseItems f (c :: cs) with
            | error e =>
              refine ⟨?_, by simp⟩
              intro he
              simp only [Except.error.injEq] at he
              rw [he] at hr
              exact ih.1 hr
            | ok p =>
              obtain ⟨xs, rest⟩ := p
              refine ⟨by simp, ?_⟩
              intro v rest2 h
              simp only [Except.ok.injEq, Prod.mk.injEq] at h
              have := ih.2 xs rest hr
              simp only [List.length_cons] at this
              rw [← h.2]; omega
      · simp only [h3, if_false]
        by_cases h4 : b = 0x22
        · simp only [h4, if_true]
          cases hu : unquoteBody bs with
          | none => exact ⟨by simp, by simp⟩
          | some p =>
            obtain ⟨str, rest⟩ := p
            refine ⟨by simp, ?_⟩
            intro v rest2 h
            simp only [Except.ok.injEq, Prod.mk.injEq] at h
            have := unquoteFrom_length_lt bs 0 str rest hu
            rw [← h.2]; omega
        · simp only [h4, if_false]
          by_cases h5 : b = 0x74
          · simp only [h5, if_true]
            cases hl : stripLiteral (goStr "rue") bs with
            | none => exact ⟨by simp, by simp⟩
            | some rest =>
              refine ⟨by simp, ?_⟩
              intro v rest2 h
              simp only [Except.ok.injEq, Prod.mk.injEq] at h
              have := stripLiteral_length_le _ bs rest hl
              rw [← h.2]; omega
          · simp only [h5, if_false]
            by_cases h6 : b = 0x66
            · simp only [h6, if_true]
              cases hl : stripLiteral (goStr "alse") bs with
              | none => exact ⟨by simp, by simp⟩
              | some rest =>
                refine ⟨by simp, ?_⟩
                intro v rest2 h
                simp only [Except.ok.injEq, Prod.mk.injEq] at h
                have := stripLiteral_length_le _ bs rest hl
                rw [← h.2]; omega
            · simp only [h6, if_false]
              by_cases h7 : b = 0x6E
              · simp only [h7, if_true]
                cases hl : stripLiteral (goStr "ull") bs with
                | none => exact ⟨by simp, by simp⟩
                | some rest =>
                  refine ⟨by simp, ?_⟩
                  intro v rest2 h
                  simp only [Except.ok.injEq, Prod.mk.injEq] at h
                  have := stripLiteral_length_le _ bs rest hl
                  rw [← h.2]; omega
              · simp only [h7, if_false]
                cases hn : scanNumber (b :: bs) with
                | none => exact ⟨by simp, by simp⟩
                | some rest =>
                  refine ⟨by simp, ?_⟩
                  intro v rest2 h
                  simp only [Except.ok.injEq, Prod.mk.injEq] at h
                  have := scanNumber_length_lt _ rest hn
                  simp only [List.length_cons] at this
                  rw [← h.2]; omega

theorem parseMembers_settled (f : Nat)
    (ihv : ∀ s, 2 * s.length < f → Settled (parseValue f s) s.length)
    (ihm : ∀ s, 2 * s.length + 1 < f → Settled (parseMembers f s) s.length) :
    ∀ s, 2 * s.length + 1 < f + 1 → Settled (parseMembers (f + 1) s) s.length := by
  intro s hs
  cases s with
  | nil =>
    rw [parseMembers]
    exact ⟨by simp, by simp⟩
  | cons b bs =>
    rw [parseMembers]
    simp only [List.length_cons] at hs ⊢
    by_cases h1 : b = 0x22
    · simp only [h1, if_true]
      cases hu : unquoteBody bs with
      | none => exact ⟨by simp, by simp⟩
      | some p =>
        obtain ⟨key, afterKey⟩ := p
        have hk := unquoteFrom_length_lt bs 0 key afterKey hu
        have hsp := skipSpace_length_le afterKey
        simp only
        cases hss : skipSpace afterKey with
        | nil => exact ⟨by simp, by simp⟩
        | cons c cs =>
          rw [hss] at hsp
          simp only [List.length_cons] at hsp
          simp only
          by_cases h2 : c = 0x3A
          · simp only [h2, if_true]
            have ih := ihv cs (by omega)
            cases hr : parseValue f cs with
            | error e =>
              refine ⟨?_, by simp⟩
              intro he
              simp only [Except.error.injEq] at he
              rw [he] at hr
              exact ih.1 hr
            | ok q =>
              obtain ⟨v, afterValue⟩ := q
              have hv := ih.2 v afterValue hr
              have hsp2 := skipSpace_length_le afterValue
              simp only
              cases hs2 : skipSpace afterValue with
              | nil => exact ⟨by simp, by simp⟩
              | cons d ds =>
                rw [hs2] at hsp2
                simp only [List.length_cons] at hsp2
                simp only
                by_cases h3 : d = 0x2C
                · simp only [h3, if_true]
                  have hsp3 := skipSpace_length_le ds
                  have ih2 := ihm (skipSpace ds) (by omega)
                  cases hr2 : parseMembers f (skipSpace ds) with
                  | error e =>
                    refine ⟨?_, by simp⟩
                    intro he
                    simp only [Except.error.injEq] at he
                    rw [he] at hr2
                    exact ih2.1 hr2
                  | ok q2 =>
                    obtain ⟨ms, rest⟩ := q2
                    refine ⟨by simp, ?_⟩
                    intro v2 rest2 h
                    simp only [Except.ok.injEq, Prod.mk.injEq] at h
                    have := ih2.2 ms rest hr2
                    rw [← h.2]; omega
                · have h3b : ¬ ((44 : Byte) = 0x7D) := by decide
                  simp only [h3, if_false]
                  by_cases h4 : d = 0x7D
                  · simp only [h4, if_true]
                    refine ⟨by simp, ?_⟩
                    intro v2 rest2 h
                    simp only [Except.ok.injEq, Prod.mk.injEq] at h
                    rw [← h.2]; omega
                  · simp only [h4, if_false]
                    exact ⟨by simp, by simp⟩
          · simp only [h2, if_false]
            exact ⟨by simp, by simp⟩
    · simp only [h1, if_false]
      exact ⟨by simp, by simp⟩

theorem parseItems_settled (f : Nat)
    (ihv : ∀ s, 2 * s.length < f → Settled (parseValue f s) s.length)
    (ihi : ∀ s, 2 * s.length + 1 < f → Settled (parseItems f s) s.length) :
    ∀ s, 2 * s.length + 1 < f + 1 → Settled (parseItems (f + 1) s) s.length := by
  intro s hs
  rw [parseItems]
  have ih := ihv s (by omega)
  cases hr : parseValue f s with
  | error e =>
    refine ⟨?_, by simp⟩
    intro he
    simp only [Except.error.injEq] at he
    rw [he] at hr
    exact ih.1 hr
  | ok q =>
    obtain ⟨v, afterValue⟩ := q
    have hv := ih.2 v afterValue hr
    have hsp2 := skipSpace_length_le afterValue
    simp only
    cases hs2 : skipSpace afterValue with
    | nil => exact ⟨by simp, by simp⟩
    | cons d ds =>
      rw [hs2] at hsp2
      simp only [List.length_cons] at hsp2
      simp only
      by_cases h3 : d = 0x2C
      · simp only [h3, if_true]
        have ih2 := ihi ds (by omega)
        cases hr2 : parseItems f ds with
        | error e =>
          refine ⟨?_, by simp⟩
          intro he
          simp only [Except.error.injEq] at he
          rw [he] at hr2
          exact ih2.1 hr2
        | ok q2 =>
          obtain ⟨xs, rest⟩ := q2
          refine ⟨by simp, ?_⟩
          intro v2 rest2 h
          simp only [Except.ok.injEq, Prod.mk.injEq] at h
          have := ih2.2 xs rest hr2
          rw [← h.2]; omega
      · simp only [h3, if_false]
        by_cases h4 : d = 0x5D
        · simp only [h4, if_true]
          refine ⟨by simp, ?_⟩
          intro v2 rest2 h
          simp only [Except.ok.injEq, Prod.mk.injEq] at h
          rw [← h.2]; omega
        · simp only [h4, if_false]
          exact ⟨by simp, by simp⟩

/-- With fuel above twice the length of the text, the descent never stops for
want of fuel. -/
theorem parse_settled (fuel : Nat) :
    (∀ s : GoString, 2 * s.length < fuel → Settled (parseValue fuel s) s.length) ∧
    (∀ s : GoString, 2 * s.length + 1 < fuel → Settled (parseMembers fuel s) s.length) ∧
    (∀ s : GoString, 2 * s.length + 1 < fuel → Settled (parseItems fuel s) s.length) := by
  induction fuel with
  | zero => exact ⟨fun s h => by omega, fun s h => by omega, fun s h => by omega⟩
  | succ f ih =>
    exact ⟨parseValue_settled f ih.2.1 ih.2.2, parseMembers_settled f ih.1 ih.2.1,
      parseItems_settled f ih.1 ih.2.2⟩

theorem saveError_saved (st : DecodeState) (h : st.saved ≠ some .fuelExhausted) :
    st.saveError.saved ≠ some .fuelExhausted := by
  unfold DecodeState.saveError
  cases hs : st.saved with
  | none => simp
  | some e => simp only [hs]; rw [hs] at h; exact h

theorem storeString_saved (st : DecodeState) (set : Locale → GoString → Locale) (v : Json)
    (h : st.saved ≠ some .fuelExhausted) :
    (storeString st set v).saved ≠ some .fuelExhausted := by
  cases v <;> first | exact h | exact saveError_saved st h

theorem storeDictionary_saved (st : DecodeState) (v : Json)
    (h : st.saved ≠ some .fuelExhausted) :
    (storeDictionary st v).saved ≠ some .fuelExhausted := by
  cases v with
  | null => exact h
  | obj members =>
    simp only [storeDictionary]
    split
    · exact saveError_saved _ h
    · exact h
  | bool b => exact saveError_saved st h
  | number => exact saveError_saved st h
  | str s => exact saveError_saved st h
  | arr items => exact saveError_saved st h

theorem storeMember_saved (st : DecodeState) (member : GoString × Json)
    (h : st.saved ≠ some .fuelExhausted) :
    (storeMember st member).saved ≠ some .fuelExhausted := by
  unfold storeMember
  split_ifs
  · exact storeString_saved _ _ _ h
  · exact storeString_saved _ _ _ h
  · exact storeDictionary_saved _ _ h
  · exact h

theorem foldl_storeMember_saved (members : List (GoString × Json)) :
    ∀ st : DecodeState, st.saved ≠ some .fuelExhausted →
      (members.foldl storeMember st).saved ≠ some .fuelExhausted := by
  induction members with
  | nil => intro st h; exact h
  | cons x xs ih => intro st h; exact ih _ (storeMember_saved st x h)

/-- `json.Unmarshal` as embedded here never reports exhausted fuel: its error is
a malformed text or a type mismatch. -/
theorem LoadFromString_no_fuelExhausted (data : GoString) :
    (LoadFromString data).2 ≠ some .fuelExhausted := by
  have hp := (parse_settled (2 * data.length + 2)).1 data (by omega)
  unfold LoadFromString Unmarshal parseDocument
  cases hr : parseValue (2 * data.length + 2) data with
  | error e =>
    simp only
    intro h
    simp only [Option.some.injEq] at h
    rw [h] at hr
    exact hp.1 hr
  | ok q =>
    obtain ⟨v, rest⟩ := q
    simp only
    cases hs : skipSpace rest with
    | nil =>
      simp only
      cases v with
      | obj members => exact foldl_storeMember_saved members _ (by simp)
      | null => simp
      | bool b => simp
      | number => simp
      | str s => simp
      | arr items => simp
    | cons c cs => simp

/-! ## Claims -/

/-- C1 (failing input): with the dictionary `greeting -> Hello`, `Translate("greeting")`
is `"Hello"`, yet `Localize("{.greeting.}")` is the empty string: a closing marker
that ends the template is not recognised, and the lookup is made with
`"greeting.}"`. -/
theorem localize_single_reference_at_end :
    english.Translate (goStr "greeting") = goStr "Hello" ∧
    english.Localize (goStr "\x7b.greeting.\x7d") = .ok [] ∧
    english.Localize (goStr "\x7b.greeting.\x7d") =
      .ok (english.Translate (goStr "greeting.\x7d")) := by
  decide

/-- C2 (failing input): the template `"é"` (bytes C3 A9) has no opening marker, and
`Localize` returns the four bytes C3 83 C2 A9 instead of the template. -/
theorem localize_literal_non_ascii :
    goStr "é" = [0xC3, 0xA9] ∧ ¬ openMarker <:+: goStr "é" ∧
    english.Localize (goStr "é") = .ok [0xC3, 0x83, 0xC2, 0xA9] ∧
    english.Localize (goStr "é") ≠ .ok (goStr "é") := by
  decide

/-- C3: for an ASCII key `k` without the closing marker and a non-empty `rest`,
`Localize("{." + k + ".}" + rest)` is `Translate(k)` followed by `Localize(rest)`;
with the dictionary `greeting -> Hello`, `"{.greeting.}, world!"` gives
`"Hello, world!"` and `"{.missing.} there"` gives `" there"`. -/
theorem localize_key_then_rest (locale : Locale) (k rest : GoString) (hascii : IsAscii k)
    (hk : ¬ closeMarker <:+: k) (hrest : rest ≠ []) :
    (∃ out, locale.Localize rest = .ok out ∧
      locale.Localize (openMarker ++ k ++ closeMarker ++ rest) =
        .ok (locale.Translate k ++ out)) ∧
    english.Localize (goStr "\x7b.greeting.\x7d, world!") = .ok (goStr "Hello, world!") ∧
    english.Localize (goStr "\x7b.missing.\x7d there") = .ok (goStr " there") := by
  refine ⟨⟨scanSuffix locale rest, Localize_eq locale rest, ?_⟩, by decide, by decide⟩
  have hlen : 3 ≤ (openMarker ++ k ++ closeMarker ++ rest).length := by
    simp [openMarker, closeMarker]; omega
  have hcap := captureSuffix_terminated k rest hk hrest []
  rw [Localize_eq]
  have hshape : openMarker ++ k ++ closeMarker ++ rest =
      0x7B :: 0x2E :: (k ++ closeMarker ++ rest) := by
    simp [openMarker]
  rw [hshape] at hlen ⊢
  rw [scanSuffix_cons, if_pos ⟨hlen, by simp [openMarker]⟩]
  simp only [List.drop_succ_cons, List.drop_zero]
  rw [hcap, List.nil_append, reencode_ascii k hascii]

/-- C3 at the key `greeting` followed by `!`, in the locale of the scenarios. -/
theorem localize_key_then_rest_witness :
    IsAscii (goStr "greeting") ∧ ¬ closeMarker <:+: goStr "greeting" ∧ goStr "!" ≠ [] ∧
    ∃ out, english.Localize (goStr "!") = .ok out ∧
      english.Localize (openMarker ++ goStr "greeting" ++ closeMarker ++ goStr "!") =
        .ok (english.Translate (goStr "greeting") ++ out) :=
  ⟨by decide, by decide, by decide,
    (localize_key_then_rest english (goStr "greeting") (goStr "!")
      (by decide) (by decide) (by decide)).1⟩

/-- C4 (failing input): the key `"missing"` is absent from the dictionary
`missing.} -> oops`, yet `Localize("{.missing.}")` is `"oops"`, not the empty
string. -/
theorem localize_absent_key_at_end :
    trailing.Dictionary.bind (fun m => m.lookup (goStr "missing")) = none ∧
    trailing.Translate (goStr "missing") = [] ∧
    trailing.Localize (goStr "\x7b.missing.\x7d") = .ok (goStr "oops") := by
  decide

/-- C5: `Translate` is total; it returns the stored value when the key is present,
and the empty string when the key is absent or the dictionary is nil. -/
theorem translate_value_or_empty (locale : Locale) (key : GoString) :
    (locale.Dictionary = none → locale.Translate key = []) ∧
    (∀ m, locale.Dictionary = some m →
      (∀ v, m.lookup key = some v → locale.Translate key = v) ∧
      (m.lookup key = none → locale.Translate key = [])) := by
  refine ⟨fun h => ?_, fun m h => ⟨fun v hv => ?_, fun hv => ?_⟩⟩
  · simp [Locale.Translate, h]
  · simp [Locale.Translate, mapIndex, h, hv]
  · simp [Locale.Translate, mapIndex, h, hv]

/-- C5 at the key `greeting` of the locale of the scenarios. -/
theorem translate_value_or_empty_witness :
    english.Dictionary = some [(goStr "greeting", goStr "Hello")] ∧
    List.lookup (goStr "greeting") [(goStr "greeting", goStr "Hello")] = some (goStr "Hello") ∧
    english.Translate (goStr "greeting") = goStr "Hello" :=
  ⟨rfl, by decide,
    ((translate_value_or_empty english (goStr "greeting")).2 _ rfl).1 _ (by decide)⟩

/-- C6: `Localize` has no failure mode: on every locale and every template the run
returns a string; no index or slice is out of range and no loop runs on. -/
theorem localize_never_fails (locale : Locale) (template : GoString) :
    ∃ out, locale.Localize template = .ok out :=
  ⟨scanSuffix locale template, Localize_eq locale template⟩

/-- C7: an unterminated key takes the rest of the template: for ASCII `p` without
the opening marker and non-empty ASCII `r` without the closing marker,
`Localize(p + "{." + r) = p + Translate(r)`. -/
theorem localize_unterminated_key (locale : Locale) (p r : GoString) (hp : IsAscii p)
    (hpo : ¬ openMarker <:+: p) (hr : IsAscii r) (hrne : r ≠ [])
    (hrc : ¬ closeMarker <:+: r) :
    locale.Localize (p ++ openMarker ++ r) = .ok (p ++ locale.Translate r) := by
  obtain ⟨c, cs, rfl⟩ := List.exists_cons_of_ne_nil hrne
  rw [Localize_eq, List.append_assoc,
    scanSuffix_literal locale p (openMarker ++ c :: cs) hpo (Or.inr (by simp [openMarker])),
    reencode_ascii p hp]
  have hshape : openMarker ++ c :: cs = 0x7B :: 0x2E :: c :: cs := by simp [openMarker]
  rw [hshape, scanSuffix_cons, if_pos ⟨by simp, by simp [openMarker]⟩]
  simp only [List.drop_succ_cons, List.drop_zero]
  rw [captureSuffix_unterminated (c :: cs) hrc, List.nil_append, reencode_ascii _ hr,
    scanSuffix_nil, List.append_nil]

/-- C7 at the template `Hi ` followed by the opening marker and `greeting`. -/
theorem localize_unterminated_key_witness :
    IsAscii (goStr "Hi ") ∧ ¬ openMarker <:+: goStr "Hi " ∧ IsAscii (goStr "greeting") ∧
    goStr "greeting" ≠ [] ∧ ¬ closeMarker <:+: goStr "greeting" ∧
    english.Localize (goStr "Hi " ++ openMarker ++ goStr "greeting") =
      .ok (goStr "Hi " ++ english.Translate (goStr "greeting")) :=
  ⟨by decide, by decide, by decide, by decide, by decide,
    localize_unterminated_key english (goStr "Hi ") (goStr "greeting")
      (by decide) (by decide) (by decide) (by decide) (by decide)⟩

/-- C8: an opening marker that forms the last two bytes of the template is literal
text: for ASCII `p` without the opening marker, `Localize(p + "{.") = p + "{."`,
whatever the dictionary holds. -/
theorem localize_opening_marker_at_end (locale : Locale) (p : GoString) (hp : IsAscii p)
    (hpo : ¬ openMarker <:+: p) :
    locale.Localize (p ++ openMarker) = .ok (p ++ openMarker) := by
  rw [Localize_eq,
    scanSuffix_literal locale p openMarker hpo (Or.inr (by simp [openMarker])),
    reencode_ascii p hp]
  have h : scanSuffix locale openMarker = openMarker := by
    have h1 : stringOfByte 0x7B = [0x7B] := by decide
    have h2 : stringOfByte 0x2E = [0x2E] := by decide
    simp [openMarker, scanSuffix_cons, scanSuffix_nil, h1, h2]
  rw [h]

/-- C8 at the literal text `a` and an opening brace, followed by the opening marker. -/
theorem localize_opening_marker_at_end_witness :
    IsAscii (goStr "a\x7b") ∧ ¬ openMarker <:+: goStr "a\x7b" ∧
    english.Localize (goStr "a\x7b" ++ openMarker) = .ok (goStr "a\x7b" ++ openMarker) :=
  ⟨by decide, by decide,
    localize_opening_marker_at_end english (goStr "a\x7b") (by decide) (by decide)⟩

/-- C9 (failing input): the key `"é"` (bytes C3 A9) is present with value `"e"` and
does not contain the closing marker, yet `Localize("{.é.}!")` is `"!"`, not
`"e!"`: the lookup is made with the re-encoded bytes C3 83 C2 A9. -/
theorem localize_non_ascii_key :
    accented.Translate (goStr "é") = goStr "e" ∧ ¬ closeMarker <:+: goStr "é" ∧
    accented.Localize (goStr "!") = .ok (goStr "!") ∧
    accented.Localize (goStr "\x7b.é.\x7d!") = .ok (goStr "!") ∧
    accented.Localize (goStr "\x7b.é.\x7d!") =
      .ok (accented.Translate [0xC3, 0x83, 0xC2, 0xA9] ++ goStr "!") := by
  decide

/-- C10 (as amended): for a locale whose strings are valid UTF-8, `ToJSON` succeeds,
and `LoadFromString` on its output succeeds with the same `Language`, the same
`LanguageCode` and a `Dictionary` that is nil if the original is nil and otherwise
holds the same value under every key; an empty dictionary comes back empty and
present. -/
theorem json_round_trip_valid_utf8 (locale : Locale) (hv : locale.validUTF8 = true) :
    ∃ data, locale.ToJSON = .ok data ∧
      ∃ loaded, LoadFromString data = (loaded, none) ∧
        loaded.Language = locale.Language ∧ loaded.LanguageCode = locale.LanguageCode ∧
        (locale.Dictionary = none → loaded.Dictionary = none) ∧
        ∀ m, locale.Dictionary = some m →
          ∃ m2, loaded.Dictionary = some m2 ∧ (∀ k, m2.lookup k = m.lookup k) ∧
            (m = [] → m2 = []) := by
  refine ⟨encodeLocale locale, rfl, _, LoadFromString_encodeLocale locale hv, rfl, rfl, ?_, ?_⟩
  · intro h; simp [h, rebuiltDict]
  · intro m h
    refine ⟨_, by simp only [h, rebuiltDict], lookup_rebuilt m, ?_⟩
    intro hm
    subst hm
    rfl

/-- C10 (as amended) at the locale of the scenarios. -/
theorem json_round_trip_valid_utf8_witness :
    english.validUTF8 = true ∧
    ∃ data, english.ToJSON = .ok data ∧
      ∃ loaded, LoadFromString data = (loaded, none) ∧
        loaded.Language = english.Language ∧ loaded.LanguageCode = english.LanguageCode ∧
        (english.Dictionary = none → loaded.Dictionary = none) ∧
        ∀ m, english.Dictionary = some m →
          ∃ m2, loaded.Dictionary = some m2 ∧ (∀ k, m2.lookup k = m.lookup k) ∧
            (m = [] → m2 = []) :=
  ⟨by decide, json_round_trip_valid_utf8 english (by decide)⟩

/-- C10 (counterexample): for the locale whose `Language` is the single byte FF,
`ToJSON` succeeds and `LoadFromString` on its output succeeds, and the `Language`
read back is EF BF BD, not FF. -/
theorem json_round_trip_invalid_utf8 :
    invalidLanguage.ToJSON =
      .ok (goStr "\x7b\"Language\":\"\\ufffd\",\"LanguageCode\":\"\",\"Dictionary\":\x7b\x7d\x7d") ∧
    LoadFromString
        (goStr "\x7b\"Language\":\"\\ufffd\",\"LanguageCode\":\"\",\"Dictionary\":\x7b\x7d\x7d") =
      ({ Language := [0xEF, 0xBF, 0xBD], LanguageCode := [], Dictionary := some [] }, none) ∧
    ([0xEF, 0xBF, 0xBD] : GoString) ≠ invalidLanguage.Language := by
  decide

/-! ## Further lemmas on `Localize` -/

/-- A closing marker that ends the template is read into the key. -/
theorem captureSuffix_marker_at_end (k : GoString) (hk : ¬ closeMarker <:+: k) :
    ∀ key, captureSuffix (k ++ closeMarker) key = ([], key ++ reencode (k ++ closeMarker)) := by
  induction k with
  | nil =>
    intro key
    have h1 : stringOfByte 0x2E = [0x2E] := by decide
    have h2 : stringOfByte 0x7D = [0x7D] := by decide
    simp [closeMarker, captureSuffix, reencode, h1, h2]
  | cons c cs ih =>
    intro key
    have hne : ¬ (3 ≤ (c :: (cs ++ closeMarker)).length ∧
        (c :: (cs ++ closeMarker)).take 2 = closeMarker) := by
      rintro ⟨-, h⟩
      cases cs with
      | nil => simp [closeMarker] at h
      | cons d ds => exact hk (infix_of_take_two c d h)
    rw [List.cons_append, captureSuffix_cons, if_neg hne, ih (not_infix_tail hk),
      reencode_cons, List.append_assoc]

theorem isAscii_append {a b : GoString} (ha : IsAscii a) (hb : IsAscii b) :
    IsAscii (a ++ b) := by
  intro x hx
  rcases List.mem_append.1 hx with h | h
  · exact ha x h
  · exact hb x h

/-- The two bytes of `string(b)` for `b >= 0x80`, written with the bit operations
of the UTF-8 encoder. -/
theorem byte_bit_operations : ∀ b : Byte,
    0xC0 ||| (b.val >>> 6) = 0xC0 + b.val / 64 ∧
    0x80 ||| (b.val &&& 0x3F) = 0x80 + b.val % 64 := by
  decide

theorem length_stringOfByte (b : Byte) :
    (stringOfByte b).length = if 0x80 ≤ b.val then 2 else 1 := by
  unfold stringOfByte
  by_cases h : b.val < 0x80
  · rw [if_pos h, if_neg (by omega)]; rfl
  · rw [if_neg h, if_pos (by omega)]; rfl

theorem length_reencode (t : GoString) :
    (reencode t).length = t.length + t.countP (fun b => decide (0x80 ≤ b.val)) := by
  induction t with
  | nil => rfl
  | cons c cs ih =>
    rw [reencode_cons, List.length_append, ih, length_stringOfByte, List.countP_cons,
      List.length_cons]
    by_cases h : 0x80 ≤ c.val
    · simp [h]; omega
    · simp [h]; omega

theorem reencode_eq_self_iff (t : GoString) : reencode t = t ↔ IsAscii t := by
  constructor
  · intro h
    have hl := length_reencode t
    rw [h] at hl
    have h0 : t.countP (fun b => decide (0x80 ≤ b.val)) = 0 := by omega
    intro b hb
    by_contra hc
    have hpos : 0 < t.countP (fun b => decide (0x80 ≤ b.val)) :=
      List.countP_pos_iff.2 ⟨b, hb, by simpa using Nat.le_of_not_lt hc⟩
    omega
  · exact reencode_ascii t

theorem localize_without_marker (locale : Locale) (t : GoString)
    (ht : ¬ openMarker <:+: t) : locale.Localize t = .ok (reencode t) := by
  have h := scanSuffix_literal locale t [] ht (Or.inr (by simp))
  rw [List.append_nil, scanSuffix_nil, List.append_nil] at h
  rw [Localize_eq, h]

/-! ## The loops as iterations of their bodies -/

theorem captureLoop_succ (t : GoString) (fuel pos : Nat) (key : GoString) :
    captureLoop t (fuel + 1) pos key =
      if pos < t.length then
        captureIter t pos key >>= fun r =>
          if r.1 then captureLoop t fuel r.2.1 r.2.2 else pure (r.2.1, r.2.2)
      else pure (pos, key) := by
  rw [captureLoop]
  by_cases h : pos < t.length
  · rw [if_pos h, if_pos h, index_eq_ok t pos h]
    unfold captureIter
    rw [index_eq_ok t pos h, markerAt_eq]
    by_cases hm : 3 ≤ (t.drop pos).length ∧ (t.drop pos).take 2 = closeMarker
    · simp only [bind, Except.bind, pure, Except.pure, hm, and_self, decide_True, if_true,
        Bool.false_eq_true, if_false]
    · simp only [bind, Except.bind, pure, Except.pure, hm, decide_False, Bool.false_eq_true,
        if_false, if_true]
  · rw [if_neg h, if_neg h]

theorem localizeLoop_succ (locale : Locale) (t : GoString) (fuel pos : Nat)
    (result : GoString) :
    localizeLoop locale t (fuel + 1) pos result =
      if pos < t.length then
        localizeIter locale t pos result >>= fun r => localizeLoop locale t fuel r.1 r.2
      else pure result := by
  rw [localizeLoop]
  by_cases h : pos < t.length
  · rw [if_pos h, if_pos h]
    unfold localizeIter
    rw [markerAt_eq]
    by_cases hm : 3 ≤ (t.drop pos).length ∧ (t.drop pos).take 2 = openMarker
    · simp only [bind, Except.bind, pure, Except.pure, hm, and_self, decide_True, if_true]
      cases index t (pos + 2) with
      | error e => rfl
      | ok c =>
        simp only
        cases captureLoop t (t.length + 1) (pos + 2) [] with
        | error e => rfl
        | ok r => rfl
    · simp only [bind, Except.bind, pure, Except.pure, hm, decide_False, Bool.false_eq_true,
        if_false]
      cases index t pos with
      | error e => rfl
      | ok c => rfl
  · rw [if_neg h, if_neg h]

theorem captureIter_advances (t : GoString) (pos : Nat) (key : GoString)
    (h : pos < t.length) :
    ∃ c pos2 key2, captureIter t pos key = .ok (c, pos2, key2) ∧
      pos + 1 ≤ pos2 ∧ pos2 ≤ t.length := by
  unfold captureIter
  rw [index_eq_ok t pos h, markerAt_eq]
  by_cases hm : 3 ≤ (t.drop pos).length ∧ (t.drop pos).take 2 = closeMarker
  · have hlen : pos + 2 < t.length := by
      have := hm.1; simp only [List.length_drop] at this; omega
    refine ⟨false, pos + 2, key, ?_, by omega, by omega⟩
    simp only [bind, Except.bind, pure, Except.pure, hm, and_self, decide_True, if_true]
  · refine ⟨true, pos + 1, key ++ stringOfByte (t.get ⟨pos, h⟩), ?_, by omega, by omega⟩
    simp only [bind, Except.bind, pure, Except.pure, hm, decide_False, Bool.false_eq_true,
      if_false]

theorem localizeIter_advances (locale : Locale) (t : GoString) (pos : Nat)
    (result : GoString) (h : pos < t.length) :
    ∃ pos2 result2, localizeIter locale t pos result = .ok (pos2, result2) ∧
      pos + 1 ≤ pos2 ∧ pos2 ≤ t.length := by
  unfold localizeIter
  rw [markerAt_eq]
  by_cases hm : 3 ≤ (t.drop pos).length ∧ (t.drop pos).take 2 = openMarker
  · have hlen : pos + 2 < t.length := by
      have := hm.1; simp only [List.length_drop] at this; omega
    obtain ⟨pos2, h1, h2, h3, -⟩ := captureLoop_eq t (t.length + 1) (pos + 2) []
      (by omega) (by omega)
    refine ⟨pos2, result ++ locale.Translate (captureSuffix (t.drop (pos + 2)) []).2, ?_,
      by omega, h3⟩
    simp only [bind, Except.bind, pure, Except.pure, hm, and_self, decide_True, if_true,
      index_eq_ok t (pos + 2) hlen, h1]
  · refine ⟨pos + 1, result ++ stringOfByte (t.get ⟨pos, h⟩), ?_, by omega, by omega⟩
    simp only [bind, Except.bind, pure, Except.pure, hm, decide_False, Bool.false_eq_true,
      if_false, index_eq_ok t pos h]

/-! ## `GetSystemLanguage` -/

theorem elemAt_Split (s : GoString) (sep : Byte) :
    elemAt (Split s sep) 0 = .ok (s.takeWhile (fun b => decide (b ≠ sep))) := by
  induction s with
  | nil => rfl
  | cons b bs ih =>
    unfold Split
    by_cases h : b = sep
    · simp [h, elemAt]
    · rw [if_neg h]
      cases hs : Split bs sep with
      | nil => rw [hs] at ih; simp [elemAt] at ih
      | cons p ps =>
        rw [hs] at ih
        simp only [elemAt, List.get?_cons_zero, Except.ok.injEq] at ih
        simp [elemAt, h, ih]

theorem takeWhile_not_sep (s : GoString) (sep : Byte) :
    sep ∉ s.takeWhile (fun b => decide (b ≠ sep)) ∧
    ∃ rest, s = s.takeWhile (fun b => decide (b ≠ sep)) ++ rest ∧
      (rest = [] ∨ rest.head? = some sep) := by
  constructor
  · intro h
    have := List.mem_takeWhile_imp h
    simp at this
  · refine ⟨s.dropWhile (fun b => decide (b ≠ sep)), (List.takeWhile_append_dropWhile _ s).symm,
      ?_⟩
    cases hd : s.dropWhile (fun b => decide (b ≠ sep)) with
    | nil => exact Or.inl rfl
    | cons c cs =>
      right
      have h := List.head?_dropWhile_not (fun b => decide (b ≠ sep)) s
      rw [hd] at h
      simpa using h

theorem takeWhile_without_sep (s : GoString) (sep : Byte) (h : sep ∉ s) :
    s.takeWhile (fun b => decide (b ≠ sep)) = s := by
  rw [List.takeWhile_eq_self_iff]
  intro b hb
  have : b ≠ sep := fun e => h (e ▸ hb)
  simpa using this

theorem rdropWhile_append_rtakeWhile (p : Byte → Bool) (l : GoString) :
    l.rdropWhile p ++ l.rtakeWhile p = l := by
  unfold List.rdropWhile List.rtakeWhile
  rw [← List.reverse_append, List.takeWhile_append_dropWhile, List.reverse_reverse]

/-- What `strings.Trim` removes and what it leaves. -/
theorem Trim_spec (s cutset : GoString) :
    ∃ pre post, s = pre ++ Trim s cutset ++ post ∧
      (∀ b ∈ pre, b ∈ cutset) ∧ (∀ b ∈ post, b ∈ cutset) ∧
      (∀ b, (Trim s cutset).head? = some b → b ∉ cutset) ∧
      (∀ b, (Trim s cutset).getLast? = some b → b ∉ cutset) := by
  have hR : ∀ l : GoString, TrimRight l cutset = l.rdropWhile (fun b => decide (b ∈ cutset)) :=
    fun l => rfl
  have hpre := List.takeWhile_append_dropWhile (fun b => decide (b ∈ cutset)) s
  have hpost := rdropWhile_append_rtakeWhile (fun b => decide (b ∈ cutset))
    (s.dropWhile (fun b => decide (b ∈ cutset)))
  refine ⟨s.takeWhile (fun b => decide (b ∈ cutset)),
    (s.dropWhile (fun b => decide (b ∈ cutset))).rtakeWhile (fun b => decide (b ∈ cutset)),
    ?_, ?_, ?_, ?_, ?_⟩
  · unfold Trim TrimLeft
    rw [hR, List.append_assoc, hpost, hpre]
  · intro b hb
    simpa using List.mem_takeWhile_imp hb
  · intro b hb
    simpa using List.mem_rtakeWhile_imp hb
  · intro b hb
    unfold Trim TrimLeft at hb
    rw [hR] at hb
    obtain ⟨t, ht⟩ := List.rdropWhile_prefix (fun b => decide (b ∈ cutset))
      (s.dropWhile (fun b => decide (b ∈ cutset)))
    cases hd : (s.dropWhile (fun b => decide (b ∈ cutset))).rdropWhile
        (fun b => decide (b ∈ cutset)) with
    | nil => rw [hd] at hb; simp at hb
    | cons c cs =>
      rw [hd] at hb ht
      simp only [List.head?_cons, Option.some.injEq] at hb
      subst hb
      have h := List.head?_dropWhile_not (fun b => decide (b ∈ cutset)) s
      rw [← ht] at h
      simpa using h
  · intro b hb
    unfold Trim TrimLeft at hb
    rw [hR] at hb
    have hne : (s.dropWhile (fun b => decide (b ∈ cutset))).rdropWhile
        (fun b => decide (b ∈ cutset)) ≠ [] := by
      intro h; rw [h] at hb; simp at hb
    have h := List.rdropWhile_last_not (fun b => decide (b ∈ cutset))
      (s.dropWhile (fun b => decide (b ∈ cutset))) hne
    rw [List.getLast?_eq_getLast _ hne, Option.some.injEq] at hb
    rw [hb] at h
    simpa using h

/-! ## What `LoadFromString` rejects, and the `Dictionary` it returns -/

theorem saveError_saved_ne_none (st : DecodeState) : st.saveError.saved ≠ none := by
  unfold DecodeState.saveError
  cases hs : st.saved with
  | none => simp
  | some e => simp [hs]

theorem saveError_of_saved (st : DecodeState) (h : st.saved ≠ none) :
    st.saveError.saved = st.saved := by
  unfold DecodeState.saveError
  cases hs : st.saved with
  | none => exact absurd hs h
  | some e => simp [hs]

theorem saveError_saved_congr (st1 st2 : DecodeState) (h : st1.saved = st2.saved) :
    st1.saveError.saved = st2.saveError.saved := by
  unfold DecodeState.saveError
  rw [h]
  cases hs : st2.saved <;> simp [hs, h]

theorem saveError_locale (st : DecodeState) : st.saveError.locale = st.locale := by
  unfold DecodeState.saveError
  cases st.saved <;> rfl

theorem storeString_saved_eq (st : DecodeState) (set : Locale → GoString → Locale)
    (v : Json) :
    (storeString st set v).saved = if fitsString v then st.saved else st.saveError.saved := by
  cases v <;> rfl

theorem foldl_storeEntry_flag (members : List (GoString × Json)) :
    ∀ acc : GoMap × Bool, (members.foldl storeEntry acc).2 =
      (acc.2 || members.any (fun e => !fitsString e.2)) := by
  induction members with
  | nil => intro acc; simp
  | cons m ms ih =>
    intro acc
    rw [List.foldl_cons, ih]
    obtain ⟨k, v⟩ := m
    cases v <;> simp [storeEntry, fitsString]

theorem storeDictionary_saved_eq (st : DecodeState) (v : Json) :
    (storeDictionary st v).saved = if fitsMap v then st.saved else st.saveError.saved := by
  cases v with
  | null => rfl
  | bool b => rfl
  | number => rfl
  | str s => rfl
  | arr items => rfl
  | obj members =>
    simp only [storeDictionary, fitsMap, foldl_storeEntry_flag, Bool.false_or]
    by_cases h : members.any (fun e => !fitsString e.2) = true
    · have h2 : members.all (fun e => fitsString e.2) = false := by
        rw [List.any_eq_true] at h
        obtain ⟨e, he, hf⟩ := h
        rw [List.all_eq_false]
        exact ⟨e, he, by simpa using hf⟩
      simp only [h, h2, if_true, Bool.false_eq_true, if_false]
      exact saveError_saved_congr _ _ rfl
    · have h1 : members.any (fun e => !fitsString e.2) = false := by simpa using h
      have h2 : members.all (fun e => fitsString e.2) = true := by
        rw [List.all_eq_true]
        intro e he
        rw [List.any_eq_false] at h1
        simpa using h1 e he
      simp only [h1, h2, if_true, Bool.false_eq_true, if_false]

theorem storeMember_saved_eq (st : DecodeState) (m : GoString × Json) :
    (storeMember st m).saved = if mismatched m then st.saveError.saved else st.saved := by
  unfold storeMember mismatched
  split_ifs <;> simp_all [storeString_saved_eq, storeDictionary_saved_eq]

/-- No type error is recorded exactly when none was recorded before and no member
has a value of the wrong type for the field it selects. -/
theorem foldl_storeMember_saved_eq_none (members : List (GoString × Json)) :
    ∀ st : DecodeState, (members.foldl storeMember st).saved = none ↔
      st.saved = none ∧ ∀ m ∈ members, mismatched m = false := by
  induction members with
  | nil => intro st; simp
  | cons m ms ih =>
    intro st
    rw [List.foldl_cons, ih, storeMember_saved_eq]
    by_cases hm : mismatched m = true
    · simp [hm, saveError_saved_ne_none]
    · have hm2 : mismatched m = false := by simpa using hm
      simp [hm2]

/-- `LoadFromString` returns a nil error exactly when the text is the JSON value
`null`, or is a JSON object no member of which has a value of the wrong type for
the field it selects. -/
theorem LoadFromString_error_eq_none (data : GoString) :
    (LoadFromString data).2 = none ↔
      parseDocument data = .ok .null ∨
      ∃ members, parseDocument data = .ok (.obj members) ∧
        ∀ m ∈ members, mismatched m = false := by
  unfold LoadFromString Unmarshal
  cases hp : parseDocument data with
  | error e => simp
  | ok v =>
    cases v with
    | null => simp
    | bool b => simp
    | number => simp
    | str s => simp
    | arr items => simp
    | obj members =>
      simp [foldl_storeMember_saved_eq_none]

theorem keyMatches_Dictionary (k : GoString)
    (h : keyMatches k (goStr "Dictionary") = true) :
    keyMatches k (goStr "Language") = false ∧
    keyMatches k (goStr "LanguageCode") = false := by
  unfold keyMatches at h ⊢
  simp only [decide_eq_true_eq] at h
  rw [h]
  constructor <;> decide

theorem storeString_Dictionary (st : DecodeState) (set : Locale → GoString → Locale)
    (hset : ∀ l s, (set l s).Dictionary = l.Dictionary) (v : Json) :
    (storeString st set v).locale.Dictionary = st.locale.Dictionary := by
  cases v with
  | str s => exact hset _ _
  | null => rfl
  | bool b => simp [storeString, saveError_locale]
  | number => simp [storeString, saveError_locale]
  | arr items => simp [storeString, saveError_locale]
  | obj members => simp [storeString, saveError_locale]

theorem storeDictionary_obj (st : DecodeState) (members : List (GoString × Json)) :
    (storeDictionary st (.obj members)).locale.Dictionary ≠ none := by
  simp only [storeDictionary]
  split
  · rw [saveError_locale]; simp
  · simp

theorem storeMember_Dictionary_of_not (st : DecodeState) (m : GoString × Json)
    (h : keyMatches m.1 (goStr "Dictionary") = false) :
    (storeMember st m).locale.Dictionary = st.locale.Dictionary := by
  unfold storeMember
  split_ifs
  · exact storeString_Dictionary st
      (fun l s => { Language := s, LanguageCode := l.LanguageCode, Dictionary := l.Dictionary })
      (fun _ _ => rfl) m.2
  · exact storeString_Dictionary st
      (fun l s => { Language := l.Language, LanguageCode := s, Dictionary := l.Dictionary })
      (fun _ _ => rfl) m.2
  · simp_all
  · rfl

/-- When every member that selects `Dictionary` is a JSON object, and either the
`Dictionary` is present already or there is such a member, the `Dictionary` is present
after the members have been stored. -/
theorem foldl_storeMember_Dictionary (members : List (GoString × Json)) :
    ∀ st : DecodeState,
      (∀ m ∈ members, keyMatches m.1 (goStr "Dictionary") = true → ∃ ms, m.2 = .obj ms) →
      (st.locale.Dictionary ≠ none ∨
        ∃ m ∈ members, keyMatches m.1 (goStr "Dictionary") = true) →
      (members.foldl storeMember st).locale.Dictionary ≠ none := by
  induction members with
  | nil =>
    intro st _ h
    rcases h with h | ⟨m, hm, -⟩
    · exact h
    · simp at hm
  | cons m ms ih =>
    intro st hobj h
    rw [List.foldl_cons]
    apply ih _ (fun m2 hm2 => hobj m2 (List.mem_cons_of_mem _ hm2))
    by_cases hk : keyMatches m.1 (goStr "Dictionary") = true
    · left
      obtain ⟨members2, hv⟩ := hobj m (List.mem_cons_self _ _) hk
      obtain ⟨h1, h2⟩ := keyMatches_Dictionary m.1 hk
      unfold storeMember
      rw [h1, h2, hk, hv]
      simp only [Bool.false_eq_true, if_false, if_true]
      exact storeDictionary_obj st members2
    · have hk2 : keyMatches m.1 (goStr "Dictionary") = false := by simpa using hk
      rw [storeMember_Dictionary_of_not st m hk2]
      rcases h with h | ⟨m2, hm2, hmk⟩
      · exact Or.inl h
      · right
        rcases List.mem_cons.1 hm2 with e | e
        · subst e; rw [hk2] at hmk; cases hmk
        · exact ⟨m2, e, hmk⟩

theorem obj_of_fitsMap (m : GoString × Json)
    (hk : keyMatches m.1 (goStr "Dictionary") = true) (hm : mismatched m = false)
    (hn : m.2.isNull = false) : ∃ ms, m.2 = .obj ms := by
  obtain ⟨h1, h2⟩ := keyMatches_Dictionary m.1 hk
  unfold mismatched at hm
  rw [h1, h2, hk] at hm
  simp only [Bool.false_eq_true, if_false, if_true, Bool.not_eq_false'] at hm
  cases hv : m.2 with
  | obj ms => exact ⟨ms, rfl⟩
  | null => rw [hv] at hn; simp [Json.isNull] at hn
  | bool b => rw [hv] at hm; simp [fitsMap] at hm
  | number => rw [hv] at hm; simp [fitsMap] at hm
  | str s => rw [hv] at hm; simp [fitsMap] at hm
  | arr items => rw [hv] at hm; simp [fitsMap] at hm

theorem markerAt_true_bound (t : GoString) (pos : Nat) (marker : GoString)
    (h : markerAt t marker pos = .ok true) : pos + 2 < t.length := by
  rw [markerAt_eq] at h
  simp only [Except.ok.injEq, decide_eq_true_eq] at h
  have := h.1
  simp only [List.length_drop] at this
  omega

/-! ## What the descent accepts is JSON -/

theorem IsWs_nil : IsWs [] := by
  intro b hb; cases hb

theorem IsWs_append {u v : GoString} (hu : IsWs u) (hv : IsWs v) : IsWs (u ++ v) := by
  intro b hb
  rcases List.mem_append.1 hb with h | h
  · exact hu b h
  · exact hv b h

theorem skipSpace_grammar (s : GoString) : ∃ w, s = w ++ skipSpace s ∧ IsWs w := by
  induction s with
  | nil => exact ⟨[], rfl, IsWs_nil⟩
  | cons b bs ih =>
    obtain ⟨w, hw, hws⟩ := ih
    by_cases hb : isSpace b = true
    · refine ⟨b :: w, ?_, ?_⟩
      · simp only [skipSpace, hb, if_true, List.cons_append]
        rw [← hw]
      · intro x hx
        rcases List.mem_cons.1 hx with h | h
        · subst h
          simp only [isSpace, Bool.or_eq_true, decide_eq_true_eq] at hb
          tauto
        · exact hws x h
    · refine ⟨[], ?_, IsWs_nil⟩
      simp only [skipSpace, hb, List.nil_append]
      rfl

theorem skipDigits_grammar (s : GoString) : ∃ ds, s = ds ++ skipDigits s ∧ IsDigits ds := by
  induction s with
  | nil => exact ⟨[], rfl, fun b hb => by cases hb⟩
  | cons b bs ih =>
    obtain ⟨w, hw, hws⟩ := ih
    by_cases hb : 0x30 ≤ b.val ∧ b.val ≤ 0x39
    · refine ⟨b :: w, ?_, ?_⟩
      · simp only [skipDigits, hb, and_self, if_true, List.cons_append]
        rw [← hw]
      · intro x hx
        rcases List.mem_cons.1 hx with h | h
        · subst h; exact hb
        · exact hws x h
    · refine ⟨[], ?_, fun b hb => by cases hb⟩
      simp only [skipDigits, hb, if_false, List.nil_append]

theorem startsWithDigit_grammar (s : GoString) (h : startsWithDigit s = true) :
    ∃ d ds, s = d :: ds ++ skipDigits s ∧ IsDigit d ∧ IsDigits ds := by
  cases s with
  | nil => simp [startsWithDigit] at h
  | cons b bs =>
    simp only [startsWithDigit, Bool.and_eq_true, decide_eq_true_eq] at h
    obtain ⟨ds, hds, hd⟩ := skipDigits_grammar bs
    refine ⟨b, ds, ?_, h, hd⟩
    simp only [skipDigits, h, and_self, if_true, List.cons_append]
    rw [← hds]

theorem scanExponent_grammar (s rest : GoString) (h : scanExponent s = some rest) :
    ∃ e, s = e ++ rest ∧ IsExp e := by
  cases s with
  | nil =>
    simp only [scanExponent, Option.some.injEq] at h
    subst h
    exact ⟨[], rfl, .absent⟩
  | cons b bs =>
    by_cases hb : b = 0x65 ∨ b = 0x45
    · cases bs with
      | nil => simp [scanExponent, hb] at h
      | cons c cs =>
        by_cases hc : c = 0x2B ∨ c = 0x2D
        · by_cases hd : startsWithDigit cs = true
          · simp only [scanExponent, hb, hc, hd, if_true, Option.some.injEq] at h
            obtain ⟨d, ds, hs, h1, h2⟩ := startsWithDigit_grammar cs hd
            refine ⟨b :: c :: d :: ds, ?_, .signed b c d ds hb hc h1 h2⟩
            rw [← h]
            simp only [List.cons_append, List.cons.injEq, true_and]
            exact hs
          · simp [scanExponent, hb, hc, hd] at h
        · by_cases hd : startsWithDigit (c :: cs) = true
          · simp only [scanExponent, hb, hc, hd, if_true, if_false, Option.some.injEq] at h
            obtain ⟨d, ds, hs, h1, h2⟩ := startsWithDigit_grammar (c :: cs) hd
            refine ⟨b :: d :: ds, ?_, .unsigned b d ds hb h1 h2⟩
            rw [← h]
            exact congrArg (List.cons b) hs
          · simp [scanExponent, hb, hc, hd] at h
    · simp only [scanExponent, hb, if_false, Option.some.injEq] at h
      exact ⟨[], by rw [← h]; rfl, .absent⟩

theorem scanFraction_grammar (s rest : GoString) (h : scanFraction s = some rest) :
    ∃ f e, s = f ++ e ++ rest ∧ IsFrac f ∧ IsExp e := by
  cases s with
  | nil =>
    simp only [scanFraction, Option.some.injEq] at h
    subst h
    exact ⟨[], [], rfl, .absent, .absent⟩
  | cons b bs =>
    by_cases hb : b = 0x2E
    · by_cases hd : startsWithDigit bs = true
      · simp only [scanFraction, hb, hd, if_true] at h
        obtain ⟨e, he, hexp⟩ := scanExponent_grammar _ _ h
        obtain ⟨d, ds, hs, h1, h2⟩ := startsWithDigit_grammar bs hd
        refine ⟨0x2E :: d :: ds, e, ?_, .point d ds h1 h2, hexp⟩
        rw [hb]
        simp only [List.cons_append, List.cons.injEq, true_and, List.append_assoc]
        rw [← he]
        exact hs
      · simp [scanFraction, hb, hd] at h
    · simp only [scanFraction, hb, if_false] at h
      obtain ⟨e, he, hexp⟩ := scanExponent_grammar _ _ h
      exact ⟨[], e, by simpa using he, .absent, hexp⟩

theorem scanInteger_grammar (s rest : GoString) (h : scanInteger s = some rest) :
    ∃ i f e, s = i ++ f ++ e ++ rest ∧ IsInt i ∧ IsFrac f ∧ IsExp e := by
  cases s with
  | nil => simp [scanInteger] at h
  | cons d ds =>
    by_cases hd : d = 0x30
    · simp only [scanInteger, hd, if_true] at h
      obtain ⟨f, e, hs, hf, he⟩ := scanFraction_grammar _ _ h
      refine ⟨[0x30], f, e, ?_, .zero, hf, he⟩
      rw [hd, hs]
      simp only [List.cons_append, List.nil_append, List.append_assoc]
    · by_cases hr : 0x31 ≤ d.val ∧ d.val ≤ 0x39
      · simp only [scanInteger, hd, hr, if_false, if_true, and_self] at h
        obtain ⟨f, e, hs, hf, he⟩ := scanFraction_grammar _ _ h
        obtain ⟨w, hw, hws⟩ := skipDigits_grammar ds
        refine ⟨d :: w, f, e, ?_, .digits d w hr.1 hr.2 hws, hf, he⟩
        simp only [List.cons_append, List.cons.injEq, true_and, List.append_assoc]
        rw [hs] at hw
        simpa only [List.append_assoc] using hw
      · simp [scanInteger, hd, hr] at h

theorem scanNumber_grammar (s rest : GoString) (h : scanNumber s = some rest) :
    ∃ n, s = n ++ rest ∧ IsNumber n := by
  cases s with
  | nil => simp [scanNumber] at h
  | cons b bs =>
    by_cases hb : b = 0x2D
    · simp only [scanNumber, hb, if_true] at h
      obtain ⟨i, f, e, hs, hi, hf, he⟩ := scanInteger_grammar _ _ h
      refine ⟨0x2D :: (i ++ f ++ e), ?_, .minus i f e hi hf he⟩
      rw [hb, hs]
      simp only [List.cons_append, List.append_assoc]
    · simp only [scanNumber, hb, if_false] at h
      obtain ⟨i, f, e, hs, hi, hf, he⟩ := scanInteger_grammar _ _ h
      exact ⟨i ++ f ++ e, hs, .plain i f e hi hf he⟩

theorem stripLiteral_grammar (lit : GoString) :
    ∀ (s rest : GoString), stripLiteral lit s = some rest → s = lit ++ rest := by
  induction lit with
  | nil => intro s rest h; simp [stripLiteral] at h; subst h; rfl
  | cons l ls ih =>
    intro s rest h
    cases s with
    | nil => simp [stripLiteral] at h
    | cons b bs =>
      simp only [stripLiteral] at h
      split at h
      · rename_i hlb
        rw [ih bs rest h, hlb]
        rfl
      · simp at h

theorem hexValue_grammar (b : Byte) (n : Nat) (h : hexValue b = some n) : IsHexDigit b := by
  unfold hexValue at h
  unfold IsHexDigit IsDigit
  by_cases h1 : 0x30 ≤ b.val ∧ b.val ≤ 0x39
  · exact Or.inl h1
  · by_cases h2 : 0x61 ≤ b.val ∧ b.val ≤ 0x66
    · exact Or.inr (Or.inr h2)
    · by_cases h3 : 0x41 ≤ b.val ∧ b.val ≤ 0x46
      · exact Or.inr (Or.inl h3)
      · simp [h1, h2, h3] at h

theorem hex4_grammar (h1 h2 h3 h4 : Byte) (r : Nat) (h : hex4 h1 h2 h3 h4 = some r) :
    IsHexDigit h1 ∧ IsHexDigit h2 ∧ IsHexDigit h3 ∧ IsHexDigit h4 := by
  unfold hex4 at h
  cases e1 : hexValue h1 with
  | none => simp [e1] at h
  | some a =>
    cases e2 : hexValue h2 with
    | none => simp [e1, e2] at h
    | some b =>
      cases e3 : hexValue h3 with
      | none => simp [e1, e2, e3] at h
      | some c =>
        cases e4 : hexValue h4 with
        | none => simp [e1, e2, e3, e4] at h
        | some d =>
          exact ⟨hexValue_grammar _ _ e1, hexValue_grammar _ _ e2, hexValue_grammar _ _ e3,
            hexValue_grammar _ _ e4⟩

theorem pairedRune_grammar (rr dec : Nat) (s : GoString) (h : pairedRune rr s = some dec) :
    ∃ g1 g2 g3 g4 t, s = 0x5C :: 0x75 :: g1 :: g2 :: g3 :: g4 :: t ∧
      IsHexDigit g1 ∧ IsHexDigit g2 ∧ IsHexDigit g3 ∧ IsHexDigit g4 := by
  match s, h with
  | c1 :: c2 :: g1 :: g2 :: g3 :: g4 :: t, h =>
    by_cases hc : c1 = 0x5C ∧ c2 = 0x75
    · cases hx : hex4 g1 g2 g3 g4 with
      | none => simp [pairedRune, hc, hx] at h
      | some rr1 =>
        obtain ⟨a, b, c, d⟩ := hex4_grammar _ _ _ _ _ hx
        exact ⟨g1, g2, g3, g4, t, by rw [hc.1, hc.2], a, b, c, d⟩
    · simp [pairedRune, hc] at h
  | [], h => simp [pairedRune] at h
  | [_], h => simp [pairedRune] at h
  | [_, _], h => simp [pairedRune] at h
  | [_, _, _], h => simp [pairedRune] at h
  | [_, _, _, _], h => simp [pairedRune] at h
  | [_, _, _, _, _], h => simp [pairedRune] at h

theorem simpleEscape_grammar (e c : Byte) (h : simpleEscape e = some c) :
    IsEscapeLetter e := by
  unfold simpleEscape at h
  unfold IsEscapeLetter
  by_cases h1 : e = 0x22 ∨ e = 0x5C ∨ e = 0x2F
  · tauto
  by_cases h2 : e = 0x62
  · tauto
  by_cases h3 : e = 0x66
  · tauto
  by_cases h4 : e = 0x6E
  · tauto
  by_cases h5 : e = 0x72
  · tauto
  by_cases h6 : e = 0x74
  · tauto
  simp [h1, h2, h3, h4, h5, h6] at h

theorem unquoteFrom_drop (s : GoString) :
    ∀ (k : Nat) (r : GoString × GoString), unquoteFrom k s = some r →
      unquoteFrom 0 (s.drop k) = some r := by
  induction s with
  | nil => intro k r h; simp [unquoteFrom] at h
  | cons b t ih =>
    intro k r h
    cases k with
    | zero => exact h
    | succ k =>
      simp only [unquoteFrom] at h
      exact ih k r h

theorem IsChars_high (l t : GoString) (hl : ∀ x ∈ l, 0x80 ≤ x.val) (ht : IsChars t) :
    IsChars (l ++ t) := by
  induction l with
  | nil => exact ht
  | cons x xs ih =>
    have hx := hl x (List.mem_cons_self _ _)
    refine .plain x (xs ++ t) (by omega) ?_ ?_ (ih (fun y hy => hl y (List.mem_cons_of_mem _ hy)))
    · intro h; rw [h] at hx; revert hx; decide
    · intro h; rw [h] at hx; revert hx; decide

/-- The bytes that `decodeRune` counts after the first byte of an encoding are
continuation bytes. -/
theorem decodeRune_tail (s0 : Byte) (rest : GoString) (h0 : ¬ s0.val < 0x80) :
    ∀ x ∈ rest.take ((decodeRune (s0 :: rest)).2 - 1), 0x80 ≤ x.val := by
  intro x hx
  by_cases c1 : s0.val < 0xC2 ∨ 0xF4 < s0.val
  · simp [decodeRune, h0, c1] at hx
  by_cases c2 : s0.val < 0xE0
  · cases rest with
    | nil => simp at hx
    | cons s1 t =>
      by_cases c3 : 0x80 ≤ s1.val ∧ s1.val ≤ 0xBF
      · simp [decodeRune, h0, c1, c2, c3] at hx
        rw [hx]; exact c3.1
      · simp [decodeRune, h0, c1, c2, c3] at hx
  have hb := acceptRange_bounds s0
  by_cases c4 : s0.val < 0xF0
  · match rest, hx with
    | [], hx => simp at hx
    | [_], hx => simp [decodeRune, h0, c1, c2, c4] at hx
    | s1 :: s2 :: t, hx =>
      by_cases c3 : (acceptRange s0).1 ≤ s1.val ∧ s1.val ≤ (acceptRange s0).2 ∧
          0x80 ≤ s2.val ∧ s2.val ≤ 0xBF
      · simp [decodeRune, h0, c1, c2, c4, c3] at hx
        rcases hx with hx | hx
        · rw [hx]; omega
        · rw [hx]; omega
      · simp [decodeRune, h0, c1, c2, c4, c3] at hx
  · match rest, hx with
    | [], hx => simp at hx
    | [_], hx => simp [decodeRune, h0, c1, c2, c4] at hx
    | [_, _], hx => simp [decodeRune, h0, c1, c2, c4] at hx
    | s1 :: s2 :: s3 :: t, hx =>
      by_cases c3 : (acceptRange s0).1 ≤ s1.val ∧ s1.val ≤ (acceptRange s0).2 ∧
          0x80 ≤ s2.val ∧ s2.val ≤ 0xBF ∧ 0x80 ≤ s3.val ∧ s3.val ≤ 0xBF
      · simp [decodeRune, h0, c1, c2, c4, c3] at hx
        rcases hx with hx | hx | hx
        · rw [hx]; omega
        · rw [hx]; omega
        · rw [hx]; omega
      · simp [decodeRune, h0, c1, c2, c4, c3] at hx

/-- What `unquoteStep` reads at one place is what the grammar allows there. -/
theorem unquoteStep_grammar (b : Byte) (rest : GoString) :
    (unquoteStep b rest = .close → b = 0x22) ∧
    ∀ out size, unquoteStep b rest = .emit out size →
      ∀ t, IsChars t → IsChars (b :: rest.take (size - 1) ++ t) := by
  by_cases h1 : b = 0x22
  · refine ⟨fun _ => h1, ?_⟩
    intro out size h
    simp [unquoteStep, h1] at h
  by_cases h2 : b = 0x5C
  · subst h2
    cases rest with
    | nil => simp [unquoteStep]
    | cons e t =>
      by_cases h3 : e = 0x75
      · subst h3
        match t with
        | [] => simp [unquoteStep]
        | [_] => simp [unquoteStep]
        | [_, _] => simp [unquoteStep]
        | [_, _, _] => simp [unquoteStep]
        | x1 :: x2 :: x3 :: x4 :: t4 =>
          cases hx : hex4 x1 x2 x3 x4 with
          | none => simp [unquoteStep, hx]
          | some rr =>
            obtain ⟨a1, a2, a3, a4⟩ := hex4_grammar _ _ _ _ _ hx
            by_cases hsur : 0xD800 ≤ rr ∧ rr < 0xE000
            · cases hp : pairedRune rr t4 with
              | none =>
                simp only [unquoteStep, hx, hsur, hp]
                refine ⟨by simp, ?_⟩
                intro out size h u hu
                simp only [h1, if_false, if_true, and_self, Token.emit.injEq] at h
                rw [← h.2]
                exact .unicode x1 x2 x3 x4 _ a1 a2 a3 a4 (by simpa using hu)
              | some dec =>
                obtain ⟨g1, g2, g3, g4, t10, ht, b1, b2, b3, b4⟩ := pairedRune_grammar _ _ _ hp
                simp only [unquoteStep, hx, hsur, hp]
                refine ⟨by simp, ?_⟩
                intro out size h u hu
                simp only [h1, if_false, if_true, and_self, Token.emit.injEq] at h
                rw [← h.2, ht]
                exact .unicode x1 x2 x3 x4 _ a1 a2 a3 a4
                  (.unicode g1 g2 g3 g4 _ b1 b2 b3 b4 (by simpa using hu))
            · simp only [unquoteStep, hx, hsur]
              refine ⟨by simp, ?_⟩
              intro out size h u hu
              simp only [h1, if_false, if_true, Token.emit.injEq] at h
              rw [← h.2]
              exact .unicode x1 x2 x3 x4 _ a1 a2 a3 a4 (by simpa using hu)
      · cases hs : simpleEscape e with
        | none => simp [unquoteStep, h3, hs]
        | some c =>
          simp only [unquoteStep, h3, hs]
          refine ⟨by simp, ?_⟩
          intro out size h u hu
          simp only [h1, if_false, if_true, Token.emit.injEq] at h
          rw [← h.2]
          exact .escape e _ (simpleEscape_grammar _ _ hs) (by simpa using hu)
  by_cases h4 : b.val < 0x20
  · simp [unquoteStep, h1, h2, h4]
  by_cases h5 : b.val < 0x80
  · simp only [unquoteStep, h1, h2, h4, h5, if_false, if_true]
    refine ⟨by simp, ?_⟩
    intro out size h u hu
    simp only [Token.emit.injEq] at h
    rw [← h.2]
    exact .plain b _ (by omega) h1 h2 (by simpa using hu)
  · simp only [unquoteStep, h1, h2, h4, h5, if_false]
    refine ⟨by simp, ?_⟩
    intro out size h u hu
    simp only [Token.emit.injEq] at h
    rw [← h.2]
    exact .plain b _ (by omega) h1 h2 (IsChars_high _ _ (decodeRune_tail b rest h5) hu)

/-- A string literal that `unquoteFrom` accepts consists, up to its closing quote,
of what the grammar allows between the quotes. -/
theorem unquoteFrom_grammar (n : Nat) :
    ∀ (s str rest : GoString), s.length ≤ n → unquoteFrom 0 s = some (str, rest) →
      ∃ body, s = body ++ 0x22 :: rest ∧ IsChars body := by
  induction n with
  | zero =>
    intro s str rest hl h
    cases s with
    | nil => simp [unquoteFrom] at h
    | cons b t => simp at hl
  | succ n ih =>
    intro s str rest hl h
    cases s with
    | nil => simp [unquoteFrom] at h
    | cons b t =>
      simp only [unquoteFrom] at h
      have hg := unquoteStep_grammar b t
      cases hs : unquoteStep b t with
      | close =>
        rw [hs] at h
        simp only [Option.some.injEq, Prod.mk.injEq] at h
        exact ⟨[], by rw [hg.1 hs, ← h.2]; rfl, .done⟩
      | bad => rw [hs] at h; simp at h
      | emit out size =>
        rw [hs] at h
        obtain ⟨str2, h2⟩ := consRead_eq_some h
        have h3 := unquoteFrom_drop _ _ _ h2
        have hlen : (t.drop (size - 1)).length ≤ n := by
          simp only [List.length_cons] at hl
          simp only [List.length_drop]
          omega
        obtain ⟨body, hb, hc⟩ := ih _ _ _ hlen h3
        refine ⟨b :: t.take (size - 1) ++ body, ?_, hg.2 out size hs body hc⟩
        simp only [List.cons_append, List.append_assoc, List.cons.injEq, true_and]
        rw [← hb, List.take_append_drop]

theorem parseValue_grammar (f : Nat)
    (ihm : ∀ s ms rest, parseMembers f s = .ok (ms, rest) →
      ∃ pre, s = pre ++ rest ∧ IsMemberList pre)
    (ihi : ∀ s xs rest, parseItems f s = .ok (xs, rest) →
      ∃ pre, s = pre ++ rest ∧ IsElementList pre) :
    ∀ s v rest, parseValue (f + 1) s = .ok (v, rest) →
      ∃ w val, s = w ++ val ++ rest ∧ IsWs w ∧ IsValue val := by
  intro s v rest h
  obtain ⟨w, hw, hws⟩ := skipSpace_grammar s
  rw [parseValue] at h
  cases hss : skipSpace s with
  | nil => rw [hss] at h; simp at h
  | cons b bs =>
    rw [hss] at h hw
    simp only at h
    refine ⟨w, ?_⟩
    by_cases h1 : b = 0x7B
    · simp only [h1, if_true] at h
      obtain ⟨w2, hw2, hws2⟩ := skipSpace_grammar bs
      cases hs2 : skipSpace bs with
      | nil => rw [hs2] at h; simp at h
      | cons c cs =>
        rw [hs2] at h hw2
        simp only at h
        by_cases h2 : c = 0x7D
        · simp only [h2, if_true, Except.ok.injEq, Prod.mk.injEq] at h
          refine ⟨0x7B :: w2 ++ [0x7D], ?_, hws, .emptyObject w2 hws2⟩
          rw [hw, h1, hw2, h2, h.2]
          simp only [List.cons_append, List.append_assoc, List.nil_append]
        · simp only [h2, if_false] at h
          cases hr : parseMembers f (c :: cs) with
          | error e => rw [hr] at h; simp at h
          | ok p =>
            obtain ⟨ms, rest2⟩ := p
            rw [hr] at h
            simp only [Except.ok.injEq, Prod.mk.injEq] at h
            obtain ⟨pre, hp, hpre⟩ := ihm _ _ _ hr
            refine ⟨0x7B :: w2 ++ pre, ?_, hws, .object w2 pre hws2 hpre⟩
            rw [hw, h1, hw2, hp, h.2]
            simp only [List.cons_append, List.append_assoc]
    · simp only [h1, if_false] at h
      by_cases h3 : b = 0x5B
      · simp only [h3, if_true] at h
        obtain ⟨w2, hw2, hws2⟩ := skipSpace_grammar bs
        cases hs2 : skipSpace bs with
        | nil => rw [hs2] at h; simp at h
        | cons c cs =>
          rw [hs2] at h hw2
          simp only at h
          by_cases h2 : c = 0x5D
          · simp only [h2, if_true, Except.ok.injEq, Prod.mk.injEq] at h
            refine ⟨0x5B :: w2 ++ [0x5D], ?_, hws, .emptyArray w2 hws2⟩
            rw [hw, h3, hw2, h2, h.2]
            simp only [List.cons_append, List.append_assoc, List.nil_append]
          · simp only [h2, if_false] at h
            cases hr : parseItems f (c :: cs) with
            | error e => rw [hr] at h; simp at h
            | ok p =>
              obtain ⟨xs, rest2⟩ := p
              rw [hr] at h
              simp only [Except.ok.injEq, Prod.mk.injEq] at h
              obtain ⟨pre, hp, hpre⟩ := ihi _ _ _ hr
              refine ⟨0x5B :: w2 ++ pre, ?_, hws, .array w2 pre hws2 hpre⟩
              rw [hw, h3, hw2, hp, h.2]
              simp only [List.cons_append, List.append_assoc]
      · simp only [h3, if_false] at h
        by_cases h4 : b = 0x22
        · simp only [h4, if_true] at h
          cases hu : unquoteBody bs with
          | none => rw [hu] at h; simp at h
          | some p =>
            obtain ⟨str, rest2⟩ := p
            rw [hu] at h
            simp only [Except.ok.injEq, Prod.mk.injEq] at h
            obtain ⟨body, hb, hbody⟩ := unquoteFrom_grammar bs.length bs str rest2 (le_refl _) hu
            refine ⟨0x22 :: body ++ [0x22], ?_, hws, .string body hbody⟩
            rw [hw, h4, hb, h.2]
            simp only [List.cons_append, List.append_assoc, List.nil_append]
        · simp only [h4, if_false] at h
          by_cases h5 : b = 0x74
          · simp only [h5, if_true] at h
            cases hl : stripLiteral (goStr "rue") bs with
            | none => rw [hl] at h; simp at h
            | some rest2 =>
              rw [hl] at h
              simp only [Except.ok.injEq, Prod.mk.injEq] at h
              refine ⟨goStr "true", ?_, hws, .litTrue⟩
              rw [hw, h5, stripLiteral_grammar _ _ _ hl, h.2, List.append_assoc]
              rfl
          · simp only [h5, if_false] at h
            by_cases h6 : b = 0x66
            · simp only [h6, if_true] at h
              cases hl : stripLiteral (goStr "alse") bs with
              | none => rw [hl] at h; simp at h
              | some rest2 =>
                rw [hl] at h
                simp only [Except.ok.injEq, Prod.mk.injEq] at h
                refine ⟨goStr "false", ?_, hws, .litFalse⟩
                rw [hw, h6, stripLiteral_grammar _ _ _ hl, h.2, List.append_assoc]
                rfl
            · simp only [h6, if_false] at h
              by_cases h7 : b = 0x6E
              · simp only [h7, if_true] at h
                cases hl : stripLiteral (goStr "ull") bs with
                | none => rw [hl] at h; simp at h
                | some rest2 =>
                  rw [hl] at h
                  simp only [Except.ok.injEq, Prod.mk.injEq] at h
                  refine ⟨goStr "null", ?_, hws, .litNull⟩
                  rw [hw, h7, stripLiteral_grammar _ _ _ hl, h.2, List.append_assoc]
                  rfl
              · simp only [h7, if_false] at h
                cases hn : scanNumber (b :: bs) with
                | none => rw [hn] at h; simp at h
                | some rest2 =>
                  rw [hn] at h
                  simp only [Except.ok.injEq, Prod.mk.injEq] at h
                  obtain ⟨n, hn2, hnum⟩ := scanNumber_grammar _ _ hn
                  refine ⟨n, ?_, hws, .number n hnum⟩
                  rw [hw, hn2, h.2, List.append_assoc]

theorem parseMembers_grammar (f : Nat)
    (ihv : ∀ s v rest, parseValue f s = .ok (v, rest) →
      ∃ w val, s = w ++ val ++ rest ∧ IsWs w ∧ IsValue val)
    (ihm : ∀ s ms rest, parseMembers f s = .ok (ms, rest) →
      ∃ pre, s = pre ++ rest ∧ IsMemberList pre) :
    ∀ s ms rest, parseMembers (f + 1) s = .ok (ms, rest) →
      ∃ pre, s = pre ++ rest ∧ IsMemberList pre := by
  intro s ms rest h
  cases s with
  | nil => rw [parseMembers] at h; simp at h
  | cons b bs =>
    rw [parseMembers] at h
    by_cases h1 : b = 0x22
    · simp only [h1, if_true] at h
      cases hu : unquoteBody bs with
      | none => rw [hu] at h; simp at h
      | some p =>
        obtain ⟨key, afterKey⟩ := p
        rw [hu] at h
        simp only at h
        obtain ⟨body, hb, hbody⟩ :=
          unquoteFrom_grammar bs.length bs key afterKey (le_refl _) hu
        obtain ⟨w1, hw1, hws1⟩ := skipSpace_grammar afterKey
        cases hss : skipSpace afterKey with
        | nil => rw [hss] at h; simp at h
        | cons c cs =>
          rw [hss] at h hw1
          simp only at h
          by_cases h2 : c = 0x3A
          · simp only [h2, if_true] at h
            cases hr : parseValue f cs with
            | error e => rw [hr] at h; simp at h
            | ok q =>
              obtain ⟨v, afterValue⟩ := q
              rw [hr] at h
              simp only at h
              obtain ⟨w2, val, hv, hws2, hval⟩ := ihv _ _ _ hr
              obtain ⟨w3, hw3, hws3⟩ := skipSpace_grammar afterValue
              cases hs2 : skipSpace afterValue with
              | nil => rw [hs2] at h; simp at h
              | cons d ds =>
                rw [hs2] at h hw3
                simp only at h
                by_cases h3 : d = 0x2C
                · simp only [h3, if_true] at h
                  obtain ⟨w4, hw4, hws4⟩ := skipSpace_grammar ds
                  cases hr2 : parseMembers f (skipSpace ds) with
                  | error e => rw [hr2] at h; simp at h
                  | ok q2 =>
                    obtain ⟨ms2, rest2⟩ := q2
                    rw [hr2] at h
                    simp only [Except.ok.injEq, Prod.mk.injEq] at h
                    obtain ⟨pre, hp, hpre⟩ := ihm _ _ _ hr2
                    refine ⟨0x22 :: body ++ 0x22 :: w1 ++ 0x3A :: w2 ++ val ++ w3 ++
                      0x2C :: w4 ++ pre, ?_,
                      .more body w1 w2 val w3 w4 pre hbody hws1 hws2 hval hws3 hws4 hpre⟩
                    rw [hp] at hw4
                    rw [h1, hb, hw1, h2, hv, hw3, h3, hw4, h.2]
                    simp only [List.cons_append, List.append_assoc]
                · simp only [h3, if_false] at h
                  by_cases h4 : d = 0x7D
                  · simp only [h4, if_true, Except.ok.injEq, Prod.mk.injEq] at h
                    refine ⟨0x22 :: body ++ 0x22 :: w1 ++ 0x3A :: w2 ++ val ++ w3 ++ [0x7D],
                      ?_, .last body w1 w2 val w3 hbody hws1 hws2 hval hws3⟩
                    rw [h1, hb, hw1, h2, hv, hw3, h4, h.2]
                    simp only [List.cons_append, List.append_assoc, List.nil_append]
                  · simp [h4] at h
          · simp [h2] at h
    · simp [h1] at h

theorem parseItems_grammar (f : Nat)
    (ihv : ∀ s v rest, parseValue f s = .ok (v, rest) →
      ∃ w val, s = w ++ val ++ rest ∧ IsWs w ∧ IsValue val)
    (ihi : ∀ s xs rest, parseItems f s = .ok (xs, rest) →
      ∃ pre, s = pre ++ rest ∧ IsElementList pre) :
    ∀ s xs rest, parseItems (f + 1) s = .ok (xs, rest) →
      ∃ pre, s = pre ++ rest ∧ IsElementList pre := by
  intro s xs rest h
  rw [parseItems] at h
  cases hr : parseValue f s with
  | error e => rw [hr] at h; simp at h
  | ok q =>
    obtain ⟨v, afterValue⟩ := q
    rw [hr] at h
    simp only at h
    obtain ⟨w1, val, hv, hws1, hval⟩ := ihv _ _ _ hr
    obtain ⟨w2, hw2, hws2⟩ := skipSpace_grammar afterValue
    cases hs2 : skipSpace afterValue with
    | nil => rw [hs2] at h; simp at h
    | cons d ds =>
      rw [hs2] at h hw2
      simp only at h
      by_cases h3 : d = 0x2C
      · simp only [h3, if_true] at h
        cases hr2 : parseItems f ds with
        | error e => rw [hr2] at h; simp at h
        | ok q2 =>
          obtain ⟨xs2, rest2⟩ := q2
          rw [hr2] at h
          simp only [Except.ok.injEq, Prod.mk.injEq] at h
          obtain ⟨pre, hp, hpre⟩ := ihi _ _ _ hr2
          refine ⟨w1 ++ val ++ w2 ++ 0x2C :: pre, ?_, .more w1 val w2 pre hws1 hval hws2 hpre⟩
          rw [hv, hw2, h3, hp, h.2]
          simp only [List.cons_append, List.append_assoc]
      · simp only [h3, if_false] at h
        by_cases h4 : d = 0x5D
        · simp only [h4, if_true, Except.ok.injEq, Prod.mk.injEq] at h
          refine ⟨w1 ++ val ++ w2 ++ [0x5D], ?_, .last w1 val w2 hws1 hval hws2⟩
          rw [hv, hw2, h4, h.2]
          simp only [List.cons_append, List.append_assoc, List.nil_append]
        · simp [h4] at h

/-- Whatever the descent reads, with whatever fuel, is a value of the grammar (or a
list of members or of elements) followed by the input that is left. -/
theorem parse_grammar (fuel : Nat) :
    (∀ s v rest, parseValue fuel s = .ok (v, rest) →
      ∃ w val, s = w ++ val ++ rest ∧ IsWs w ∧ IsValue val) ∧
    (∀ s ms rest, parseMembers fuel s = .ok (ms, rest) →
      ∃ pre, s = pre ++ rest ∧ IsMemberList pre) ∧
    (∀ s xs rest, parseItems fuel s = .ok (xs, rest) →
      ∃ pre, s = pre ++ rest ∧ IsElementList pre) := by
  induction fuel with
  | zero =>
    refine ⟨?_, ?_, ?_⟩
    · intro s v rest h; rw [parseValue] at h; simp at h
    · intro s ms rest h; rw [parseMembers] at h; simp at h
    · intro s xs rest h; rw [parseItems] at h; simp at h
  | succ f ih =>
    exact ⟨parseValue_grammar f ih.2.1 ih.2.2, parseMembers_grammar f ih.1 ih.2.1,
      parseItems_grammar f ih.1 ih.2.2⟩

/-- A text that `parseDocument` reads is a JSON text. -/
theorem parseDocument_grammar (data : GoString) (v : Json)
    (h : parseDocument data = .ok v) : IsJsonText data := by
  unfold parseDocument at h
  cases hr : parseValue (2 * data.length + 2) data with
  | error e => rw [hr] at h; simp at h
  | ok q =>
    obtain ⟨v2, rest⟩ := q
    rw [hr] at h
    simp only at h
    obtain ⟨w1, val, hv, hws1, hval⟩ := (parse_grammar _).1 _ _ _ hr
    obtain ⟨w2, hw2, hws2⟩ := skipSpace_grammar rest
    cases hs : skipSpace rest with
    | nil =>
      rw [hs, List.append_nil] at hw2
      exact ⟨w1, val, w2, by rw [hv, hw2], hws1, hval, hws2⟩
    | cons d ds => rw [hs] at h; simp at h

/-- A text that is not a JSON text is rejected by `parseDocument`. -/
theorem parseDocument_malformed (data : GoString) (h : ¬ IsJsonText data) :
    ∃ e, parseDocument data = .error e := by
  cases hp : parseDocument data with
  | error e => exact ⟨e, rfl⟩
  | ok v => exact absurd (parseDocument_grammar data v hp) h

/-! ## Texts that are not JSON -/

theorem IsMemberList_closed (n : Nat) :
    ∀ ms : GoString, ms.length ≤ n → IsMemberList ms → ∃ u, ms = u ++ [0x7D] := by
  induction n with
  | zero =>
    intro ms hl h
    cases h <;> simp at hl
  | succ n ih =>
    intro ms hl h
    cases h with
    | last key w1 w2 val w3 _ _ _ _ _ => exact ⟨_, rfl⟩
    | more key w1 w2 val w3 w4 ms2 _ _ _ _ _ _ hm =>
      have hlen : ms2.length ≤ n := by
        simp only [List.length_append, List.length_cons] at hl
        omega
      obtain ⟨u, hu⟩ := ih ms2 hlen hm
      refine ⟨0x22 :: key ++ 0x22 :: w1 ++ 0x3A :: w2 ++ val ++ w3 ++ 0x2C :: w4 ++ u, ?_⟩
      rw [hu]
      simp only [List.cons_append, List.append_assoc]

theorem IsNumber_head (n : GoString) (h : IsNumber n) :
    ∃ b t, n = b :: t ∧ (b = 0x2D ∨ IsDigit b) := by
  have hint : ∀ i : GoString, IsInt i → ∃ d t, i = d :: t ∧ IsDigit d := by
    intro i hi
    cases hi with
    | zero => exact ⟨0x30, [], rfl, by unfold IsDigit; decide⟩
    | digits d ds h1 h2 _ => exact ⟨d, ds, rfl, ⟨by omega, h2⟩⟩
  cases h with
  | plain i f e hi _ _ =>
    obtain ⟨d, t, ht, hd⟩ := hint i hi
    exact ⟨d, t ++ f ++ e, by rw [ht]; rfl, Or.inr hd⟩
  | minus i f e _ _ _ => exact ⟨0x2D, _, rfl, Or.inl rfl⟩

/-- A value of the grammar is not empty, and its first byte is one of the eight a
value can start with, or a digit. -/
theorem IsValue_head (val : GoString) (h : IsValue val) :
    ∃ b t, val = b :: t ∧
      (b = 0x7B ∨ b = 0x5B ∨ b = 0x22 ∨ b = 0x2D ∨ IsDigit b ∨
        b = 0x74 ∨ b = 0x66 ∨ b = 0x6E) := by
  cases h with
  | emptyObject w _ => exact ⟨0x7B, _, rfl, by tauto⟩
  | object w ms _ _ => exact ⟨0x7B, _, rfl, by tauto⟩
  | emptyArray w _ => exact ⟨0x5B, _, rfl, by tauto⟩
  | array w xs _ _ => exact ⟨0x5B, _, rfl, by tauto⟩
  | string body _ => exact ⟨0x22, _, rfl, by tauto⟩
  | number _ hn =>
    obtain ⟨b, t, ht, hb⟩ := IsNumber_head val hn
    exact ⟨b, t, ht, by tauto⟩
  | litTrue => exact ⟨0x74, goStr "rue", rfl, by tauto⟩
  | litFalse => exact ⟨0x66, goStr "alse", rfl, by tauto⟩
  | litNull => exact ⟨0x6E, goStr "ull", rfl, by tauto⟩

/-- A value of the grammar that starts with an opening brace ends with a closing
brace. -/
theorem IsValue_object_closed (val t : GoString) (h : IsValue val) (hv : val = 0x7B :: t) :
    ∃ u, val = u ++ [0x7D] := by
  cases h with
  | emptyObject w _ => exact ⟨_, rfl⟩
  | object w ms _ hm =>
    obtain ⟨u, hu⟩ := IsMemberList_closed _ ms (le_refl _) hm
    exact ⟨0x7B :: w ++ u, by rw [hu]; simp only [List.cons_append, List.append_assoc]⟩
  | emptyArray w _ =>
    exact absurd (List.cons.inj hv).1 (by decide)
  | array w xs _ _ =>
    exact absurd (List.cons.inj hv).1 (by decide)
  | string body _ =>
    exact absurd (List.cons.inj hv).1 (by decide)
  | number _ hn =>
    obtain ⟨b, t2, ht, hb⟩ := IsNumber_head _ hn
    rw [ht] at hv
    have hb2 := (List.cons.inj hv).1
    subst hb2
    rcases hb with hb | hb
    · exact absurd hb (by decide)
    · exact absurd hb (by unfold IsDigit; decide)
  | litTrue => exact absurd (List.cons.inj hv).1 (by decide)
  | litFalse => exact absurd (List.cons.inj hv).1 (by decide)
  | litNull => exact absurd (List.cons.inj hv).1 (by decide)

/-- A value of the grammar that starts with `n` is the literal name `null`. -/
theorem IsValue_null (val t : GoString) (h : IsValue val) (hv : val = 0x6E :: t) :
    val = goStr "null" := by
  cases h with
  | emptyObject w _ => exact absurd (List.cons.inj hv).1 (by decide)
  | object w ms _ _ => exact absurd (List.cons.inj hv).1 (by decide)
  | emptyArray w _ => exact absurd (List.cons.inj hv).1 (by decide)
  | array w xs _ _ => exact absurd (List.cons.inj hv).1 (by decide)
  | string body _ => exact absurd (List.cons.inj hv).1 (by decide)
  | number _ hn =>
    obtain ⟨b, t2, ht, hb⟩ := IsNumber_head _ hn
    rw [ht] at hv
    have hb2 := (List.cons.inj hv).1
    subst hb2
    rcases hb with hb | hb
    · exact absurd hb (by decide)
    · exact absurd hb (by unfold IsDigit; decide)
  | litTrue => exact absurd (List.cons.inj hv).1 (by decide)
  | litFalse => exact absurd (List.cons.inj hv).1 (by decide)
  | litNull => rfl

/-- The empty text is not JSON. -/
theorem not_jsonText_nil : ¬ IsJsonText [] := by
  rintro ⟨w1, val, w2, hd, -, hval, -⟩
  obtain ⟨b, t, ht, -⟩ := IsValue_head val hval
  rw [ht] at hd
  have := congrArg List.length hd
  simp only [List.length_nil, List.length_append, List.length_cons] at this
  omega

/-- A text whose first byte is neither white space nor the first byte of a value is
not JSON. -/
theorem not_jsonText_of_head (b : Byte) (t : GoString)
    (hws : ¬ (b = 0x20 ∨ b = 0x09 ∨ b = 0x0A ∨ b = 0x0D))
    (hb : ¬ (b = 0x7B ∨ b = 0x5B ∨ b = 0x22 ∨ b = 0x2D ∨ IsDigit b ∨
      b = 0x74 ∨ b = 0x66 ∨ b = 0x6E)) :
    ¬ IsJsonText (b :: t) := by
  rintro ⟨w1, val, w2, hd, hw1, hval, -⟩
  obtain ⟨c, u, hu, hc⟩ := IsValue_head val hval
  cases w1 with
  | nil =>
    rw [hu] at hd
    have := (List.cons.inj hd).1
    subst this
    exact hb hc
  | cons x xs =>
    have := (List.cons.inj hd).1
    subst this
    exact hws (hw1 b (List.mem_cons_self _ _))

/-- A text that starts with an opening brace and whose last byte is neither white
space nor a closing brace is not JSON. -/
theorem not_jsonText_unclosed (t u : GoString) (c : Byte) (hd : 0x7B :: t = u ++ [c])
    (hws : ¬ (c = 0x20 ∨ c = 0x09 ∨ c = 0x0A ∨ c = 0x0D)) (hc : c ≠ 0x7D) :
    ¬ IsJsonText (0x7B :: t) := by
  rintro ⟨w1, val, w2, he, hw1, hval, hw2⟩
  have h1 : w1 = [] := by
    cases w1 with
    | nil => rfl
    | cons x xs =>
      have hx := (List.cons.inj he).1
      have := hw1 x (List.mem_cons_self _ _)
      rw [← hx] at this
      exfalso
      revert this
      decide
  have h2 : w2 = [] := by
    rcases List.eq_nil_or_concat w2 with h | ⟨v, y, h⟩
    · exact h
    · exfalso
      rw [h, hd, List.concat_eq_append, ← List.append_assoc] at he
      have hy := (List.append_inj' he rfl).2
      have hyc : c = y := by simpa using hy
      apply hws
      rw [hyc]
      exact hw2 y (by rw [h]; simp)
  subst h1
  subst h2
  simp only [List.nil_append, List.append_nil] at he
  obtain ⟨v, hv⟩ := IsValue_object_closed val t hval he.symm
  rw [hv, hd] at he
  have hy := (List.append_inj' he rfl).2
  apply hc
  simpa using hy

theorem not_jsonText_lone_brace : ¬ IsJsonText (goStr "\x7b") :=
  not_jsonText_unclosed [] [] 0x7B rfl (by decide) (by decide)

theorem not_jsonText_open_object : ¬ IsJsonText (goStr "\x7b\"Language\":\"English\"") :=
  not_jsonText_unclosed (goStr "\"Language\":\"English\"")
    (goStr "\x7b\"Language\":\"English") 0x22 rfl (by decide) (by decide)

theorem not_jsonText_word : ¬ IsJsonText (goStr "Hello") :=
  not_jsonText_of_head 0x48 (goStr "ello") (by decide) (by unfold IsDigit; decide)

theorem not_jsonText_nonsense : ¬ IsJsonText (goStr "nonsense") := by
  rintro ⟨w1, val, w2, he, hw1, hval, -⟩
  obtain ⟨b, t, ht, -⟩ := IsValue_head val hval
  have hs : goStr "nonsense" = 0x6E :: goStr "onsense" := rfl
  rw [hs] at he
  cases w1 with
  | cons x xs =>
    have hx := (List.cons.inj he).1
    have := hw1 x (List.mem_cons_self _ _)
    rw [← hx] at this
    revert this
    decide
  | nil =>
    rw [ht] at he
    have hb := (List.cons.inj he).1
    subst hb
    have hn := IsValue_null val t hval ht
    have h1 : goStr "null" = 0x6E :: 0x75 :: goStr "ll" := rfl
    have h2 : goStr "onsense" = 0x6F :: goStr "nsense" := rfl
    rw [← ht, hn, h1, h2] at he
    simp only [List.nil_append, List.cons_append] at he
    exact absurd (List.cons.inj (List.cons.inj he).2).1 (by decide)

/-- Bytes that are not valid UTF-8 inside a string literal do not make a text
malformed: `LoadFromString` reads the byte 0xFF as U+FFFD and returns no error. -/
theorem loadFromString_invalid_utf8 :
    LoadFromString (goStr "\x7b\"Language\":\"" ++ [0xFF] ++ goStr "\"\x7d") =
      (⟨[0xEF, 0xBF, 0xBD], [], none⟩, none) := by
  decide

/-! ## Claims, continued -/

/-- C11 (counterexample): on the text `{}` `LoadFromString` returns a nil error and
a `Locale` whose `Dictionary` is nil; so it does on `null` and when the member
`Dictionary` is `null`. -/
theorem loadFromString_nil_dictionary :
    (LoadFromString (goStr "\x7b\x7d")).2 = none ∧
    (LoadFromString (goStr "\x7b\x7d")).1.Dictionary = none ∧
    LoadFromString (goStr "null") = (⟨[], [], none⟩, none) ∧
    LoadFromString (goStr "\x7b\"Dictionary\":null\x7d") = (⟨[], [], none⟩, none) := by
  decide

/-- C11 (as amended): when `LoadFromString` returns no error on a text that is a JSON
object with at least one member selecting `Dictionary`, none of these members being
`null`, the `Dictionary` of the returned `Locale` is present. -/
theorem loadFromString_dictionary_present (data : GoString)
    (members : List (GoString × Json))
    (hparse : parseDocument data = .ok (.obj members))
    (herr : (LoadFromString data).2 = none)
    (hex : ∃ m ∈ members, keyMatches m.1 (goStr "Dictionary") = true)
    (hnull : ∀ m ∈ members, keyMatches m.1 (goStr "Dictionary") = true →
      m.2.isNull = false) :
    ∃ m, (LoadFromString data).1.Dictionary = some m := by
  have hfit : ∀ m ∈ members, mismatched m = false := by
    rcases (LoadFromString_error_eq_none data).1 herr with h | ⟨ms, h, hall⟩
    · rw [hparse] at h; cases h
    · rw [hparse] at h
      simp only [Except.ok.injEq, Json.obj.injEq] at h
      rw [h]; exact hall
  have hobj : ∀ m ∈ members, keyMatches m.1 (goStr "Dictionary") = true →
      ∃ ms, m.2 = .obj ms :=
    fun m hm hk => obj_of_fitsMap m hk (hfit m hm) (hnull m hm hk)
  have hd := foldl_storeMember_Dictionary members
    { locale := { Language := [], LanguageCode := [], Dictionary := none }, saved := none }
    hobj (Or.inr hex)
  have hload : (LoadFromString data).1.Dictionary =
      (members.foldl storeMember
        { locale := { Language := [], LanguageCode := [], Dictionary := none },
          saved := none }).locale.Dictionary := by
    unfold LoadFromString Unmarshal
    rw [hparse]
  rw [hload]
  exact Option.ne_none_iff_exists'.1 hd

/-- C11 (as amended) at a text with the fields `Language` and `Dictionary`. -/
theorem loadFromString_dictionary_present_witness :
    parseDocument (goStr "\x7b\"Language\":\"English\",\"Dictionary\":\x7b\x7d\x7d") =
      .ok (.obj [(goStr "Language", .str (goStr "English")), (goStr "Dictionary", .obj [])]) ∧
    (LoadFromString
      (goStr "\x7b\"Language\":\"English\",\"Dictionary\":\x7b\x7d\x7d")).2 = none ∧
    ∃ m, (LoadFromString
      (goStr "\x7b\"Language\":\"English\",\"Dictionary\":\x7b\x7d\x7d")).1.Dictionary =
        some m :=
  ⟨by rfl, by decide,
    loadFromString_dictionary_present
      (goStr "\x7b\"Language\":\"English\",\"Dictionary\":\x7b\x7d\x7d")
      [(goStr "Language", .str (goStr "English")), (goStr "Dictionary", .obj [])]
      (by rfl) (by decide) ⟨(goStr "Dictionary", .obj []), by simp, by decide⟩
      (by
        intro m hm hk
        simp only [List.mem_cons, List.mem_singleton, List.not_mem_nil, or_false] at hm
        rcases hm with rfl | rfl
        · revert hk; decide
        · rfl)⟩

/-- C12: `CreateLocale(language, code)` has the given `Language` and `LanguageCode`,
unchanged, and a `Dictionary` that is present and empty; `Translate` on it returns
the empty string for every key. -/
theorem createLocale_fields (language code : GoString) :
    (CreateLocale language code).Language = language ∧
    (CreateLocale language code).LanguageCode = code ∧
    (CreateLocale language code).Dictionary = some [] ∧
    ∀ key, (CreateLocale language code).Translate key = [] :=
  ⟨rfl, rfl, rfl, fun _ => rfl⟩

/-- C13 (counterexample): on the text `{}`, where all three fields are missing, and
on an object that has only the field `Language`, `LoadFromString` returns a nil
error. -/
theorem loadFromString_accepts_missing_fields :
    LoadFromString (goStr "\x7b\x7d") = (⟨[], [], none⟩, none) ∧
    LoadFromString (goStr "\x7b\"Language\":\"English\"\x7d") =
      (⟨goStr "English", [], none⟩, none) := by
  decide

/-- C13 (as amended): `LoadFromString` returns a non-nil error on every text that is
malformed JSON, that is, on every text that is not a JSON text of the grammar
(`IsJsonText`), and on every JSON object in which a member selecting `Language`,
`LanguageCode` or `Dictionary` has a value of the wrong type (for the two names:
neither a string nor `null`; for `Dictionary`: neither `null` nor an object whose
values are strings or `null`). -/
theorem loadFromString_rejects (data : GoString)
    (h : ¬ IsJsonText data ∨
      ∃ members, parseDocument data = .ok (.obj members) ∧
        ∃ m ∈ members, mismatched m = true) :
    (LoadFromString data).2 ≠ none := by
  intro hnone
  rcases (LoadFromString_error_eq_none data).1 hnone with hn | ⟨ms, hp, hall⟩
  · rcases h with hmal | ⟨members, hm, -⟩
    · exact hmal (parseDocument_grammar data _ hn)
    · rw [hm] at hn; cases hn
  · rcases h with hmal | ⟨members, hm, m, hmem, hmis⟩
    · exact hmal (parseDocument_grammar data _ hp)
    · rw [hm] at hp
      simp only [Except.ok.injEq, Json.obj.injEq] at hp
      subst hp
      rw [hall m hmem] at hmis
      cases hmis

/-- C13 (as amended) at five texts that are not JSON (a lone opening brace, the word
`nonsense`, an object that is not closed, a word that no value starts with, the
empty text) and at an object whose `Language` is a number. -/
theorem loadFromString_rejects_witness :
    (¬ IsJsonText (goStr "\x7b") ∧ (LoadFromString (goStr "\x7b")).2 ≠ none) ∧
    (¬ IsJsonText (goStr "nonsense") ∧ (LoadFromString (goStr "nonsense")).2 ≠ none) ∧
    (¬ IsJsonText (goStr "\x7b\"Language\":\"English\"") ∧
      (LoadFromString (goStr "\x7b\"Language\":\"English\"")).2 ≠ none) ∧
    (¬ IsJsonText (goStr "Hello") ∧ (LoadFromString (goStr "Hello")).2 ≠ none) ∧
    (¬ IsJsonText (goStr "") ∧ (LoadFromString (goStr "")).2 ≠ none) ∧
    (parseDocument (goStr "\x7b\"Language\": 1\x7d") =
        .ok (.obj [(goStr "Language", .number)]) ∧
      mismatched (goStr "Language", .number) = true ∧
      (LoadFromString (goStr "\x7b\"Language\": 1\x7d")).2 ≠ none) :=
  ⟨⟨not_jsonText_lone_brace,
      loadFromString_rejects (goStr "\x7b") (Or.inl not_jsonText_lone_brace)⟩,
    ⟨not_jsonText_nonsense,
      loadFromString_rejects (goStr "nonsense") (Or.inl not_jsonText_nonsense)⟩,
    ⟨not_jsonText_open_object,
      loadFromString_rejects (goStr "\x7b\"Language\":\"English\"")
        (Or.inl not_jsonText_open_object)⟩,
    ⟨not_jsonText_word, loadFromString_rejects (goStr "Hello") (Or.inl not_jsonText_word)⟩,
    ⟨not_jsonText_nil, loadFromString_rejects (goStr "") (Or.inl not_jsonText_nil)⟩,
    ⟨by rfl, by decide,
      loadFromString_rejects (goStr "\x7b\"Language\": 1\x7d")
        (Or.inr ⟨[(goStr "Language", .number)], by rfl,
          (goStr "Language", .number), by simp, by decide⟩)⟩⟩

/-- C14: `GetSystemLanguage` as a function of the lookup of `LANG` and of the outcome
of the command.  With `LANG` set it returns, whatever the command would do and with
a nil error, the part of the value before its first `.` (the whole value if it has
none), and the index `[0]` is in range; with `LANG` unset it returns the output of
the command without its leading and trailing CR and LF bytes and a nil error, or the
empty string and the error of the command; it returns an error exactly when `LANG`
is unset and the command fails. -/
theorem getSystemLanguage_cases {ε : Type} (value out : GoString) (err : ε)
    (lookupEnv : Option GoString) (command : Except ε GoString) :
    GetSystemLanguage (some value) command =
      .ok (value.takeWhile (fun b => decide (b ≠ 0x2E)), none) ∧
    ((0x2E : Byte) ∉ value.takeWhile (fun b => decide (b ≠ 0x2E)) ∧
      ∃ rest, value = value.takeWhile (fun b => decide (b ≠ 0x2E)) ++ rest ∧
        (rest = [] ∨ rest.head? = some 0x2E)) ∧
    ((0x2E : Byte) ∉ value → GetSystemLanguage (some value) command = .ok (value, none)) ∧
    GetSystemLanguage none (Except.ok out : Except ε GoString) = .ok (Trim out crlf, none) ∧
    (∃ pre post, out = pre ++ Trim out crlf ++ post ∧
      (∀ b ∈ pre, b = 0x0D ∨ b = 0x0A) ∧ (∀ b ∈ post, b = 0x0D ∨ b = 0x0A) ∧
      (∀ b, (Trim out crlf).head? = some b → b ≠ 0x0D ∧ b ≠ 0x0A) ∧
      (∀ b, (Trim out crlf).getLast? = some b → b ≠ 0x0D ∧ b ≠ 0x0A)) ∧
    GetSystemLanguage none (Except.error err : Except ε GoString) = .ok ([], some err) ∧
    ((∃ s e, GetSystemLanguage lookupEnv command = .ok (s, some e)) ↔
      lookupEnv = none ∧ ∃ e, command = .error e) := by
  have hset : ∀ (v : GoString) (c : Except ε GoString),
      GetSystemLanguage (some v) c = .ok (v.takeWhile (fun b => decide (b ≠ 0x2E)), none) := by
    intro v c
    simp only [GetSystemLanguage, elemAt_Split, bind, Except.bind, pure, Except.pure]
  refine ⟨hset value command, takeWhile_not_sep value 0x2E, ?_, rfl, ?_, rfl, ?_⟩
  · intro h
    rw [hset, takeWhile_without_sep value 0x2E h]
  · obtain ⟨pre, post, h1, h2, h3, h4, h5⟩ := Trim_spec out crlf
    refine ⟨pre, post, h1, ?_, ?_, ?_, ?_⟩
    · intro b hb; simpa [crlf] using h2 b hb
    · intro b hb; simpa [crlf] using h3 b hb
    · intro b hb; simpa [crlf] using h4 b hb
    · intro b hb; simpa [crlf] using h5 b hb
  · constructor
    · rintro ⟨s, e, h⟩
      cases lookupEnv with
      | some v => rw [hset] at h; simp at h
      | none =>
        cases command with
        | error e2 => exact ⟨rfl, e2, rfl⟩
        | ok o => simp [GetSystemLanguage, pure, Except.pure] at h
    · rintro ⟨rfl, e, rfl⟩
      exact ⟨[], e, rfl⟩

/-- C15: a closing marker that forms the last two bytes of the template is not
recognised: for ASCII `k` without the closing marker,
`Localize("{." + k + ".}") = Translate(k + ".}")`. -/
theorem localize_closing_marker_at_end (locale : Locale) (k : GoString) (hascii : IsAscii k)
    (hk : ¬ closeMarker <:+: k) :
    locale.Localize (openMarker ++ k ++ closeMarker) =
      .ok (locale.Translate (k ++ closeMarker)) := by
  have hshape : openMarker ++ k ++ closeMarker = 0x7B :: 0x2E :: (k ++ closeMarker) := by
    simp [openMarker]
  have hlen : 3 ≤ (0x7B :: 0x2E :: (k ++ closeMarker)).length := by
    simp [closeMarker]
  have hca : IsAscii closeMarker := by decide
  rw [Localize_eq, hshape, scanSuffix_cons, if_pos ⟨hlen, by simp [openMarker]⟩]
  simp only [List.drop_succ_cons, List.drop_zero]
  rw [captureSuffix_marker_at_end k hk, List.nil_append,
    reencode_ascii _ (isAscii_append hascii hca), scanSuffix_nil, List.append_nil]

/-- C15 at the key `greeting`, in the locale of the scenarios. -/
theorem localize_closing_marker_at_end_witness :
    IsAscii (goStr "greeting") ∧ ¬ closeMarker <:+: goStr "greeting" ∧
    english.Localize (openMarker ++ goStr "greeting" ++ closeMarker) =
      .ok (english.Translate (goStr "greeting" ++ closeMarker)) :=
  ⟨by decide, by decide,
    localize_closing_marker_at_end english (goStr "greeting") (by decide) (by decide)⟩

/-- C16: on a template `t` without the opening marker, `Localize(t)` is the
concatenation over the bytes `b` of `t` of `b` itself when `b < 0x80` and of the two
bytes `0xC0 | (b >> 6)`, `0x80 | (b & 0x3F)` otherwise; its length is the length of
`t` plus the number of bytes of `t` that are `>= 0x80`; and it is `t` exactly when `t`
is pure ASCII. -/
theorem localize_reencodes_bytes (locale : Locale) (t : GoString)
    (ht : ¬ openMarker <:+: t) :
    locale.Localize t =
      .ok ((t.map (fun b : Byte =>
        if b.val < 0x80 then [b]
        else [(Fin.ofNat (0xC0 ||| (b.val >>> 6)) : Byte),
          Fin.ofNat (0x80 ||| (b.val &&& 0x3F))])).flatten) ∧
    (∀ out, locale.Localize t = .ok out →
      out.length = t.length + t.countP (fun b => decide (0x80 ≤ b.val))) ∧
    (locale.Localize t = .ok t ↔ IsAscii t) := by
  have hl := localize_without_marker locale t ht
  refine ⟨?_, ?_, ?_⟩
  · rw [hl]
    have hf : (fun b : Byte =>
        if b.val < 0x80 then [b]
        else [(Fin.ofNat (0xC0 ||| (b.val >>> 6)) : Byte),
          Fin.ofNat (0x80 ||| (b.val &&& 0x3F))]) = stringOfByte := by
      funext b
      unfold stringOfByte
      rw [(byte_bit_operations b).1, (byte_bit_operations b).2]
    rw [hf]
    rfl
  · intro out h
    rw [hl] at h
    simp only [Except.ok.injEq] at h
    rw [← h, length_reencode]
  · rw [hl]
    simp only [Except.ok.injEq]
    exact reencode_eq_self_iff t

/-- C16 at the template `é` (bytes C3 A9). -/
theorem localize_reencodes_bytes_witness :
    ¬ openMarker <:+: goStr "é" ∧
    english.Localize (goStr "é") = .ok [0xC3, 0x83, 0xC2, 0xA9] ∧
    (∀ out, english.Localize (goStr "é") = .ok out → out.length = 2 + 2) ∧
    (english.Localize (goStr "é") = .ok (goStr "é") ↔ IsAscii (goStr "é")) :=
  ⟨by decide,
    (localize_reencodes_bytes english (goStr "é") (by decide)).1,
    (localize_reencodes_bytes english (goStr "é") (by decide)).2.1,
    (localize_reencodes_bytes english (goStr "é") (by decide)).2.2⟩

/-- C17: literal ASCII text `p` without the opening marker and not ending with an
opening brace is copied verbatim, and what follows is scanned as if it stood alone:
`Localize(p + t) = p + Localize(t)`. -/
theorem localize_literal_then_rest (locale : Locale) (p t : GoString) (hp : IsAscii p)
    (hpo : ¬ openMarker <:+: p) (hend : p.getLast? ≠ some 0x7B) :
    ∃ out, locale.Localize t = .ok out ∧ locale.Localize (p ++ t) = .ok (p ++ out) := by
  refine ⟨scanSuffix locale t, Localize_eq locale t, ?_⟩
  rw [Localize_eq, scanSuffix_literal locale p t hpo (Or.inl hend), reencode_ascii p hp]

/-- C17 at the literal text `Hi, ` followed by a key reference and more text. -/
theorem localize_literal_then_rest_witness :
    IsAscii (goStr "Hi, ") ∧ ¬ openMarker <:+: goStr "Hi, " ∧
    (goStr "Hi, ").getLast? ≠ some 0x7B ∧
    ∃ out, english.Localize (goStr "\x7b.greeting.\x7d!") = .ok out ∧
      english.Localize (goStr "Hi, " ++ goStr "\x7b.greeting.\x7d!") =
        .ok (goStr "Hi, " ++ out) :=
  ⟨by decide, by decide, by decide,
    localize_literal_then_rest english (goStr "Hi, ") (goStr "\x7b.greeting.\x7d!")
      (by decide) (by decide) (by decide)⟩

/-- C18: `Localize` is a single left-to-right pass that ends: the two loops are the
iterations of their bodies as long as `pos < len(template)`; an iteration of the
inner loop and an iteration of the outer loop each end with `pos` at least one
higher and not above `len(template)`; a marker is only recognised at a `pos` with
`pos + 2 < len(template)`, so the step over it stays below `len(template)`; and the
run returns within `len(template)` iterations of the outer loop. -/
theorem localize_single_pass (locale : Locale) (template : GoString) :
    (∀ fuel pos key, captureLoop template (fuel + 1) pos key =
      if pos < template.length then
        captureIter template pos key >>= fun r =>
          if r.1 then captureLoop template fuel r.2.1 r.2.2 else pure (r.2.1, r.2.2)
      else pure (pos, key)) ∧
    (∀ fuel pos result, localizeLoop locale template (fuel + 1) pos result =
      if pos < template.length then
        localizeIter locale template pos result >>= fun r =>
          localizeLoop locale template fuel r.1 r.2
      else pure result) ∧
    (∀ pos key, pos < template.length →
      ∃ c pos2 key2, captureIter template pos key = .ok (c, pos2, key2) ∧
        pos + 1 ≤ pos2 ∧ pos2 ≤ template.length) ∧
    (∀ pos result, pos < template.length →
      ∃ pos2 result2, localizeIter locale template pos result = .ok (pos2, result2) ∧
        pos + 1 ≤ pos2 ∧ pos2 ≤ template.length) ∧
    (∀ pos marker, markerAt template marker pos = .ok true → pos + 2 < template.length) ∧
    (∃ out, localizeLoop locale template (template.length + 1) 0 [] = .ok out ∧
      locale.Localize template = .ok out) :=
  ⟨captureLoop_succ template, localizeLoop_succ locale template,
    captureIter_advances template, localizeIter_advances locale template,
    markerAt_true_bound template,
    scanSuffix locale template, Localize_eq locale template, Localize_eq locale template⟩

/-- C18 at the first iteration of each loop on the template of the first scenario. -/
theorem localize_single_pass_witness :
    0 < (goStr "\x7b.greeting.\x7d, world!").length ∧
    (∃ pos2 result2,
      localizeIter english (goStr "\x7b.greeting.\x7d, world!") 0 [] = .ok (pos2, result2) ∧
        0 + 1 ≤ pos2 ∧ pos2 ≤ (goStr "\x7b.greeting.\x7d, world!").length) ∧
    (∃ c pos2 key2,
      captureIter (goStr "\x7b.greeting.\x7d, world!") 2 [] = .ok (c, pos2, key2) ∧
        2 + 1 ≤ pos2 ∧ pos2 ≤ (goStr "\x7b.greeting.\x7d, world!").length) :=
  ⟨by decide,
    (localize_single_pass english (goStr "\x7b.greeting.\x7d, world!")).2.2.2.1 0 []
      (by decide),
    (localize_single_pass english (goStr "\x7b.greeting.\x7d, world!")).2.2.1 2 []
      (by decide)⟩

/-- C19 (failing input): of the 228 constants of package `language`, all with
different identifiers, two do not have the value that their identifier gives:
`EN_CB` is `"en-DB"`, not `"en-CB"`, and `EU_ES` is `"es-ES"`, not `"eu-ES"`; so the
different constants `ES_ES` and `EU_ES` have the same value.  `AF`, `EN_US` and
`KOK_IN` have the values of the rule. -/
theorem languageCodes_against_identifiers :
    languageCodes.length = 228 ∧ (languageCodes.map Prod.fst).Nodup ∧
    languageCodes.filter (fun e => decide (valueOfIdentifier e.1 ≠ e.2)) =
      [("EN_CB", "en-DB"), ("EU_ES", "es-ES")] ∧
    valueOfIdentifier "EN_CB" = "en-CB" ∧ valueOfIdentifier "EU_ES" = "eu-ES" ∧
    languageCodes.lookup "ES_ES" = some "es-ES" ∧
    languageCodes.lookup "EU_ES" = some "es-ES" ∧
    languageCodes.lookup "AF" = some "af" ∧ languageCodes.lookup "EN_US" = some "en-US" ∧
    languageCodes.lookup "KOK_IN" = some "kok-IN" := by
  decide

end Gocale
